import Mathlib

/-!
# The shell of `shell.c`: history store, tokenizer, execution planner, line editor

A shallow embedding of the C sources (`shell.c`, with its siblings `key_shell.c` and
`arrows.c` where they differ) and the properties of the specification proved or
refuted on it.

Conventions of the embedding:

* a C string is the list of its characters before the terminating NUL (`CStr`);
* a C `int` is an `Int` (no computation of the program comes near the 32-bit range);
* an access outside an array, or through a null pointer, ends the run with `Res.fault`;
* so does the use of a value that the source leaves undefined (the result of
  `read_arrow_key` after an arrow that cannot move the cursor);
* `exit(0)` ends it with `Res.exited`, a `getchar()` on exhausted input with `Res.blocked`;
* loops are bounded recursions; `Res.fuel` is the result of an exhausted bound and is
  shown not to occur.
-/

namespace Shell

/-- A C string: the characters before the terminating NUL. -/
abbrev CStr := List Char

/-- Result of running a fragment of the program. The payload `ε` of the abnormal results
is what the run had produced when it stopped. -/
inductive Res (ε α : Type) where
  | ok (a : α)
  | fault (e : ε)
  | exited (e : ε)
  | blocked (e : ε)
  | fuel
  deriving DecidableEq, Repr

/-- Sequencing of two fragments: the second runs only when the first ended normally. -/
def Res.bind {ε α β : Type} : Res ε α → (α → Res ε β) → Res ε β
  | .ok a, f => f a
  | .fault e, _ => .fault e
  | .exited e, _ => .exited e
  | .blocked e, _ => .blocked e
  | .fuel, _ => .fuel

instance (ε : Type) : Monad (Res ε) where
  pure := Res.ok
  bind := Res.bind

/-! ## History store (`history`, `history_count`, `history_index`) -/

/-- The macro `HISTORY_SIZE`. -/
def HISTORY_SIZE : Nat := 100

/-- Size of one row of `char history[HISTORY_SIZE][1000]`. -/
def ROW_SIZE : Nat := 1000

/-- The three history globals. A row of `history` is kept as the C string it holds. -/
structure HistoryStore where
  history : List CStr
  history_count : Int
  history_index : Int
  deriving DecidableEq, Repr

/-- Reading `history[i]` as a string. -/
def row_get (hist : List CStr) (i : Int) : Res Unit CStr :=
  if 0 ≤ i ∧ i < HISTORY_SIZE then
    match hist[i.toNat]? with
    | some s => .ok s
    | none => .fault ()
  else .fault ()

/-- The call `strcpy(history[i], s)`: the string and its NUL must fit the row. -/
def row_strcpy (hist : List CStr) (i : Int) (s : CStr) : Res Unit (List CStr) :=
  if 0 ≤ i ∧ i < HISTORY_SIZE ∧ i.toNat < hist.length ∧ s.length < ROW_SIZE then
    .ok (hist.set i.toNat s)
  else .fault ()

/-- The loop `for (i = ..; i < HISTORY_SIZE; i++) strcpy(history[i - 1], history[i]);`
with `n` iterations left, `n = HISTORY_SIZE - i`. -/
def shift_rows : Nat → Int → List CStr → Res Unit (List CStr)
  | 0, _, hist => .ok hist
  | n + 1, i, hist => do
    let s ← row_get hist i
    let hist1 ← row_strcpy hist (i - 1) s
    shift_rows n (i + 1) hist1

/-- The function `add_to_history` (identical in `shell.c`, `key_shell.c`, `arrows.c`). -/
def add_to_history (hs : HistoryStore) (cmd : CStr) : Res Unit HistoryStore := do
  let (hist, count) ←
    (if hs.history_count = HISTORY_SIZE then do
      let h ← shift_rows (HISTORY_SIZE - 1) 1 hs.history
      pure (h, hs.history_count - 1)
    else (pure (hs.history, hs.history_count) : Res Unit (List CStr × Int)))
  let hist1 ← row_strcpy hist count cmd
  pure { history := hist1, history_count := count + 1, history_index := count + 1 }

/-- The store holds the command sequence `h`: it has its `HISTORY_SIZE` rows, each within
the row size, `history_count` is the length of `h` and the first rows are `h`. -/
def Holds (hs : HistoryStore) (h : List CStr) : Prop :=
  hs.history.length = HISTORY_SIZE ∧ (∀ r ∈ hs.history, r.length < ROW_SIZE) ∧
    hs.history_count = h.length ∧ hs.history.take h.length = h

instance (hs : HistoryStore) (h : List CStr) : Decidable (Holds hs h) := by
  unfold Holds; infer_instance

/-- Bounded-FIFO reference: the last `HISTORY_SIZE` elements of a sequence. -/
def last_entries (l : List CStr) : List CStr :=
  l.drop (l.length - HISTORY_SIZE)

/-- The store right after program start: zero-initialised globals. -/
def empty_store : HistoryStore :=
  { history := List.replicate HISTORY_SIZE [], history_count := 0, history_index := 0 }

/-- A full history: row `i` holds `i` letters `x`. -/
def full_rows : List CStr := (List.range HISTORY_SIZE).map fun i => List.replicate i 'x'

/-- A store whose hundred rows are all in use, the cursor on row 3. -/
def full_store : HistoryStore :=
  { history := full_rows, history_count := 100, history_index := 3 }

/-! ## Tokenizer (`tokens`, `tokenize_str`) -/

/-- A cell of an array of `char*`: `NULL`, a pointer to a string, or a cell of a local
array that was never assigned (its value is indeterminate). -/
inductive Slot where
  | null
  | str (s : CStr)
  | junk
  deriving DecidableEq, Repr

/-- Length of the arrays `tokens`, `first_phrase` and `curr_phrase`. -/
def MAX_TOKENS : Nat := 100

/-- An optional value as a run result: `none` is an invalid access. -/
def orFault {ε α : Type} (e : ε) : Option α → Res ε α
  | some a => .ok a
  | none => .fault e

/-- Reading cell `i` of a pointer array. -/
def slot_get (a : List Slot) (i : Int) : Option Slot :=
  if 0 ≤ i then a[i.toNat]? else none

/-- Writing cell `i` of a pointer array. -/
def slot_set (a : List Slot) (i : Int) (v : Slot) : Option (List Slot) :=
  if 0 ≤ i ∧ i.toNat < a.length then some (a.set i.toNat v) else none

/-- The library call `strsep(&str, delim)` on a non-null `str`, for a one-character
delimiter set: the token before the first delimiter, and what `str` points to afterwards
(`none` is `NULL`: no delimiter was found). -/
def strsep_at (delim : Char) : CStr → CStr × Option CStr
  | [] => ([], none)
  | c :: cs =>
    if c = delim then ([], some cs)
    else ((c :: (strsep_at delim cs).1), (strsep_at delim cs).2)

/-- The call `strsep(&str, " ")`: returned pointer and new value of `str`. -/
def strsep (str : Option CStr) : Option CStr × Option CStr :=
  match str with
  | none => (none, none)
  | some s => (some (strsep_at ' ' s).1, (strsep_at ' ' s).2)

/-- The `for` loop of `tokenize_str`, entered at the test `i < 100`. The first argument
bounds the number of iterations. -/
def tokenize_loop : Nat → Int → Option CStr → List Slot → Res Unit (List Slot)
  | 0, _, _, _ => .fuel
  | fuel + 1, i, str, tokens =>
    if i < 100 then
      match strsep str with
      | (none, _) => orFault () (slot_set tokens i .null)
      | (some t, str1) => do
        let tokens1 ← orFault () (slot_set tokens i (.str t))
        let i1 := if t.length = 0 then i - 1 else i
        tokenize_loop fuel (i1 + 1) str1 tokens1
    else .ok tokens

/-- The function `tokenize_str`: every `strsep` call but the last consumes a space of the
line, so `length + 2` iterations are enough. -/
def tokenize_str (str : CStr) (tokens : List Slot) : Res Unit (List Slot) :=
  tokenize_loop (str.length + 2) 0 (some str) tokens

/-- The pointers of a `NULL`-terminated array: the cells before the first `NULL`. -/
def until_null (a : List Slot) : List Slot :=
  a.takeWhile (fun s => decide (s ≠ Slot.null))

/-- Reference tokenizer: the non-empty pieces of the line split at every space. -/
def reference_tokens (line : CStr) : List CStr :=
  (line.splitOn ' ').filter (fun p => decide (p ≠ []))

/-- The array `tokens` at program start: a zero-initialised global. -/
def no_tokens : List Slot := List.replicate MAX_TOKENS Slot.null

/-! ## Execution planner and launcher (`parse_string`, `builtin_cmd_handler`, `process`)

System calls are recorded as a trace of effects. `fork`, `pipe`, `dup` and `dup2` are
taken to succeed; whether `open` and `chdir` succeed is given by the environment. -/

/-- The three flag sets `parse_string` passes to `open`. -/
inductive OpenMode where
  /-- The flags `O_RDONLY`. -/
  | rdonly
  /-- The flags `O_WRONLY | O_TRUNC | O_CREAT`. -/
  | trunc
  /-- The flags `O_WRONLY | O_APPEND | O_CREAT`. -/
  | append
  deriving DecidableEq, Repr

/-- What a standard descriptor refers to. -/
inductive Desc where
  /-- What the descriptor referred to when the shell started. -/
  | tty
  | file (path : CStr) (mode : OpenMode)
  | pipe_read
  | pipe_write
  deriving DecidableEq, Repr

/-- The diagnostics of `parse_string` and `builtin_cmd_handler`. -/
inductive Msg where
  | no_tokens
  | redir_in
  | redir_out
  | redir_append
  | cd
  deriving DecidableEq, Repr

/-- One `execvp` call in a forked child: the file, the `NULL`-terminated argument array,
the child's standard input and output, and whether the shell waits for the child. -/
structure Launch where
  file : Slot
  argv : List Slot
  fd0 : Desc
  fd1 : Desc
  waited : Bool
  deriving DecidableEq, Repr

/-- The observable actions of the planner. -/
inductive Effect where
  | perror (m : Msg)
  | exec (l : Launch)
  | chdir_home
  | chdir (path : CStr)
  | print_history (rows : List CStr) (fd1 : Desc)
  deriving DecidableEq, Repr

/-- The part of the system the planner depends on. -/
structure Env where
  can_open : CStr → OpenMode → Bool
  can_chdir : CStr → Bool

/-- The global `tokens`, descriptors 0 and 1 of the shell, the trace so far, and the
locals `first_phrase`, `curr_phrase` and `is_piped` of `parse_string`. -/
structure Frame where
  tokens : List Slot
  fd0 : Desc
  fd1 : Desc
  trace : List Effect
  first_phrase : List Slot
  curr_phrase : List Slot
  is_piped : Int
  deriving DecidableEq, Repr

/-- The call `open(name, flags, 0666)`: fails on a pointer that is no string. -/
def sys_open (env : Env) (name : Slot) (mode : OpenMode) : Option Desc :=
  match name with
  | .str path => if env.can_open path mode then some (.file path mode) else none
  | _ => none

/-- The effect of `if (fd < 0 || dup2(fd, ..) < 0) perror(..);` after an `open`: the
descriptor 0 (read-only mode) or 1 of the shell is bound to the opened file, or the
failure is reported. -/
def bind_desc (f : Frame) (mode : OpenMode) (opened : Option Desc) (m : Msg) : Frame :=
  { f with
    fd0 := (match opened with
      | some d => if mode = .rdonly then d else f.fd0
      | none => f.fd0)
    fd1 := (match opened with
      | some d => if mode = .rdonly then f.fd1 else d
      | none => f.fd1)
    trace := (match opened with
      | some _ => f.trace
      | none => f.trace ++ [.perror m]) }

/-- The body shared by the five redirection branches of `parse_string`, for the operator
in cell `i`: open `tokens[i + 1]`, bind descriptor 0 (read-only mode) or 1 to it, or
report with `perror`; then `tokens[i] = NULL; tokens[i + 1] = NULL;`. -/
def redirect (env : Env) (f : Frame) (i : Int) (mode : OpenMode) (m : Msg) :
    Res (List Effect) Frame :=
  (orFault f.trace (slot_get f.tokens (i + 1))).bind fun name =>
  (orFault (bind_desc f mode (sys_open env name mode) m).trace
    (slot_set f.tokens i .null)).bind fun t1 =>
  (orFault (bind_desc f mode (sys_open env name mode) m).trace
    (slot_set t1 (i + 1) .null)).bind fun t2 =>
  .ok { bind_desc f mode (sys_open env name mode) m with tokens := t2 }

/-- The first `while` loop of `parse_string` (variables `k` and `pp`): the output
redirection that follows a pipe. -/
def scan_loop (env : Env) : Nat → Int → Int → Frame → Res (List Effect) Frame
  | 0, _, _, _ => .fuel
  | fuel + 1, k, pp, f => do
    let c ← orFault f.trace (slot_get f.tokens k)
    match c with
    | .null => pure f
    | .junk => .fault f.trace
    | .str t =>
      let pp1 : Int := if t = ['|'] then 1 else pp
      if pp1 = 1 then
        if t = ['>'] then redirect env f k .trunc .redir_out
        else if t = ['>', '>'] then redirect env f k .append .redir_append
        else scan_loop env fuel (k + 1) pp1 f
      else scan_loop env fuel (k + 1) pp1 f

/-- The inner `while` loop of the pipe branch: moves the tokens after the pipe to
`curr_phrase`. Returns the final `i` and `j`. -/
def collect_loop : Nat → Int → Int → Frame → Res (List Effect) (Int × Int × Frame)
  | 0, _, _, _ => .fuel
  | fuel + 1, i, j, f => do
    let c ← orFault f.trace (slot_get f.tokens i)
    if c = .null then pure (i, j, f)
    else do
      let cp ← orFault f.trace (slot_set f.curr_phrase j c)
      let tk ← orFault f.trace (slot_set f.tokens i .null)
      collect_loop fuel (i + 1) (j + 1) { f with curr_phrase := cp, tokens := tk }

/-- The second `while` loop of `parse_string` (variable `i`): redirections and the pipe. -/
def redir_loop (env : Env) : Nat → Int → Frame → Res (List Effect) Frame
  | 0, _, _ => .fuel
  | fuel + 1, i, f => do
    let c ← orFault f.trace (slot_get f.tokens i)
    match c with
    | .null => pure f
    | .junk => .fault f.trace
    | .str t => do
      let fp ← orFault f.trace (slot_set f.first_phrase i c)
      let f0 : Frame := { f with first_phrase := fp }
      if t = ['<'] then do
        let f1 ← redirect env f0 i .rdonly .redir_in
        redir_loop env fuel (i + 2) f1
      else if t = ['>'] then do
        let f1 ← redirect env f0 i .trunc .redir_out
        redir_loop env fuel (i + 2) f1
      else if t = ['>', '>'] then do
        let f1 ← redirect env f0 i .append .redir_append
        redir_loop env fuel (i + 2) f1
      else if t = ['|'] then do
        let fp1 ← orFault f0.trace (slot_set f0.first_phrase i .null)
        let tk1 ← orFault f0.trace (slot_set f0.tokens i .null)
        let (i1, j, f2) ← collect_loop (MAX_TOKENS + 1) (i + 1) 0
          { f0 with first_phrase := fp1, tokens := tk1, is_piped := 1 }
        let cp ← orFault f2.trace (slot_set f2.curr_phrase j .null)
        let file1 ← orFault f2.trace (slot_get f2.first_phrase 0)
        let file2 ← orFault f2.trace (slot_get cp 0)
        let left : Launch := ⟨file1, until_null f2.first_phrase, f2.fd0, .pipe_write, true⟩
        let right : Launch := ⟨file2, until_null cp, .pipe_read, f2.fd1, true⟩
        redir_loop env fuel i1
          { f2 with curr_phrase := cp, trace := f2.trace ++ [.exec left, .exec right] }
      else redir_loop env fuel (i + 1) f0

/-- The loop of `print_history` over the rows `i .. history_count - 1`, `n` of them. -/
def history_rows (hs : HistoryStore) : Nat → Int → Option (List CStr)
  | 0, _ => some []
  | n + 1, i =>
    match row_get hs.history i with
    | .ok r => (history_rows hs n (i + 1)).map (fun rs => r :: rs)
    | _ => none

/-- The function `builtin_cmd_handler` of `shell.c`; the result is its return value. The
search loop over `cmd_list` compares `tokens[0]` with `exit`, `cd` and `history` in this
order (`curr_arg` 1, 2, 3, or 0 when none matches); `cd` then reads `*tokens[1]`. -/
def builtin_cmd_handler (env : Env) (hs : HistoryStore) (f : Frame) :
    Res (List Effect) (Int × Frame) :=
  match slot_get f.tokens 0 with
  | some (.str t) =>
    if t = "exit".toList then .exited f.trace
    else if t = "cd".toList then
      match slot_get f.tokens 1 with
      | some (.str path) =>
        if path.head? = some '~' then
          .ok (1, { f with trace := f.trace ++ [.chdir_home] })
        else if env.can_chdir path then
          .ok (1, { f with trace := f.trace ++ [.chdir path] })
        else
          .ok (1, { f with trace := f.trace ++ [.chdir path, .perror .cd] })
      | _ => .fault f.trace
    else if t = "history".toList then
      match history_rows hs hs.history_count.toNat 0 with
      | some rows => .ok (1, { f with trace := f.trace ++ [.print_history rows f.fd1] })
      | none => .fault f.trace
    else .ok (0, f)
  | _ => .fault f.trace

/-- The `for` loop of `process`: the first `&` is replaced by `NULL`. Returns
`is_background` and the array. -/
def background_loop : Nat → Int → Frame → Res (List Effect) (Int × Frame)
  | 0, _, _ => .fuel
  | fuel + 1, i, f => do
    let c ← orFault f.trace (slot_get f.tokens i)
    match c with
    | .null => pure (0, f)
    | .junk => .fault f.trace
    | .str t =>
      if t = ['&'] then do
        let tk ← orFault f.trace (slot_set f.tokens i .null)
        pure (1, { f with tokens := tk })
      else background_loop fuel (i + 1) f

/-- The function `process`: one child running `execvp(tokens[0], tokens)`, awaited unless
a `&` was found. -/
def process (f : Frame) : Res (List Effect) Frame := do
  let (is_background, f1) ← background_loop (MAX_TOKENS + 1) 0 f
  let file ← orFault f1.trace (slot_get f1.tokens 0)
  let l : Launch := ⟨file, until_null f1.tokens, f1.fd0, f1.fd1, decide (is_background < 1)⟩
  pure { f1 with trace := f1.trace ++ [.exec l] }

/-- The end of `parse_string`, from the call of `builtin_cmd_handler` on: dispatch of a
built-in or of `process`, and the restoring of descriptors 0 and 1 to `fd0`, `fd1`. -/
def dispatch (env : Env) (hs : HistoryStore) (fd0 fd1 : Desc) (f2 : Frame) :
    Res (List Effect) Frame :=
  (builtin_cmd_handler env hs f2).bind fun r =>
    (if r.1 ≠ 0 then Res.ok { r.2 with fd0 := fd0, fd1 := fd1 }
     else if r.2.is_piped = 0 then process r.2
     else Res.ok r.2).bind fun f4 =>
    .ok { f4 with fd0 := fd0, fd1 := fd1 }

/-- The function `parse_string` after its call of `tokenize_str`: `tokens` is the global
array, `fd0` and `fd1` what descriptors 0 and 1 refer to on entry (saved by `dup`,
restored at the end). -/
def parse_tokens (env : Env) (hs : HistoryStore) (tokens : List Slot) (fd0 fd1 : Desc) :
    Res (List Effect) Frame := do
  let t0 ← orFault [] (slot_get tokens 0)
  let trace : List Effect := if t0 = .null then [.perror .no_tokens] else []
  let fp ← orFault trace (slot_set (List.replicate MAX_TOKENS Slot.junk) 0 t0)
  let f : Frame :=
    { tokens := tokens, fd0 := fd0, fd1 := fd1, trace := trace, first_phrase := fp,
      curr_phrase := List.replicate MAX_TOKENS Slot.junk, is_piped := 0 }
  let f1 ← scan_loop env (MAX_TOKENS + 1) 0 0 f
  let f2 ← redir_loop env (MAX_TOKENS + 1) 1 f1
  dispatch env hs fd0 fd1 f2

/-- A result with another payload for the abnormal cases. -/
def Res.withPayload {ε δ α : Type} (d : δ) : Res ε α → Res δ α
  | .ok a => .ok a
  | .fault _ => .fault d
  | .exited _ => .exited d
  | .blocked _ => .blocked d
  | .fuel => .fuel

/-- The function `parse_string`. -/
def parse_string (env : Env) (hs : HistoryStore) (str : CStr) (tokens : List Slot)
    (fd0 fd1 : Desc) : Res (List Effect) Frame := do
  let tk ← (tokenize_str str tokens).withPayload []
  parse_tokens env hs tk fd0 fd1

/-- The `execvp` calls of a trace, in order. -/
def launches : List Effect → List Launch
  | [] => []
  | .exec l :: es => l :: launches es
  | _ :: es => launches es

/-- The trace of a run, also of one that stopped abnormally. -/
def trace_of : Res (List Effect) Frame → List Effect
  | .ok f => f.trace
  | .fault e => e
  | .exited e => e
  | .blocked e => e
  | .fuel => []

/-- An environment in which every `open` and `chdir` succeeds. -/
def permissive : Env := { can_open := fun _ _ => true, can_chdir := fun _ => true }

/-! ### Vocabulary of the statements about the planner -/

/-- The array `tokens` holding the token list `toks`: the tokens, the `NULL` terminator
written by `tokenize_str`, and the cells `stale` left from earlier lines. -/
def token_array (toks : List CStr) (stale : List Slot) : List Slot :=
  toks.map Slot.str ++ Slot.null :: stale

/-- The tokens `<`, `>` and `>>`. -/
def is_redir (t : CStr) : Bool :=
  decide (t = ['<']) || decide (t = ['>']) || decide (t = ['>', '>'])

/-- The names recognised by `builtin_cmd_handler`. -/
def is_builtin (t : CStr) : Bool :=
  decide (t = "exit".toList) || decide (t = "cd".toList) || decide (t = "history".toList)

/-- The flags `parse_string` opens the file of an operator with. -/
def mode_of (op : CStr) : OpenMode :=
  if op = ['<'] then .rdonly else if op = ['>'] then .trunc else .append

/-- Every redirection operator of the list is followed by a filename: a token that is
not itself a redirection operator. -/
def redirs_have_files : List CStr → Bool
  | [] => true
  | t :: rest =>
    (if is_redir t then
      (match rest with
        | [] => false
        | file :: _ => !is_redir file)
     else true) && redirs_have_files rest

/-- Every file named after a redirection operator of the list can be opened with the
flags of that operator. -/
def files_openable (env : Env) : List CStr → Bool
  | [] => true
  | t :: rest =>
    (if is_redir t then
      (match rest with
        | [] => true
        | file :: _ => env.can_open file (mode_of t))
     else true) && files_openable env rest

/-- The last token of the list that is one of `ops`, with the token written after it. -/
def last_redirection (ops : List CStr) : List CStr → Option (CStr × CStr)
  | [] => none
  | t :: rest =>
    match last_redirection ops rest with
    | some r => some r
    | none => if t ∈ ops then rest.head?.map (fun file => (t, file)) else none

/-- The binding of a descriptor that the operators `ops` of a token list ask for: the
file after the last of them, opened in the mode of that operator; `d` when there is none. -/
def bound_to (ops : List CStr) (toks : List CStr) (d : Desc) : Desc :=
  match last_redirection ops toks with
  | some (op, file) => .file file (mode_of op)
  | none => d

/-- An ordinary token: neither a redirection operator nor the pipe. -/
def is_plain (t : CStr) : Bool :=
  !is_redir t && decide (t ≠ ['|'])

/-- The claim of the specification about argv: the token list with each redirection
operator and the token that follows it removed, every other token kept. -/
def without_redirections : List CStr → List CStr
  | [] => []
  | [t] => if is_redir t then [] else [t]
  | t :: file :: rest =>
    if is_redir t then without_redirections rest
    else t :: without_redirections (file :: rest)

/-- The tokens of the line `sort < in.txt > out.txt`. -/
def sort_line : List CStr :=
  ["sort".toList, "<".toList, "in.txt".toList, ">".toList, "out.txt".toList]

/-- The tokens of the line `sort < in.txt -r`. -/
def sort_reverse_line : List CStr :=
  ["sort".toList, "<".toList, "in.txt".toList, "-r".toList]

/-- The cells of a fresh `tokens` array after a line of `n` tokens and its terminator. -/
def fresh_cells (n : Nat) : List Slot :=
  List.replicate (MAX_TOKENS - (n + 1)) Slot.null

/-- The tokens of the line `cat file | grep foo > out.txt`. -/
def cat_grep_line : List CStr :=
  ["cat".toList, "file".toList, "|".toList, "grep".toList, "foo".toList, ">".toList,
    "out.txt".toList]

/-- The tokens of the line `< in.txt cat`: an operator as first token. -/
def leading_redirect_line : List CStr :=
  ["<".toList, "in.txt".toList, "cat".toList]

/-- The tokens of the line `cat | sort < in.txt`: an input redirection after the pipe. -/
def input_after_pipe_line : List CStr :=
  ["cat".toList, "|".toList, "sort".toList, "<".toList, "in.txt".toList]

/-- The tokens of the line `sort < in.txt | head`: a redirection before the pipe. -/
def input_before_pipe_line : List CStr :=
  ["sort".toList, "<".toList, "in.txt".toList, "|".toList, "head".toList]

/-! ## Line editor (`getch`, `read_arrow_key`, `get_input`)

The terminal is a line of cells with a cursor; standard input is the list of the bytes
still to be read. -/

/-- The byte `ESC`. -/
def ESC : Char := Char.ofNat 27

/-- The byte `DEL` sent by the Backspace key. -/
def DEL : Char := Char.ofNat 127

/-- The terminating byte of a C string. -/
def NUL : Char := Char.ofNat 0

/-- The control character backspace, written as `\b` in the sources. -/
def BS : Char := Char.ofNat 8

/-- The current line of the terminal and the column of its cursor. -/
structure Term where
  line : List Char
  col : Nat
  deriving DecidableEq, Repr

/-- Output of one character: backspace moves the cursor left, a newline starts an empty
line, any other character is written at the cursor, which moves right. -/
def Term.put (t : Term) (c : Char) : Term :=
  if c = BS then { t with col := t.col - 1 }
  else if c = '\n' then { line := [], col := 0 }
  else { line := t.line.take t.col ++ c :: t.line.drop (t.col + 1), col := t.col + 1 }

/-- Output of a string. -/
def Term.puts (t : Term) (s : List Char) : Term :=
  s.foldl Term.put t

/-- The loop `for (i = 0; i < pos; i++) printf("\b \b");` with `n` iterations. -/
def Term.erase : Nat → Term → Term
  | 0, t => t
  | n + 1, t => Term.erase n (t.puts [BS, ' ', BS])

/-- The text drawn on the line after a prompt of `prompt` characters, up to the cursor. -/
def Term.text (prompt : Nat) (t : Term) : List Char :=
  (t.line.take t.col).drop prompt

/-- Size of the buffer `input` of `main` that `get_input` fills. -/
def INPUT_SIZE : Nat := 1000

/-- The state `get_input` works on: the history globals, the cells of the caller's
buffer `str`, the locals `pos`, `non_space` and `on_cmd_index`, the terminal and the
bytes waiting on standard input. -/
structure Editor where
  hs : HistoryStore
  str : List Char
  pos : Int
  non_space : Int
  on_cmd_index : Int
  tty : Term
  stdin : List Char
  deriving DecidableEq, Repr

/-- The string a buffer holds: its cells before the first `NUL`; `none` when the buffer
has no `NUL`, so that reading the string runs past its end. -/
def buf_cstr : List Char → Option CStr
  | [] => none
  | c :: cs => if c = NUL then some [] else (buf_cstr cs).map (fun s => c :: s)

/-- The call `strcpy(buf, s)`: the characters of `s` and a `NUL` overwrite the first
cells. -/
def buf_strcpy (buf : List Char) (s : CStr) : Option (List Char) :=
  if s.length < buf.length then some (s ++ NUL :: buf.drop (s.length + 1)) else none

/-- The assignment `buf[i] = c`. -/
def buf_set (buf : List Char) (i : Int) (c : Char) : Option (List Char) :=
  if 0 ≤ i ∧ i.toNat < buf.length then some (buf.set i.toNat c) else none

/-- The function `getch`: the next byte of standard input, read without echo. -/
def getch (e : Editor) : Res Editor (Char × Editor) :=
  match e.stdin with
  | [] => .blocked e
  | c :: cs => .ok (c, { e with stdin := cs })

/-- The function `read_arrow_key` of `shell.c` and `key_shell.c`. An arrow that can move
`history_index` moves it and is returned as `U` or `D`. Every other path reaches the end
of the function, where `arrows.c` has `return key;` and `shell.c` and `key_shell.c` have
no `return` statement (it is commented out in `key_shell.c`). For a byte that is no arrow
the embedding hands the byte read to the caller, as the comment of the function says
(the character is read in normally). For an arrow that cannot move the cursor the source
defines no value: the result is `none`. -/
def read_arrow_key (e : Editor) : Res Editor (Option Char × Editor) :=
  (getch e).bind fun r1 =>
    if r1.1 = ESC then
      (getch r1.2).bind fun r2 =>
        if r2.1 = '[' then
          (getch r2.2).bind fun r3 =>
            if r3.1 = 'A' then
              if r3.2.hs.history_index > 0 then
                .ok (some 'U', { r3.2 with
                  hs := { r3.2.hs with history_index := r3.2.hs.history_index - 1 } })
              else .ok (none, r3.2)
            else if r3.1 = 'B' then
              if r3.2.hs.history_index < r3.2.hs.history_count then
                .ok (some 'D', { r3.2 with
                  hs := { r3.2.hs with history_index := r3.2.hs.history_index + 1 } })
              else .ok (none, r3.2)
            else .ok (some r3.1, r3.2)
        else .ok (some r2.1, r2.2)
    else .ok (some r1.1, r1.2)

/-- The assignment `ch = read_arrow_key();` of `get_input`: the use of a value that the
decoder has not defined ends the run. -/
def key_value (r : Option Char × Editor) : Res Editor (Char × Editor) :=
  match r.1 with
  | some ch => .ok (ch, r.2)
  | none => .fault r.2

/-- The call `add_to_history(str)` of `get_input`: the command is the string the buffer
holds. -/
def add_buffer_to_history (e : Editor) : Res Editor Editor :=
  match buf_cstr e.str with
  | none => .fault e
  | some cmd =>
    match add_to_history e.hs cmd with
    | .ok hs1 => .ok { e with hs := hs1 }
    | _ => .fault e

/-- The end of `get_input` after the loop: `str[pos] = '\0'; return 0;`. -/
def get_input_full (e : Editor) : Res Editor (Int × Editor) :=
  match buf_set e.str e.pos NUL with
  | some b => .ok (0, { e with str := b })
  | none => .fault e

/-- The branch of `get_input` for the results `U` and `D` of `read_arrow_key`: the line is
erased and replaced by `history[history_index]`. -/
def recall_line (ch : Char) (e : Editor) : Res Editor Editor :=
  match row_get e.hs.history e.hs.history_index with
  | .ok row =>
    match buf_strcpy e.str row with
    | some b =>
      .ok { e with
        on_cmd_index := if ch = 'U' then e.on_cmd_index + 1 else e.on_cmd_index - 1
        tty := (Term.erase e.pos.toNat e.tty).puts row
        pos := row.length
        str := b }
    | none => .fault e
  | _ => .fault e

/-- The branch of `get_input` for the newline: the result is the return value. The test
`str == NULL` of the source is left out: `str` is the buffer of `main`, never null. -/
def enter (e : Editor) : Res Editor (Int × Editor) :=
  if e.on_cmd_index > 0 then
    (add_buffer_to_history e).bind fun e1 => .ok (0, { e1 with tty := e1.tty.put '\n' })
  else if e.pos = 0 ∨ e.non_space = 0 then
    .ok (1, { e with tty := e.tty.put '\n' })
  else
    match buf_set e.str e.pos NUL with
    | some b =>
      (add_buffer_to_history { e with str := b, tty := e.tty.put '\n' }).bind fun e1 =>
        .ok (0, e1)
    | none => .fault e

/-- The `do ... while (ch != '\n' && pos < 999)` loop of `get_input` and the two
statements after it. The first argument bounds the number of iterations. -/
def get_input_loop : Nat → Editor → Res Editor (Int × Editor)
  | 0, _ => .fuel
  | fuel + 1, e =>
    ((read_arrow_key e).bind key_value).bind fun r =>
      if r.1 = 'U' ∨ r.1 = 'D' then
        (recall_line r.1 r.2).bind fun e1 =>
          if e1.pos < 999 then get_input_loop fuel e1 else get_input_full e1
      else
        let e1 : Editor :=
          if r.1.toNat > 32 ∧ r.1.toNat ≤ 126 then { r.2 with non_space := 1 } else r.2
        if r.1 = '\n' then enter e1
        else if r.1.toNat = 127 ∧ e1.pos ≥ 0 then
          let e2 : Editor := { e1 with tty := e1.tty.puts [BS, ' ', BS], pos := e1.pos - 1 }
          if e2.pos < 999 then get_input_loop fuel e2 else get_input_full e2
        else if r.1.toNat ≥ 32 ∧ r.1.toNat ≤ 126 then
          match buf_set e1.str e1.pos r.1 with
          | some b =>
            let e2 : Editor := { e1 with tty := e1.tty.put r.1, str := b, pos := e1.pos + 1 }
            if e2.pos < 999 then get_input_loop fuel e2 else get_input_full e2
          | none => .fault e1
        else if e1.pos < 999 then get_input_loop fuel e1 else get_input_full e1

/-- The function `get_input` of `shell.c`, entered with the terminal `tty` (the prompt is
on its line) and the bytes `keys` to come. Every iteration reads at least one byte, so
`length + 1` iterations are enough. The result is the return value. -/
def get_input (hs : HistoryStore) (str : List Char) (tty : Term) (keys : List Char) :
    Res Editor (Int × Editor) :=
  get_input_loop (keys.length + 1)
    { hs := hs, str := str, pos := 0, non_space := 0, on_cmd_index := 0, tty := tty,
      stdin := keys }

/-- The state of a run: of the return, or of the point where the run stopped. -/
def state_of : Res Editor (Int × Editor) → Option Editor
  | .ok r => some r.2
  | .fault e => some e
  | .exited e => some e
  | .blocked e => some e
  | .fuel => none

/-- A buffer of `INPUT_SIZE` cells filled with the letter `z`: the buffer `input` is not
initialised by `main`. -/
def dirty_buffer : List Char := List.replicate INPUT_SIZE 'z'

/-- The terminal after the prompt `~$ ` was printed. -/
def prompt_tty : Term := { line := "~$ ".toList, col := 3 }

/-- The store after the single command `ls`. -/
def ls_store : HistoryStore :=
  { history := "ls".toList :: List.replicate 99 [], history_count := 1, history_index := 1 }

/-- The return value of a run of `get_input` that returned. -/
def return_value : Res Editor (Int × Editor) → Option Int
  | .ok r => some r.1
  | _ => none

/-! ## Suggestion mode (`handle_signal`) -/

/-- Size of the buffers `cmd` and `input` of `handle_signal`. -/
def SUGGEST_SIZE : Nat := 100

/-- The inner loop over `unique_commands[0 .. unique_count - 1]`: the flag `found`. -/
def found_in : List CStr → CStr → Bool
  | [], _ => false
  | u :: us, s => if s = u then true else found_in us s

/-- The outer loop `for (i = ..; i < history_count; i++)` with `n` iterations left:
`history[i]` is appended to the candidates unless it is found among them. -/
def unique_loop (hist : List CStr) : Nat → Int → List CStr → Option (List CStr)
  | 0, _, u => some u
  | n + 1, i, u =>
    match row_get hist i with
    | .ok row => unique_loop hist n (i + 1) (if found_in u row then u else u ++ [row])
    | _ => none

/-- The candidate set `unique_commands[0 .. unique_count - 1]` built at the start of
`handle_signal`. -/
def unique_commands (hs : HistoryStore) : Option (List CStr) :=
  unique_loop hs.history hs.history_count.toNat 0 []

/-- Reference of the specification for the candidate set: the sequence with duplicates
removed, keeping the first occurrence of each string. -/
def first_occurrences : List CStr → List CStr
  | [] => []
  | x :: xs => x :: (first_occurrences xs).filter (fun y => decide (y ≠ x))

/-- The state of `handle_signal`: the history globals, the candidates, the characters
typed so far (`input[0 .. input_len - 1]`), `matched`, the string in `cmd` once it has
been written, the terminal, standard input, and what `parse_string` works on. -/
structure Suggest where
  hs : HistoryStore
  unique : List CStr
  input : List Char
  matched : Int
  cmd : Option CStr
  tty : Term
  stdin : List Char
  sig_found : Int
  tokens : List Slot
  trace : List Effect
  deriving DecidableEq, Repr

/-- The search loop over the candidates: `match_count` and `matched_command`. The test
`strncmp(unique_commands[i], input, input_len) == 0` holds when the typed characters,
none of which is `NUL`, are the first characters of the candidate. -/
def match_loop (input : List Char) : List CStr → Int × CStr → Int × CStr
  | [], acc => acc
  | u :: us, acc =>
    if input.isPrefixOf u then match_loop input us (acc.1 + 1, u)
    else match_loop input us acc

/-- The body of `if (ch >= 32 && ch <= 126 && matched != 1)`: the character is stored in
`input` and echoed; on a single match the typed characters are erased, the candidate is
printed and copied to `cmd`, and `matched` is set. -/
def suggest_key (ch : Char) (s : Suggest) : Res Suggest Suggest :=
  if s.input.length < SUGGEST_SIZE then
    let r := match_loop (s.input ++ [ch]) s.unique (0, [])
    if r.1 = 1 then
      if r.2.length < SUGGEST_SIZE then
        .ok { s with
          input := s.input ++ [ch]
          tty := (Term.erase (s.input.length + 1) (s.tty.put ch)).puts r.2
          cmd := some r.2
          matched := 1 }
      else
        .fault { s with
          input := s.input ++ [ch]
          tty := (Term.erase (s.input.length + 1) (s.tty.put ch)).puts r.2 }
    else .ok { s with input := s.input ++ [ch], tty := s.tty.put ch }
  else .fault s

/-- The branch `if (matched == 1 && ch == '\n')`: the command is added to the history
and run by `parse_string`. -/
def suggest_run (env : Env) (s : Suggest) : Res Suggest Suggest :=
  match s.cmd with
  | none => .fault s
  | some cmd =>
    match add_to_history s.hs cmd with
    | .ok hs1 =>
      match parse_string env hs1 cmd s.tokens .tty .tty with
      | .ok f =>
        .ok { s with hs := hs1, tty := s.tty.put '\n', tokens := f.tokens,
                     trace := s.trace ++ f.trace, matched := 2, sig_found := 2 }
      | .fault tr => .fault { s with hs := hs1, tty := s.tty.put '\n', trace := s.trace ++ tr }
      | .exited tr =>
        .exited { s with hs := hs1, tty := s.tty.put '\n', trace := s.trace ++ tr }
      | .blocked tr =>
        .blocked { s with hs := hs1, tty := s.tty.put '\n', trace := s.trace ++ tr }
      | .fuel => .fuel
    | _ => .fault s

/-- The `do ... while (ch != '\n')` loop of `handle_signal`. The first argument bounds
the number of iterations. -/
def suggest_loop (env : Env) : Nat → Suggest → Res Suggest Suggest
  | 0, _ => .fuel
  | fuel + 1, s =>
    match s.stdin with
    | [] => .blocked s
    | ch :: rest =>
      if s.matched = 1 ∧ ch = '\n' then suggest_run env { s with stdin := rest }
      else
        (if ch.toNat ≥ 32 ∧ ch.toNat ≤ 126 ∧ s.matched ≠ 1 then
          suggest_key ch { s with stdin := rest }
         else .ok { s with stdin := rest }).bind fun s1 =>
        if ch ≠ '\n' then suggest_loop env fuel s1 else .ok s1

/-- The function `handle_signal`, entered with `sig_found == 1`. Every iteration reads a
byte, so `length + 1` iterations are enough. -/
def handle_signal (env : Env) (hs : HistoryStore) (tokens : List Slot) (tty : Term)
    (keys : List Char) : Res Suggest Suggest :=
  match unique_commands hs with
  | some u =>
    suggest_loop env (keys.length + 1)
      { hs := hs, unique := u, input := [], matched := 0, cmd := none, tty := tty,
        stdin := keys, sig_found := 1, tokens := tokens, trace := [] }
  | none =>
    .fault { hs := hs, unique := [], input := [], matched := 0, cmd := none, tty := tty,
             stdin := keys, sig_found := 1, tokens := tokens, trace := [] }

/-- The state of a run of `handle_signal`: of its return, or of the point where the run
stopped. -/
def suggest_state : Res Suggest Suggest → Option Suggest
  | .ok s => some s
  | .fault s => some s
  | .exited s => some s
  | .blocked s => some s
  | .fuel => none

/-- The candidates that start with the characters `typed`. -/
def candidates_with (typed : List Char) (unique : List CStr) : List CStr :=
  unique.filter (fun u => typed.isPrefixOf u)

/-- A store holding the commands `rows`, the cursor at the end. -/
def store_of (rows : List CStr) : HistoryStore :=
  { history := rows ++ List.replicate (HISTORY_SIZE - rows.length) [],
    history_count := rows.length, history_index := rows.length }

/-- The history of the example of the specification. -/
def spec_rows : List CStr :=
  ["git status".toList, "git stash".toList, "ls".toList]

/-- The history of the example of the specification, with a repeated command. -/
def git_rows : List CStr :=
  spec_rows ++ ["git status".toList]

/-- Whether a run of `handle_signal` stopped on an invalid access. -/
def faulted : Res Suggest Suggest → Bool
  | .fault _ => true
  | _ => false

/-- A history whose only command has a hundred characters. -/
def long_rows : List CStr := [List.replicate 100 'a']

/-! ## The recall cursor (`history_index`) and the editor of `arrows.c` -/

/-- The adjustment of `history_index` that `get_command` of `arrows.c` makes for the
result `ch` of `read_arrow_key`, after the decoder has moved the cursor already. -/
def cursor_adjust (ch : Char) (hs : HistoryStore) : HistoryStore :=
  if ch = 'U' ∧ hs.history_index > 0 then
    { hs with history_index := hs.history_index - 1 }
  else if ch = 'D' ∧ hs.history_index < hs.history_count then
    { hs with history_index := hs.history_index + 1 }
  else hs

/-- The function `read_arrow_key` of `arrows.c`: the decoder of `shell.c` with the line
it prints after the third byte of an escape sequence, and with its `return key;`. -/
def arrows_read_arrow_key (e : Editor) : Res Editor (Char × Editor) :=
  (getch e).bind fun r1 =>
    if r1.1 = ESC then
      (getch r1.2).bind fun r2 =>
        if r2.1 = '[' then
          (getch r2.2).bind fun r3 =>
            let e3 : Editor :=
              { r3.2 with tty := r3.2.tty.puts ("\n-------->".toList ++ r3.1 :: "<-".toList) }
            if r3.1 = 'A' then
              if e3.hs.history_index > 0 then
                .ok ('U', { e3 with
                  hs := { e3.hs with history_index := e3.hs.history_index - 1 } })
              else .ok (r3.1, e3)
            else if r3.1 = 'B' then
              if e3.hs.history_index < e3.hs.history_count then
                .ok ('D', { e3 with
                  hs := { e3.hs with history_index := e3.hs.history_index + 1 } })
              else .ok (r3.1, e3)
            else .ok (r3.1, e3)
        else .ok (r2.1, r2.2)
    else .ok (r1.1, r1.2)

/-- The `do ... while (ch != '\n' && ch != escape)` loop of `get_command` in `arrows.c`
and the statement after it. The buffer `cmd` is the field `str`; the fields `non_space`
and `on_cmd_index` are not used. The first argument bounds the number of iterations. -/
def get_command_loop : Nat → Editor → Res Editor Editor
  | 0, _ => .fuel
  | fuel + 1, e =>
    (arrows_read_arrow_key e).bind fun r =>
      let e0 : Editor := { r.2 with tty := r.2.tty.puts ("\n-------->".toList ++ [r.1]) }
      if r.1 = 'U' ∨ r.1 = 'D' then
        let e1 : Editor :=
          { e0 with tty := Term.erase e0.pos.toNat e0.tty, hs := cursor_adjust r.1 e0.hs }
        match row_get e1.hs.history e1.hs.history_index with
        | .ok row =>
          match buf_strcpy e1.str row with
          | some b =>
            get_command_loop fuel { e1 with str := b, tty := e1.tty.puts row, pos := row.length }
          | none => .fault e1
        | _ => .fault e1
      else if r.1 = '\n' then
        match buf_set e0.str e0.pos NUL with
        | some b =>
          (add_buffer_to_history { e0 with str := b }).bind fun e1 =>
            .ok { e1 with tty := e1.tty.put '\n' }
        | none => .fault e0
      else if r.1.toNat = 127 ∧ e0.pos > 0 then
        get_command_loop fuel { e0 with tty := e0.tty.puts [BS, ' ', BS], pos := e0.pos - 1 }
      else if r.1.toNat ≥ 32 ∧ r.1.toNat ≤ 126 then
        match buf_set e0.str e0.pos r.1 with
        | some b =>
          get_command_loop fuel { e0 with tty := e0.tty.put r.1, str := b, pos := e0.pos + 1 }
        | none => .fault e0
      else if r.1 ≠ ESC then get_command_loop fuel e0
      else
        match buf_set e0.str e0.pos NUL with
        | some b => .ok { e0 with str := b }
        | none => .fault e0

/-- The function `get_command` of `arrows.c`, entered with the terminal `tty` and the
bytes `keys` to come. Every iteration reads at least one byte, so `length + 1`
iterations are enough. -/
def get_command (hs : HistoryStore) (cmd : List Char) (tty : Term) (keys : List Char) :
    Res Editor Editor :=
  get_command_loop (keys.length + 1)
    { hs := hs, str := cmd, pos := 0, non_space := 0, on_cmd_index := 0, tty := tty,
      stdin := keys }

/-- One event in the life of the history globals. -/
inductive HistoryEvent where
  /-- A call `add_to_history(cmd)`. -/
  | add (cmd : CStr)
  /-- A call of `read_arrow_key` of `shell.c` that finds `bytes` on standard input. -/
  | key (bytes : List Char)
  /-- A call of `read_arrow_key` of `arrows.c` that finds `bytes` on standard input. -/
  | key_arrows (bytes : List Char)
  /-- The adjustment of `get_command` in `arrows.c` for the decoder result `ch`. -/
  | adjust (ch : Char)
  deriving DecidableEq, Repr

/-- An editor state around the history globals `hs`, with `bytes` on standard input. -/
def decoder_state (hs : HistoryStore) (bytes : List Char) : Editor :=
  { hs := hs, str := [], pos := 0, non_space := 0, on_cmd_index := 0,
    tty := { line := [], col := 0 }, stdin := bytes }

/-- The history globals after a decoder call: of its return, or of the point where it
waits for a byte. -/
def globals_after {α : Type} : Res Editor (α × Editor) → Option HistoryStore
  | .ok r => some r.2.hs
  | .blocked e => some e.hs
  | _ => none

/-- The history globals after one event; `none` when `add_to_history` overruns a row. -/
def history_step (hs : HistoryStore) : HistoryEvent → Option HistoryStore
  | .add cmd =>
    match add_to_history hs cmd with
    | .ok hs1 => some hs1
    | _ => none
  | .key bytes => globals_after (read_arrow_key (decoder_state hs bytes))
  | .key_arrows bytes => globals_after (arrows_read_arrow_key (decoder_state hs bytes))
  | .adjust ch => some (cursor_adjust ch hs)

/-- The history globals after a sequence of events. -/
def history_run : List HistoryEvent → HistoryStore → Option HistoryStore
  | [], hs => some hs
  | ev :: evs, hs =>
    match history_step hs ev with
    | some hs1 => history_run evs hs1
    | none => none

/-- The bytes of the key ArrowUp. -/
def ARROW_UP : List Char := [ESC, '[', 'A']

/-- The bytes of the key ArrowDown. -/
def ARROW_DOWN : List Char := [ESC, '[', 'B']

/-- A session of `arrows.c`: two commands, two ArrowUp (each moves the cursor in the
decoder and again in `get_command`), one ArrowDown, one more command. -/
def sample_events : List HistoryEvent :=
  [.add "ls".toList, .add "pwd".toList, .key_arrows ARROW_UP, .adjust 'U',
   .key_arrows ARROW_UP, .adjust 'U', .key ARROW_DOWN, .add "date".toList]

/-- Whether a run of the editor stopped at an access outside an array. -/
def editor_faulted {α : Type} : Res Editor α → Bool
  | .fault _ => true
  | _ => false

/-- The state of a run of `get_command`: of the return, or of the point where the run
stopped. -/
def command_state : Res Editor Editor → Option Editor
  | .ok e => some e
  | .fault e => some e
  | .exited e => some e
  | .blocked e => some e
  | .fuel => none

/-- A hundred commands: command `i` is `i + 1` letters `x`. -/
def hundred_commands : List CStr :=
  (List.range HISTORY_SIZE).map fun i => List.replicate (i + 1) 'x'

/-- The store after a hundred calls of `add_to_history`, one for each command of
`hundred_commands`: the store is full and the cursor is behind the last entry. -/
def filled_store : HistoryStore :=
  { history := hundred_commands, history_count := 100, history_index := 100 }

/-- The calls `add_to_history(c)` for the commands `c` of a list, in order. -/
def add_all : List CStr → HistoryStore → Res Unit HistoryStore
  | [], hs => .ok hs
  | c :: cs, hs => (add_to_history hs c).bind (add_all cs)

/-- The buffer `input` of `main` as the line `echo hello` left it: `get_input` is handed
the same buffer for every line. -/
def used_buffer : List Char := "echo hello".toList ++ List.replicate 990 NUL

/-- Fifty commands: command `i` is `i + 1` letters `x`. -/
def fifty_commands : List CStr :=
  (List.range 50).map fun i => List.replicate (i + 1) 'x'

/-- The store after fifty calls of `add_to_history`, one for each command of
`fifty_commands`: the cursor is behind the last entry, at the newest position. -/
def half_store : HistoryStore :=
  { history := fifty_commands ++ List.replicate 50 [], history_count := 50,
    history_index := 50 }

/-- The store after the single command `ls` and one ArrowUp: the cursor is on the oldest
entry. -/
def ls_store_oldest : HistoryStore := { ls_store with history_index := 0 }

/-! ## Vocabulary and sample inputs for the error paths of the planner -/

/-- The diagnostic `parse_string` prints when the file of an operator cannot be opened. -/
def msg_of (op : CStr) : Msg :=
  if op = ['<'] then .redir_in else if op = ['>'] then .redir_out else .redir_append

/-- The frame in which `parse_string` reaches `builtin_cmd_handler` and `process` on a
line without pipe and redirection: the array as tokenised, descriptors 0 and 1 on the
terminal, nothing traced. -/
def plain_frame (tokens : List Slot) : Frame :=
  { tokens := tokens, fd0 := .tty, fd1 := .tty, trace := [],
    first_phrase := tokens, curr_phrase := List.replicate MAX_TOKENS Slot.junk,
    is_piped := 0 }

/-- The tokens of the line `sleep 5 &`. -/
def background_line : List CStr := ["sleep".toList, "5".toList, "&".toList]

/-- The tokens of the line `sleep & 5 &`: a `&` before the last one. -/
def double_background_line : List CStr :=
  ["sleep".toList, "&".toList, "5".toList, "&".toList]

/-- The tokens of the line `ls >`: an operator without its file. -/
def trailing_redirect_line : List CStr := ["ls".toList, ">".toList]

/-- The tokens of the line `sort -r < in.txt >>`. -/
def sort_trailing_line : List CStr :=
  ["sort".toList, "-r".toList, "<".toList, "in.txt".toList, ">>".toList]

/-- The array `tokens` after the line `ls -la` was run in a fresh shell. -/
def tokens_after_ls : List Slot := token_array ["ls".toList, "-la".toList] (fresh_cells 2)

/-- The array `tokens` that the line `ls >` leaves to `parse_string` when the line before
it was `echo a b c`: cell 3, behind the terminator, still holds the token `c`. -/
def tokens_ls_after_echo : List Slot :=
  token_array trailing_redirect_line (Slot.str "c".toList :: fresh_cells 3)

/-- The frame of a run that returned. -/
def frame_of : Res (List Effect) Frame → Option Frame
  | .ok f => some f
  | _ => none

/-- An environment in which no directory can be entered. -/
def no_chdir : Env := { can_open := fun _ _ => true, can_chdir := fun _ => false }

/-- The function `builtin_cmd_handler` of `key_shell.c`, which gets `tokens` as its
parameter (the field of the frame): as in `shell.c`, but the result of `chdir` is not
looked at. -/
def key_builtin_cmd_handler (hs : HistoryStore) (f : Frame) :
    Res (List Effect) (Int × Frame) :=
  match slot_get f.tokens 0 with
  | some (.str t) =>
    if t = "exit".toList then .exited f.trace
    else if t = "cd".toList then
      match slot_get f.tokens 1 with
      | some (.str path) =>
        if path.head? = some '~' then
          .ok (1, { f with trace := f.trace ++ [.chdir_home] })
        else
          .ok (1, { f with trace := f.trace ++ [.chdir path] })
      | _ => .fault f.trace
    else if t = "history".toList then
      match history_rows hs hs.history_count.toNat 0 with
      | some rows => .ok (1, { f with trace := f.trace ++ [.print_history rows f.fd1] })
      | none => .fault f.trace
    else .ok (0, f)
  | _ => .fault f.trace

/-! ## Theorems -/

@[simp] theorem Res.ok_bind {ε α β : Type} (a : α) (f : α → Res ε β) :
    (Res.ok a >>= f) = f a := rfl

@[simp] theorem Res.pure_eq {ε α : Type} (a : α) : (pure a : Res ε α) = Res.ok a := rfl

theorem row_get_ok (hist : List CStr) (i : Nat) (hi : i < HISTORY_SIZE) (hl : hist.length = HISTORY_SIZE) :
    row_get hist (i : Int) = .ok (hist.getD i []) := by
  unfold row_get
  have h1 : (0 : Int) ≤ i ∧ (i : Int) < HISTORY_SIZE := ⟨by omega, by exact_mod_cast hi⟩
  rw [if_pos h1]
  have h2 : i < hist.length := by omega
  simp [List.getElem?_eq_getElem h2, List.getD_eq_getElem?_getD]

theorem row_strcpy_ok (hist : List CStr) (i : Nat) (s : CStr) (hi : i < HISTORY_SIZE)
    (hl : hist.length = HISTORY_SIZE) (hs : s.length < ROW_SIZE) :
    row_strcpy hist (i : Int) s = .ok (hist.set i s) := by
  unfold row_strcpy
  have h1 : (0 : Int) ≤ i ∧ (i : Int) < HISTORY_SIZE ∧ (i : Int).toNat < hist.length ∧ s.length < ROW_SIZE :=
    ⟨by omega, by exact_mod_cast hi, by simpa [hl] using hi, hs⟩
  rw [if_pos h1]
  simp

theorem shift_rows_spec (n : Nat) : ∀ (i : Nat) (hist : List CStr),
    hist.length = HISTORY_SIZE → (∀ r ∈ hist, r.length < ROW_SIZE) → 1 ≤ i → i + n = HISTORY_SIZE →
    ∃ out, shift_rows n (i : Int) hist = .ok out ∧ out.length = HISTORY_SIZE ∧
      (∀ r ∈ out, r.length < ROW_SIZE) ∧
      ∀ j, j < HISTORY_SIZE → out.getD j [] =
        if j + 1 < i then hist.getD j [] else if j + 1 < HISTORY_SIZE then hist.getD (j + 1) []
        else hist.getD j [] := by
  induction n with
  | zero =>
    intro i hist hl hr hi hn
    refine ⟨hist, rfl, hl, hr, ?_⟩
    intro j hj
    have : i = HISTORY_SIZE := by omega
    subst this
    split_ifs <;> rfl
  | succ n ih =>
    intro i hist hl hr hi hn
    have hi1 : i < HISTORY_SIZE := by omega
    have hget := row_get_ok hist i hi1 hl
    have hmem : (hist.getD i []).length < ROW_SIZE := by
      have h2 : i < hist.length := by omega
      rw [List.getD_eq_getElem _ _ h2]
      exact hr _ (List.getElem_mem _)
    have hcpy := row_strcpy_ok hist (i - 1) (hist.getD i []) (by omega) hl hmem
    have hcast : ((i - 1 : Nat) : Int) = (i : Int) - 1 := by omega
    rw [hcast] at hcpy
    have hl1 : (hist.set (i - 1) (hist.getD i [])).length = HISTORY_SIZE := by simpa using hl
    have hr1 : ∀ r ∈ hist.set (i - 1) (hist.getD i []), r.length < ROW_SIZE := by
      intro r hrm
      rcases List.mem_or_eq_of_mem_set hrm with h | h
      · exact hr r h
      · rw [h]; exact hmem
    obtain ⟨out, ho, hol, hor, hoj⟩ := ih (i + 1) _ hl1 hr1 (by omega) (by omega)
    refine ⟨out, ?_, hol, hor, ?_⟩
    · show (row_get hist i >>= fun s => row_strcpy hist (i - 1) s >>= fun h1 => shift_rows n (i + 1) h1) = _
      rw [hget, Res.ok_bind, hcpy, Res.ok_bind]
      exact_mod_cast ho
    · intro j hj
      rw [hoj j hj]
      simp only [List.getD_eq_getElem?_getD, List.getElem?_set]
      have hlen : hist.length = HISTORY_SIZE := hl
      by_cases h1 : j + 1 < i
      · have : j + 1 < i + 1 := by omega
        rw [if_pos this, if_pos h1]
        have : ¬ (i - 1 = j) := by omega
        simp [this]
      · rw [if_neg h1]
        by_cases h2 : j + 1 < i + 1
        · have hji : i - 1 = j := by omega
          have hj1 : j + 1 = i := by omega
          rw [if_pos h2, if_pos (by omega : j + 1 < HISTORY_SIZE)]
          simp [hji, hj1, hlen, hj]
        · rw [if_neg h2]
          by_cases h3 : j + 1 < HISTORY_SIZE
          · rw [if_pos h3, if_pos h3]
            have : ¬ (i - 1 = j + 1) := by omega
            simp [this]
          · rw [if_neg h3, if_neg h3]
            have : ¬ (i - 1 = j) := by omega
            simp [this]


theorem last_entries_of_lt (l : List CStr) (h : l.length ≤ HISTORY_SIZE) : last_entries l = l := by
  unfold last_entries
  have : l.length - HISTORY_SIZE = 0 := by omega
  rw [this, List.drop_zero]

/-- C1: `add_to_history` equals the bounded-FIFO reference. For every store holding the
sequence `h` (at most 100 entries) and every command `c` shorter than 1000 characters the
call ends normally, the store then holds the last 100 elements of `h ++ [c]` in order,
the recall cursor equals the new length, and from a full store the new entry 0 is the
old `h[1]`. -/
theorem add_to_history_fifo (hs : HistoryStore) (h : List CStr) (c : CStr)
    (hh : Holds hs h) (hlen : h.length ≤ HISTORY_SIZE) (hc : c.length < ROW_SIZE) :
    ∃ hs1, add_to_history hs c = .ok hs1 ∧ Holds hs1 (last_entries (h ++ [c])) ∧
      hs1.history_index = (last_entries (h ++ [c])).length ∧
      (h.length = HISTORY_SIZE → hs1.history[0]? = h[1]?) := by
  obtain ⟨hl, hr, hcnt, htake⟩ := hh
  by_cases hfull : h.length = HISTORY_SIZE
  · -- full store: the rows shift down by one
    have hhist : hs.history = h := by
      rw [← htake, hfull, ← hl, List.take_length]
    obtain ⟨out, ho, hol, hor, hoj⟩ := shift_rows_spec 99 1 hs.history hl hr (by omega) (by rfl)
    have hcpy := row_strcpy_ok out 99 c (by decide) hol hc
    have hlast : last_entries (h ++ [c]) = out.set 99 c := by
      unfold last_entries
      apply List.ext_getElem
      · simp [hfull, hol, HISTORY_SIZE]
      · intro j hj1 hj2
        have hj : j < HISTORY_SIZE := by simpa [hol] using hj2
        have hjl : j < out.length := by omega
        rw [List.getElem_set]
        have e1 : (h ++ [c]).length - HISTORY_SIZE = 1 := by simp [hfull]
        simp only [e1, List.getElem_drop]
        by_cases h99 : 99 = j
        · subst h99
          rw [if_pos rfl]
          rw [List.getElem_append_right (by simp [hfull, HISTORY_SIZE])]
          simp [hfull, HISTORY_SIZE]
        · rw [if_neg h99]
          have hj99 : j + 1 < HISTORY_SIZE := by simp only [HISTORY_SIZE] at hj ⊢; omega
          have := hoj j hj
          rw [if_neg (by omega), if_pos hj99, List.getD_eq_getElem _ _ hjl,
            List.getD_eq_getElem _ _ (by omega : j + 1 < hs.history.length)] at this
          rw [this, List.getElem_append_left (by omega)]
          simp [hhist, Nat.add_comm]
    refine ⟨⟨out.set 99 c, 100, 100⟩, ?_, ⟨?_, ?_, ?_, ?_⟩, ?_, ?_⟩
    · unfold add_to_history
      have hc100 : hs.history_count = (HISTORY_SIZE : Int) := by rw [hcnt, hfull]
      rw [if_pos hc100]
      have e : ((HISTORY_SIZE - 1 : Nat)) = 99 := rfl
      have e2 : hs.history_count - 1 = ((99 : Nat) : Int) := by rw [hc100]; rfl
      rw [e, e2]
      have ho1 : shift_rows 99 1 hs.history = Res.ok out := by exact_mod_cast ho
      simp only [bind_assoc, ho1, Res.ok_bind, Res.pure_eq, hcpy]
      rfl
    · simpa using hol
    · intro r hrm
      rcases List.mem_or_eq_of_mem_set hrm with h1 | h1
      · exact hor r h1
      · rw [h1]; exact hc
    · rw [hlast]; simp [hol, HISTORY_SIZE]
    · rw [hlast]
      have : (out.set 99 c).length = HISTORY_SIZE := by simpa using hol
      rw [this, ← this, List.take_length]
    · rw [hlast]; simp [hol, HISTORY_SIZE]
    · intro _
      have := hoj 0 (by decide)
      rw [if_neg (by omega), if_pos (by decide)] at this
      simp only [List.getD_eq_getElem?_getD] at this
      have h0 : 0 < out.length := by rw [hol]; decide
      have h1 : 1 < hs.history.length := by rw [hl]; decide
      rw [List.getElem?_eq_getElem h0, List.getElem?_eq_getElem h1] at this
      simp only [Option.getD_some] at this
      rw [← hhist, List.getElem?_set, if_neg (by decide), List.getElem?_eq_getElem h0,
        List.getElem?_eq_getElem h1, this]
  · -- room left: the command goes to row `history_count`
    have hlt : h.length < HISTORY_SIZE := by omega
    have hcpy := row_strcpy_ok hs.history h.length c hlt hl hc
    have hlast : last_entries (h ++ [c]) = h ++ [c] :=
      last_entries_of_lt _ (by simp; omega)
    refine ⟨⟨hs.history.set h.length c, h.length + 1, h.length + 1⟩, ?_, ⟨?_, ?_, ?_, ?_⟩, ?_, ?_⟩
    · unfold add_to_history
      have hc100 : ¬ hs.history_count = (HISTORY_SIZE : Int) := by
        rw [hcnt]; intro hx; exact hfull (by exact_mod_cast hx)
      rw [if_neg hc100]
      simp only [Res.pure_eq, Res.ok_bind, hcnt, hcpy]
    · simpa using hl
    · intro r hrm
      rcases List.mem_or_eq_of_mem_set hrm with h1 | h1
      · exact hr r h1
      · rw [h1]; exact hc
    · rw [hlast]; simp
    · rw [hlast]
      simp only [List.length_append, List.length_singleton]
      apply List.ext_getElem
      · simp [hl]; omega
      · intro j hj1 hj2
        simp only [List.getElem_take, List.getElem_set]
        by_cases hjh : h.length = j
        · subst hjh; simp
        · rw [if_neg hjh]
          have hj3 : j < h.length := by
            simp at hj2; omega
          rw [List.getElem_append_left hj3]
          have : (hs.history.take h.length)[j]? = h[j]? := by rw [htake]
          rw [List.getElem?_take_of_lt hj3, List.getElem?_eq_getElem (by omega),
            List.getElem?_eq_getElem hj3] at this
          exact Option.some.inj this
    · rw [hlast]; simp
    · intro hx; exact absurd hx hfull


theorem add_to_history_fifo_witness :
    Holds full_store full_rows ∧ full_rows.length ≤ HISTORY_SIZE ∧
    "ls".toList.length < ROW_SIZE ∧
    ∃ hs1, add_to_history full_store "ls".toList = .ok hs1 ∧
      Holds hs1 (last_entries (full_rows ++ ["ls".toList])) ∧
      hs1.history_index = (last_entries (full_rows ++ ["ls".toList])).length ∧
      (full_rows.length = HISTORY_SIZE → hs1.history[0]? = full_rows[1]?) :=
  ⟨by decide, by decide, by decide,
    add_to_history_fifo full_store full_rows "ls".toList (by decide) (by decide) (by decide)⟩

theorem splitOn_strsep_at (s : CStr) :
    s.splitOn ' ' = (strsep_at ' ' s).1 ::
      (match (strsep_at ' ' s).2 with
        | none => []
        | some r => r.splitOn ' ') := by
  induction s with
  | nil => rfl
  | cons c cs ih =>
    unfold List.splitOn at ih ⊢
    rw [List.splitOnP_cons]
    by_cases hc : c = ' '
    · subst hc
      simp [strsep_at]
    · have hb : (c == ' ') = false := by simpa using hc
      rw [hb, ih]
      simp [strsep_at, hc, List.modifyHead]

theorem splitOn_length_le (s : CStr) : (s.splitOn ' ').length ≤ s.length + 1 := by
  induction s with
  | nil => simp
  | cons c cs ih =>
    unfold List.splitOn at ih ⊢
    rw [List.splitOnP_cons]
    split
    · simp; omega
    · simp; omega

theorem slot_set_append (pre : List Slot) (r : Slot) (rs : List Slot) (v : Slot) :
    slot_set (pre ++ r :: rs) (pre.length : Int) v = some (pre ++ v :: rs) := by
  unfold slot_set
  have h : (0 : Int) ≤ pre.length ∧ (pre.length : Int).toNat < (pre ++ r :: rs).length := by
    constructor
    · omega
    · simp
  rw [if_pos h]
  simp

theorem strsep_last (s p : CStr) (h : s.splitOn ' ' = [p]) :
    strsep (some s) = (some p, none) := by
  have hs := splitOn_strsep_at s
  rw [h] at hs
  cases h2 : (strsep_at ' ' s).2 with
  | none =>
    simp only [strsep, h2]
    rw [List.cons.injEq] at hs
    rw [← hs.1]
  | some r =>
    rw [h2] at hs
    simp only [List.cons.injEq] at hs
    exact absurd hs.2.symm (List.splitOnP_ne_nil _ _)

theorem strsep_more (s p q : CStr) (qs : List CStr) (h : s.splitOn ' ' = p :: q :: qs) :
    ∃ r, strsep (some s) = (some p, some r) ∧ r.splitOn ' ' = q :: qs := by
  have hs := splitOn_strsep_at s
  rw [h] at hs
  cases h2 : (strsep_at ' ' s).2 with
  | none =>
    rw [h2] at hs
    simp at hs
  | some r =>
    rw [h2] at hs
    simp only [List.cons.injEq] at hs
    refine ⟨r, ?_, hs.2.symm⟩
    simp only [strsep, h2, ← hs.1]

theorem tokenize_loop_spec : ∀ (ps : List CStr) (p : CStr) (s : CStr) (pre rest : List Slot)
    (fuel : Nat),
    s.splitOn ' ' = p :: ps →
    ((p :: ps).filter (fun x => decide (x ≠ []))).length < rest.length →
    pre.length + rest.length = MAX_TOKENS →
    ps.length + 2 ≤ fuel →
    tokenize_loop fuel pre.length (some s) (pre ++ rest) =
      .ok (pre ++ ((p :: ps).filter (fun x => decide (x ≠ []))).map Slot.str ++
        Slot.null :: rest.drop (((p :: ps).filter (fun x => decide (x ≠ []))).length + 1)) := by
  intro ps
  induction ps with
  | nil =>
    intro p s pre rest fuel hsp hk hlen hfuel
    obtain ⟨f, rfl⟩ : ∃ f, fuel = f + 2 := ⟨fuel - 2, by omega⟩
    have hi : (pre.length : Int) < 100 := by
      have : pre.length < 100 := by simp only [MAX_TOKENS] at hlen; omega
      exact_mod_cast this
    cases rest with
    | nil => simp at hk
    | cons r rs =>
      rw [tokenize_loop, if_pos hi, strsep_last s p hsp]
      simp only [slot_set_append, orFault, Res.ok_bind]
      by_cases hp : p = []
      · subst hp
        simp only [List.length_nil, if_true, sub_add_cancel]
        rw [tokenize_loop, if_pos hi]
        simp [strsep, slot_set_append, orFault]
      · have hpl : ¬ (p.length = 0) := by simpa using hp
        simp only [hpl, if_false]
        have hk2 : 1 < (r :: rs).length := by simpa [hp] using hk
        cases rs with
        | nil => simp at hk2
        | cons r2 rs2 =>
          have hi2 : (pre.length : Int) + 1 < 100 := by
            have : pre.length + 1 < 100 := by
              simp only [MAX_TOKENS, List.length_cons] at hlen; omega
            exact_mod_cast this
          rw [tokenize_loop, if_pos hi2]
          have e : pre ++ Slot.str p :: r2 :: rs2 = (pre ++ [Slot.str p]) ++ r2 :: rs2 := by simp
          have e2 : (pre.length : Int) + 1 = ((pre ++ [Slot.str p]).length : Int) := by simp
          simp only [strsep]
          rw [e, e2, slot_set_append]
          simp [orFault, hp]
  | cons q qs ih =>
    intro p s pre rest fuel hsp hk hlen hfuel
    obtain ⟨f, rfl⟩ : ∃ f, fuel = f + 1 := ⟨fuel - 1, by simp only [List.length_cons] at hfuel; omega⟩
    obtain ⟨r0, hr0, hr0s⟩ := strsep_more s p q qs hsp
    cases rest with
    | nil => simp at hk
    | cons r rs =>
      have hi : (pre.length : Int) < 100 := by
        have : pre.length < 100 := by simp only [MAX_TOKENS, List.length_cons] at hlen; omega
        exact_mod_cast this
      rw [tokenize_loop, if_pos hi, hr0]
      simp only [slot_set_append, orFault, Res.ok_bind]
      have hf : qs.length + 2 ≤ f := by simp only [List.length_cons] at hfuel; omega
      by_cases hp : p = []
      · subst hp
        simp only [List.length_nil, if_true, sub_add_cancel]
        have := ih q r0 pre (Slot.str [] :: rs) f hr0s (by simpa using hk)
          (by simpa using hlen) hf
        rw [this]
        simp
      · have hpl : ¬ (p.length = 0) := by simpa using hp
        simp only [hpl, if_false]
        have e : pre ++ Slot.str p :: rs = (pre ++ [Slot.str p]) ++ rs := by simp
        have e2 : (pre.length : Int) + 1 = ((pre ++ [Slot.str p]).length : Int) := by simp
        rw [e, e2]
        have := ih q r0 (pre ++ [Slot.str p]) rs f hr0s (by simpa [hp] using hk)
          (by simp only [List.length_append, List.length_cons, List.length_nil] at hlen ⊢; omega) hf
        rw [this]
        simp [hp]

theorem until_null_map_str (l : List CStr) (r : List Slot) :
    until_null (l.map Slot.str ++ Slot.null :: r) = l.map Slot.str := by
  induction l with
  | nil => simp [until_null]
  | cons a l ih =>
    simp only [until_null] at ih ⊢
    simp [List.takeWhile_cons, ih]

/-- C2: `tokenize_str` equals the reference tokenizer. For every line with fewer than 100
tokens the run ends normally, the array `tokens` holds the non-empty pieces of the line
split at every space, in order and unchanged, followed by `NULL` (the cells after the
terminator keep their old content), so the `NULL`-terminated list is the reference. -/
theorem tokenize_str_reference (line : CStr) (tokens : List Slot)
    (hlen : tokens.length = MAX_TOKENS) (hfew : (reference_tokens line).length < 100) :
    ∃ out, tokenize_str line tokens = .ok out ∧
      out = (reference_tokens line).map Slot.str ++
        Slot.null :: tokens.drop ((reference_tokens line).length + 1) ∧
      until_null out = (reference_tokens line).map Slot.str := by
  obtain ⟨p, ps, hps⟩ : ∃ p ps, line.splitOn ' ' = p :: ps := by
    cases h : line.splitOn ' ' with
    | nil => exact absurd h (List.splitOnP_ne_nil _ _)
    | cons p ps => exact ⟨p, ps, rfl⟩
  have hfuel : ps.length + 2 ≤ line.length + 2 := by
    have := splitOn_length_le line
    rw [hps] at this
    simp only [List.length_cons] at this
    omega
  have hk : ((p :: ps).filter (fun x => decide (x ≠ []))).length < tokens.length := by
    have : (reference_tokens line).length < tokens.length := by
      rw [hlen]; exact hfew
    simpa [reference_tokens, hps] using this
  have key := tokenize_loop_spec ps p line [] tokens (line.length + 2) hps hk
    (by simpa using hlen) hfuel
  have href : reference_tokens line = (p :: ps).filter (fun x => decide (x ≠ [])) := by
    simp [reference_tokens, hps]
  refine ⟨_, ?_, rfl, until_null_map_str _ _⟩
  unfold tokenize_str
  rw [href]
  simpa using key

theorem tokenize_str_reference_witness :
    no_tokens.length = MAX_TOKENS ∧ (reference_tokens "ls  -la   /tmp".toList).length < 100 ∧
    ∃ out, tokenize_str "ls  -la   /tmp".toList no_tokens = .ok out ∧
      out = (reference_tokens "ls  -la   /tmp".toList).map Slot.str ++
        Slot.null :: no_tokens.drop ((reference_tokens "ls  -la   /tmp".toList).length + 1) ∧
      until_null out = (reference_tokens "ls  -la   /tmp".toList).map Slot.str :=
  ⟨by decide, by decide,
    tokenize_str_reference "ls  -la   /tmp".toList no_tokens (by decide) (by decide)⟩

/-- The example of the specification: `ls  -la   /tmp` gives `ls`, `-la`, `/tmp`. -/
theorem tokenize_str_example :
    (tokenize_str "ls  -la   /tmp".toList no_tokens).bind (fun a => .ok (until_null a))
      = .ok (["ls".toList, "-la".toList, "/tmp".toList].map Slot.str) := by
  decide

theorem slot_get_append (pre : List Slot) (c : Slot) (rs : List Slot) :
    slot_get (pre ++ c :: rs) (pre.length : Int) = some c := by
  unfold slot_get
  rw [if_pos (by omega), Int.toNat_ofNat, List.getElem?_append_right (le_refl _)]
  simp

theorem slot_get_append_succ (pre : List Slot) (c d : Slot) (rs : List Slot) :
    slot_get (pre ++ c :: d :: rs) ((pre.length : Int) + 1) = some d := by
  have e : pre ++ c :: d :: rs = (pre ++ [c]) ++ d :: rs := by simp
  have e2 : (pre.length : Int) + 1 = ((pre ++ [c]).length : Int) := by simp
  rw [e, e2, slot_get_append]

theorem slot_set_append_succ (pre : List Slot) (c d : Slot) (rs : List Slot) (v : Slot) :
    slot_set (pre ++ c :: d :: rs) ((pre.length : Int) + 1) v = some (pre ++ c :: v :: rs) := by
  have e : pre ++ c :: d :: rs = (pre ++ [c]) ++ d :: rs := by simp
  have e2 : (pre.length : Int) + 1 = ((pre ++ [c]).length : Int) := by simp
  rw [e, e2, slot_set_append]
  simp

theorem slot_set_of_lt (a : List Slot) (n : Nat) (v : Slot) (h : n < a.length) :
    slot_set a (n : Int) v = some (a.set n v) := by
  unfold slot_set
  rw [if_pos ⟨by omega, by simpa using h⟩]
  simp

@[simp] theorem orFault_some {ε α : Type} (e : ε) (a : α) : orFault e (some a) = Res.ok a := rfl

@[simp] theorem Res.bind_ok {ε α β : Type} (a : α) (f : α → Res ε β) :
    (Res.ok a).bind f = f a := rfl

theorem launches_append (a b : List Effect) : launches (a ++ b) = launches a ++ launches b := by
  induction a with
  | nil => rfl
  | cons e es ih => cases e <;> simp [launches, ih]

/-- What `redirect` does to a frame whose cells `i`, `i + 1` hold an operator and a file. -/
theorem redirect_spec (env : Env) (f : Frame) (pre : List Slot) (c : Slot) (file : CStr)
    (rs : List Slot) (mode : OpenMode) (m : Msg)
    (ht : f.tokens = pre ++ c :: Slot.str file :: rs) :
    ∃ f1, redirect env f pre.length mode m = .ok f1 ∧
      f1.tokens = pre ++ Slot.null :: Slot.null :: rs ∧
      launches f1.trace = launches f.trace ∧ f1.is_piped = f.is_piped ∧
      f1.first_phrase = f.first_phrase ∧ f1.curr_phrase = f.curr_phrase ∧
      (env.can_open file mode = true →
        f1.trace = f.trace ∧
        f1.fd0 = (if mode = .rdonly then .file file mode else f.fd0) ∧
        f1.fd1 = (if mode = .rdonly then f.fd1 else .file file mode)) := by
  unfold redirect
  rw [ht, slot_get_append_succ, orFault_some, Res.bind_ok, slot_set_append, orFault_some,
    Res.bind_ok, slot_set_append_succ, orFault_some, Res.bind_ok]
  refine ⟨_, rfl, rfl, ?_, rfl, rfl, rfl, ?_⟩
  · simp only [bind_desc, sys_open]
    split <;> simp [launches_append, launches]
  · intro ho
    simp [bind_desc, sys_open, ho]
theorem is_redir_iff (t : CStr) :
    is_redir t = true ↔ t = ['<'] ∨ t = ['>'] ∨ t = ['>', '>'] := by
  simp [is_redir, or_assoc]

theorem mode_of_rdonly_iff (t : CStr) : mode_of t = .rdonly ↔ t = ['<'] := by
  unfold mode_of
  split_ifs with h1 h2 <;> simp [h1]

/-- One iteration of the second loop on a redirection operator. -/
theorem redir_loop_op (env : Env) (fuel : Nat) (i : Int) (f : Frame) (t : CStr)
    (fp : List Slot) (hg : slot_get f.tokens i = some (Slot.str t))
    (hs : slot_set f.first_phrase i (Slot.str t) = some fp) (ht : is_redir t = true) :
    ∃ m, redir_loop env (fuel + 1) i f =
      (redirect env { f with first_phrase := fp } i (mode_of t) m).bind
        (fun f1 => redir_loop env fuel (i + 2) f1) := by
  rw [redir_loop, hg, orFault_some, Res.ok_bind]
  simp only [hs, orFault_some, Res.ok_bind]
  rcases (is_redir_iff t).1 ht with h | h | h
  · subst h
    exact ⟨.redir_in, rfl⟩
  · subst h
    exact ⟨.redir_out, rfl⟩
  · subst h
    exact ⟨.redir_append, rfl⟩

/-- One iteration of the second loop on a token that is neither an operator nor a pipe. -/
theorem redir_loop_plain (env : Env) (fuel : Nat) (i : Int) (f : Frame) (t : CStr)
    (fp : List Slot) (hg : slot_get f.tokens i = some (Slot.str t))
    (hs : slot_set f.first_phrase i (Slot.str t) = some fp) (ht : is_redir t = false)
    (hp : t ≠ ['|']) :
    redir_loop env (fuel + 1) i f = redir_loop env fuel (i + 1) { f with first_phrase := fp } := by
  rw [redir_loop, hg, orFault_some, Res.ok_bind]
  simp only [hs, orFault_some, Res.ok_bind]
  have h := (is_redir_iff t).not.1 (by simp [ht])
  push_neg at h
  rw [if_neg h.1, if_neg h.2.1, if_neg h.2.2, if_neg hp]

theorem bound_to_nil (ops : List CStr) (d : Desc) : bound_to ops [] d = d := rfl

theorem bound_to_plain (ops : List CStr) (t : CStr) (rest : List CStr) (d : Desc)
    (ht : t ∉ ops) : bound_to ops (t :: rest) d = bound_to ops rest d := by
  unfold bound_to
  simp only [last_redirection, if_neg ht]
  cases last_redirection ops rest <;> rfl

theorem bound_to_pair (ops : List CStr) (t file : CStr) (rest : List CStr) (d : Desc)
    (hf : file ∉ ops) :
    bound_to ops (t :: file :: rest) d =
      bound_to ops rest (if t ∈ ops then .file file (mode_of t) else d) := by
  unfold bound_to
  simp only [last_redirection, if_neg hf, List.head?_cons, Option.map_some']
  cases last_redirection ops rest with
  | some r => rfl
  | none =>
    by_cases ht : t ∈ ops
    · simp [ht]
    · simp [ht]

theorem redirs_have_files_tail (t : CStr) (rest : List CStr)
    (h : redirs_have_files (t :: rest) = true) : redirs_have_files rest = true := by
  simp only [redirs_have_files, Bool.and_eq_true] at h
  exact h.2

theorem files_openable_tail (env : Env) (t : CStr) (rest : List CStr)
    (h : files_openable env (t :: rest) = true) : files_openable env rest = true := by
  simp only [files_openable, Bool.and_eq_true] at h
  exact h.2
/-- The second loop on a line without a pipe in which every operator has its file: the
array ends up cut at the first operator, no child is launched, and when the files can be
opened the descriptors are bound to the files of the last operators. -/
theorem redir_loop_single (env : Env) : ∀ (n : Nat) (rest : List CStr), rest.length ≤ n →
    ∀ (pre stale : List Slot) (f : Frame) (fuel : Nat),
    f.tokens = pre ++ rest.map Slot.str ++ Slot.null :: stale →
    f.first_phrase.length = f.tokens.length →
    redirs_have_files rest = true → ['|'] ∉ rest → rest.length + 1 ≤ fuel →
    ∃ f1 tail, redir_loop env fuel pre.length f = .ok f1 ∧
      f1.tokens = pre ++ (rest.takeWhile (fun t => !is_redir t)).map Slot.str ++
        Slot.null :: tail ∧
      launches f1.trace = launches f.trace ∧ f1.is_piped = f.is_piped ∧
      (files_openable env rest = true →
        f1.trace = f.trace ∧ f1.fd0 = bound_to [['<']] rest f.fd0 ∧
        f1.fd1 = bound_to [['>'], ['>', '>']] rest f.fd1) := by
  intro n
  induction n with
  | zero =>
    intro rest hn pre stale f fuel ht _ _ _ hfuel
    have hr : rest = [] := List.length_eq_zero.1 (by omega)
    subst hr
    obtain ⟨k, rfl⟩ : ∃ k, fuel = k + 1 := ⟨fuel - 1, by omega⟩
    refine ⟨f, stale, ?_, by simpa using ht, rfl, rfl, fun _ => ⟨rfl, rfl, rfl⟩⟩
    rw [redir_loop, ht]
    simp [slot_get_append]
  | succ n ih =>
    intro rest hn pre stale f fuel ht hfp hwf hpipe hfuel
    obtain ⟨k, rfl⟩ : ∃ k, fuel = k + 1 := ⟨fuel - 1, by omega⟩
    cases rest with
    | nil =>
      refine ⟨f, stale, ?_, by simpa using ht, rfl, rfl, fun _ => ⟨rfl, rfl, rfl⟩⟩
      rw [redir_loop, ht]
      simp [slot_get_append]
    | cons t rest1 =>
      have ht1 : f.tokens = pre ++ Slot.str t :: (rest1.map Slot.str ++ Slot.null :: stale) := by
        simpa using ht
      have hg : slot_get f.tokens (pre.length : Int) = some (Slot.str t) := by
        rw [ht1, slot_get_append]
      have hlt : pre.length < f.first_phrase.length := by
        rw [hfp, ht1]; simp
      have hs := slot_set_of_lt f.first_phrase pre.length (Slot.str t) hlt
      have hpt : t ≠ ['|'] := fun h => hpipe (by simp [h])
      have hpipe1 : ['|'] ∉ rest1 := fun h => hpipe (List.mem_cons_of_mem _ h)
      by_cases hop : is_redir t = true
      · -- a redirection operator with its file
        obtain ⟨m, hstep⟩ := redir_loop_op env k pre.length f t _ hg hs hop
        cases rest1 with
        | nil => simp [redirs_have_files, hop] at hwf
        | cons file rest2 =>
          have hfile : is_redir file = false := by
            have h := hwf
            simp only [redirs_have_files, hop, if_true, Bool.and_eq_true] at h
            simpa using h.1
          have hfile1 : ¬ (file = ['<'] ∨ file = ['>'] ∨ file = ['>', '>']) := by
            rw [← is_redir_iff]; simp [hfile]
          push_neg at hfile1
          have hwf2 : redirs_have_files rest2 = true :=
            redirs_have_files_tail _ _ (redirs_have_files_tail _ _ hwf)
          have ht2 : ({ f with first_phrase := f.first_phrase.set pre.length (Slot.str t) } : Frame).tokens
              = pre ++ Slot.str t :: Slot.str file :: (rest2.map Slot.str ++ Slot.null :: stale) := by
            simpa using ht
          obtain ⟨f1, hr, hr_tok, hr_l, hr_p, hr_fp, _, hr_fd⟩ :=
            redirect_spec env _ pre (Slot.str t) file _ (mode_of t) m ht2
          have e2 : (pre.length : Int) + 2 = ((pre ++ [Slot.null, Slot.null]).length : Int) := by
            simp
          have htok1 : f1.tokens = (pre ++ [Slot.null, Slot.null]) ++ rest2.map Slot.str ++
              Slot.null :: stale := by
            rw [hr_tok]; simp
          have hfp1 : f1.first_phrase.length = f1.tokens.length := by
            rw [hr_fp, htok1]
            simp only [List.length_set, hfp, ht, List.length_append, List.length_map,
              List.length_cons, List.length_nil]
            omega
          obtain ⟨f2, tail, h2, h2_tok, h2_l, h2_p, h2_fd⟩ :=
            ih rest2 (by simp only [List.length_cons] at hn; omega) (pre ++ [Slot.null, Slot.null])
              stale f1 k htok1 hfp1 hwf2 (fun h => hpipe1 (List.mem_cons_of_mem _ h))
              (by simp only [List.length_cons] at hfuel; omega)
          refine ⟨f2, Slot.null :: ((rest2.takeWhile (fun t => !is_redir t)).map Slot.str ++
            Slot.null :: tail), ?_, ?_, ?_, ?_, ?_⟩
          · rw [hstep, hr, Res.bind_ok, e2, h2]
          · rw [h2_tok]; simp [List.takeWhile_cons, hop]
          · rw [h2_l, hr_l]
          · rw [h2_p, hr_p]
          · intro hopen
            have hopen1 : env.can_open file (mode_of t) = true := by
              have h := hopen
              simp only [files_openable, hop, if_true, Bool.and_eq_true] at h
              exact h.1
            have hopen2 : files_openable env rest2 = true :=
              files_openable_tail _ _ _ (files_openable_tail _ _ _ hopen)
            obtain ⟨e_tr, e_fd0, e_fd1⟩ := hr_fd hopen1
            obtain ⟨e2_tr, e2_fd0, e2_fd1⟩ := h2_fd hopen2
            refine ⟨by rw [e2_tr, e_tr], ?_, ?_⟩
            · rw [e2_fd0, e_fd0, bound_to_pair _ _ _ _ _ (by simpa using hfile1.1)]
              simp [mode_of_rdonly_iff]
            · rw [e2_fd1, e_fd1, bound_to_pair _ _ _ _ _ (by simpa using hfile1.2)]
              rcases (is_redir_iff t).1 hop with h | h | h <;> subst h <;> simp [mode_of]
      · -- an ordinary token
        have hop1 : is_redir t = false := by simpa using hop
        have hop2 : ¬ (t = ['<'] ∨ t = ['>'] ∨ t = ['>', '>']) := by
          rw [← is_redir_iff]; exact hop
        push_neg at hop2
        have hstep := redir_loop_plain env k pre.length f t _ hg hs hop1 hpt
        have e2 : (pre.length : Int) + 1 = ((pre ++ [Slot.str t]).length : Int) := by simp
        have htok1 : ({ f with first_phrase := f.first_phrase.set pre.length (Slot.str t) } :
            Frame).tokens = (pre ++ [Slot.str t]) ++ rest1.map Slot.str ++ Slot.null :: stale := by
          simpa using ht
        obtain ⟨f2, tail, h2, h2_tok, h2_l, h2_p, h2_fd⟩ :=
          ih rest1 (by simp only [List.length_cons] at hn; omega) (pre ++ [Slot.str t]) stale _ k
            htok1 (by simpa using hfp) (redirs_have_files_tail _ _ hwf) hpipe1
            (by simp only [List.length_cons] at hfuel; omega)
        refine ⟨f2, tail, ?_, ?_, h2_l, h2_p, ?_⟩
        · rw [hstep, e2, h2]
        · rw [h2_tok]; simp [List.takeWhile_cons, hop1]
        · intro hopen
          obtain ⟨e2_tr, e2_fd0, e2_fd1⟩ := h2_fd (files_openable_tail _ _ _ hopen)
          refine ⟨e2_tr, ?_, ?_⟩
          · rw [e2_fd0, bound_to_plain _ _ _ _ (by simpa using hop2.1)]
          · rw [e2_fd1, bound_to_plain _ _ _ _ (by simpa using hop2.2)]
/-- The first loop walks over tokens it does not act on: before a pipe everything but
`|`, after a pipe everything but `>` and `>>`. -/
theorem scan_loop_skip (env : Env) (l : List CStr) : ∀ (pre rest : List Slot) (f : Frame)
    (fuel : Nat) (pp : Int),
    f.tokens = pre ++ l.map Slot.str ++ rest →
    ((pp = 0 ∧ ['|'] ∉ l) ∨ (pp = 1 ∧ ['>'] ∉ l ∧ ['>', '>'] ∉ l)) →
    scan_loop env (fuel + l.length) pre.length pp f =
      scan_loop env fuel ((pre.length : Int) + l.length) pp f := by
  induction l with
  | nil => intro pre rest f fuel pp _ _; simp
  | cons t l ih =>
    intro pre rest f fuel pp ht hpp
    have ht1 : f.tokens = pre ++ Slot.str t :: (l.map Slot.str ++ rest) := by simpa using ht
    have hg : slot_get f.tokens (pre.length : Int) = some (Slot.str t) := by
      rw [ht1, slot_get_append]
    have e1 : fuel + (t :: l).length = (fuel + l.length) + 1 := by simp; omega
    have e2 : (pre.length : Int) + 1 = ((pre ++ [Slot.str t]).length : Int) := by simp
    have e3 : ((pre ++ [Slot.str t]).length : Int) + (l.length : Int) =
        (pre.length : Int) + ((t :: l).length : Int) := by
      simp only [List.length_append, List.length_cons, List.length_nil]; push_cast; omega
    have ht2 : f.tokens = (pre ++ [Slot.str t]) ++ l.map Slot.str ++ rest := by simpa using ht
    rw [e1, scan_loop, hg, orFault_some, Res.ok_bind]
    rcases hpp with ⟨hp0, hpipe⟩ | ⟨hp1, hgt, hgg⟩
    · subst hp0
      have hne : t ≠ ['|'] := fun h => hpipe (by simp [h])
      simp only [if_neg hne]
      rw [if_neg (by decide), e2, ih _ rest f fuel 0 ht2
        (Or.inl ⟨rfl, fun h => hpipe (List.mem_cons_of_mem _ h)⟩), e3]
    · subst hp1
      have hne1 : t ≠ ['>'] := fun h => hgt (by simp [h])
      have hne2 : t ≠ ['>', '>'] := fun h => hgg (by simp [h])
      simp only [ite_self, if_true, if_neg hne1, if_neg hne2]
      rw [e2, ih _ rest f fuel 1 ht2
        (Or.inr ⟨rfl, fun h => hgt (List.mem_cons_of_mem _ h),
          fun h => hgg (List.mem_cons_of_mem _ h)⟩), e3]

/-- On a line without a pipe the first loop changes nothing. -/
theorem scan_loop_no_pipe (env : Env) (toks : List CStr) (stale : List Slot) (f : Frame)
    (fuel : Nat) (ht : f.tokens = token_array toks stale) (hp : ['|'] ∉ toks)
    (hfuel : toks.length + 1 ≤ fuel) :
    scan_loop env fuel 0 0 f = .ok f := by
  obtain ⟨k, rfl⟩ : ∃ k, fuel = (k + 1) + toks.length := ⟨fuel - toks.length - 1, by omega⟩
  have ht1 : f.tokens = [] ++ toks.map Slot.str ++ Slot.null :: stale := by simpa [token_array] using ht
  have h := scan_loop_skip env toks [] (Slot.null :: stale) f (k + 1) 0 ht1 (Or.inl ⟨rfl, hp⟩)
  simp only [List.length_nil, Nat.cast_zero, zero_add] at h
  rw [h, scan_loop]
  have e : ((toks.length : Nat) : Int) = ((toks.map Slot.str).length : Int) := by simp
  have ht2 : f.tokens = toks.map Slot.str ++ Slot.null :: stale := by simpa using ht1
  rw [e, ht2, slot_get_append]
  rfl

/-- The loop of `process` over a `NULL`-terminated array: the array is cut at the first
`&`, and `is_background` tells whether there was one. -/
theorem background_loop_spec (l : List CStr) : ∀ (pre tail : List Slot) (f : Frame)
    (fuel : Nat),
    f.tokens = pre ++ l.map Slot.str ++ Slot.null :: tail → l.length + 1 ≤ fuel →
    ∃ bg f1 tail1, background_loop fuel pre.length f = .ok (bg, f1) ∧
      f1.tokens = pre ++ (l.takeWhile (fun t => decide (t ≠ ['&']))).map Slot.str ++
        Slot.null :: tail1 ∧
      f1.trace = f.trace ∧ f1.fd0 = f.fd0 ∧ f1.fd1 = f.fd1 ∧
      (decide (bg < 1) = decide (['&'] ∉ l)) := by
  induction l with
  | nil =>
    intro pre tail f fuel ht hfuel
    obtain ⟨k, rfl⟩ : ∃ k, fuel = k + 1 := ⟨fuel - 1, by omega⟩
    refine ⟨0, f, tail, ?_, by simpa using ht, rfl, rfl, rfl, by simp⟩
    have ht1 : f.tokens = pre ++ Slot.null :: tail := by simpa using ht
    rw [background_loop, ht1, slot_get_append]
    rfl
  | cons t l ih =>
    intro pre tail f fuel ht hfuel
    obtain ⟨k, rfl⟩ : ∃ k, fuel = k + 1 := ⟨fuel - 1, by omega⟩
    have ht1 : f.tokens = pre ++ Slot.str t :: (l.map Slot.str ++ Slot.null :: tail) := by
      simpa using ht
    have hg : slot_get f.tokens (pre.length : Int) = some (Slot.str t) := by
      rw [ht1, slot_get_append]
    rw [background_loop, hg, orFault_some, Res.ok_bind]
    by_cases hamp : t = ['&']
    · subst hamp
      simp only [if_true]
      rw [ht1, slot_set_append, orFault_some, Res.ok_bind]
      exact ⟨1, _, l.map Slot.str ++ Slot.null :: tail, rfl, by simp, rfl, rfl, rfl, by simp⟩
    · simp only [if_neg hamp]
      have e2 : (pre.length : Int) + 1 = ((pre ++ [Slot.str t]).length : Int) := by simp
      have ht2 : f.tokens = (pre ++ [Slot.str t]) ++ l.map Slot.str ++ Slot.null :: tail := by
        simpa using ht
      obtain ⟨bg, f1, tail1, h1, h1_tok, h1_tr, h1_0, h1_1, h1_bg⟩ :=
        ih (pre ++ [Slot.str t]) tail f k ht2 (by simp only [List.length_cons] at hfuel; omega)
      refine ⟨bg, f1, tail1, ?_, ?_, h1_tr, h1_0, h1_1, ?_⟩
      · rw [e2, h1]
      · rw [h1_tok]; simp [List.takeWhile_cons, hamp]
      · rw [h1_bg]
        have : (['&'] ∈ t :: l) ↔ ['&'] ∈ l := by
          simp only [List.mem_cons]
          constructor
          · rintro (h | h)
            · exact absurd h.symm hamp
            · exact h
          · exact Or.inr
        simp only [this]

/-- A first token that is no built-in name: `builtin_cmd_handler` returns 0. -/
theorem builtin_cmd_handler_other (env : Env) (hs : HistoryStore) (f : Frame) (t : CStr)
    (rest : List Slot) (ht : f.tokens = Slot.str t :: rest) (hb : is_builtin t = false) :
    builtin_cmd_handler env hs f = .ok (0, f) := by
  have hg : slot_get f.tokens 0 = some (Slot.str t) := by rw [ht]; simp [slot_get]
  simp only [is_builtin, Bool.or_eq_false_iff, decide_eq_false_iff_not] at hb
  rw [builtin_cmd_handler, hg]
  simp only [if_neg hb.1.1, if_neg hb.1.2, if_neg hb.2]
/-- The function `process` on a `NULL`-terminated array of tokens. -/
theorem process_spec (l : List CStr) (tail : List Slot) (f : Frame)
    (ht : f.tokens = l.map Slot.str ++ Slot.null :: tail)
    (hlen : l.length + 1 ≤ MAX_TOKENS + 1) :
    ∃ f1 file, process f = .ok f1 ∧
      f1.trace = f.trace ++ [.exec ⟨file,
        (l.takeWhile (fun t => decide (t ≠ ['&']))).map Slot.str, f.fd0, f.fd1,
        decide (['&'] ∉ l)⟩] := by
  have ht1 : f.tokens = [] ++ l.map Slot.str ++ Slot.null :: tail := by simpa using ht
  obtain ⟨bg, f1, tail1, h1, h1_tok, h1_tr, h1_0, h1_1, h1_bg⟩ :=
    background_loop_spec l [] tail f (MAX_TOKENS + 1) ht1 hlen
  have h1_tok1 : f1.tokens = (l.takeWhile (fun t => decide (t ≠ ['&']))).map Slot.str ++
      Slot.null :: tail1 := by simpa using h1_tok
  have hg : ∃ file, slot_get f1.tokens 0 = some file := by
    rw [h1_tok1]
    cases (l.takeWhile (fun t => decide (t ≠ ['&']))).map Slot.str with
    | nil => exact ⟨Slot.null, by simp [slot_get]⟩
    | cons a as => exact ⟨a, by simp [slot_get]⟩
  obtain ⟨file, hfile⟩ := hg
  refine ⟨{ f1 with trace := f1.trace ++ [.exec ⟨file, until_null f1.tokens, f1.fd0, f1.fd1,
    decide (bg < 1)⟩] }, file, ?_, ?_⟩
  · rw [process]
    simp only [List.length_nil, Nat.cast_zero] at h1
    rw [h1, Res.ok_bind]
    simp only [hfile, orFault_some, Res.ok_bind, Res.pure_eq]
  · simp only [h1_tok1, until_null_map_str, h1_tr, h1_0, h1_1, h1_bg]

/-- The run of `parse_string` on the tokens of a line without a pipe whose redirection
operators have their files, up to the call of `builtin_cmd_handler`. -/
theorem parse_tokens_single_frame (env : Env) (hs : HistoryStore) (cmd : CStr)
    (args : List CStr) (stale : List Slot) (fd0 fd1 : Desc)
    (hlen : (token_array (cmd :: args) stale).length = MAX_TOKENS)
    (hpipe : ['|'] ∉ cmd :: args) (hwf : redirs_have_files args = true) :
    ∃ f2 tail, parse_tokens env hs (token_array (cmd :: args) stale) fd0 fd1 =
        dispatch env hs fd0 fd1 f2 ∧
      f2.tokens = (cmd :: args.takeWhile (fun t => !is_redir t)).map Slot.str ++
        Slot.null :: tail ∧
      launches f2.trace = [] ∧ f2.is_piped = 0 ∧
      (files_openable env args = true →
        f2.trace = [] ∧ f2.fd0 = bound_to [['<']] args fd0 ∧
        f2.fd1 = bound_to [['>'], ['>', '>']] args fd1) := by
  have hlen1 : args.length + stale.length + 2 = 100 := by
    simp only [token_array, MAX_TOKENS, List.length_append, List.length_map, List.length_cons] at hlen
    omega
  have hg0 : slot_get (token_array (cmd :: args) stale) 0 = some (Slot.str cmd) := by
    simp [token_array, slot_get]
  have hs0 : slot_set (List.replicate MAX_TOKENS Slot.junk) 0 (Slot.str cmd) =
      some ((List.replicate MAX_TOKENS Slot.junk).set 0 (Slot.str cmd)) :=
    slot_set_of_lt _ 0 _ (by simp [MAX_TOKENS])
  rw [parse_tokens, hg0, orFault_some, Res.ok_bind]
  simp only [reduceCtorEq, if_false, hs0, orFault_some, Res.ok_bind]
  rw [scan_loop_no_pipe env (cmd :: args) stale _ _ rfl hpipe
    (by simp only [List.length_cons, MAX_TOKENS]; omega), Res.ok_bind]
  obtain ⟨f2, tail, h2, h2_tok, h2_l, h2_p, h2_fd⟩ :=
    redir_loop_single env args.length args (le_refl _) [Slot.str cmd] stale
      { tokens := token_array (cmd :: args) stale, fd0 := fd0, fd1 := fd1, trace := [],
        first_phrase := (List.replicate MAX_TOKENS Slot.junk).set 0 (Slot.str cmd),
        curr_phrase := List.replicate MAX_TOKENS Slot.junk, is_piped := 0 }
      (MAX_TOKENS + 1) (by simp [token_array]) (by simpa using hlen.symm) hwf
      (fun h => hpipe (List.mem_cons_of_mem _ h)) (by simp only [MAX_TOKENS]; omega)
  simp only [List.length_singleton, Nat.cast_one] at h2
  rw [h2, Res.ok_bind]
  exact ⟨f2, tail, rfl, by simpa using h2_tok, h2_l, h2_p, h2_fd⟩

/-- The run of `parse_string` on the tokens of a line without a pipe whose redirection
operators have their files, for a command that is no built-in: exactly one child. -/
theorem parse_tokens_single (env : Env) (hs : HistoryStore) (cmd : CStr) (args : List CStr)
    (stale : List Slot) (fd0 fd1 : Desc)
    (hlen : (token_array (cmd :: args) stale).length = MAX_TOKENS)
    (hpipe : ['|'] ∉ cmd :: args) (hwf : redirs_have_files args = true)
    (hb : is_builtin cmd = false) :
    ∃ f l, parse_tokens env hs (token_array (cmd :: args) stale) fd0 fd1 = .ok f ∧
      launches f.trace = [l] ∧
      l.argv = ((cmd :: args.takeWhile (fun t => !is_redir t)).takeWhile
        (fun t => decide (t ≠ ['&']))).map Slot.str ∧
      l.waited = decide (['&'] ∉ cmd :: args.takeWhile (fun t => !is_redir t)) ∧
      (files_openable env args = true →
        f.trace = [.exec l] ∧ l.fd0 = bound_to [['<']] args fd0 ∧
        l.fd1 = bound_to [['>'], ['>', '>']] args fd1) := by
  obtain ⟨f2, tail, h2, h2_tok, h2_l, h2_p, h2_fd⟩ :=
    parse_tokens_single_frame env hs cmd args stale fd0 fd1 hlen hpipe hwf
  have hlen1 : args.length + stale.length + 2 = 100 := by
    simp only [token_array, MAX_TOKENS, List.length_append, List.length_map, List.length_cons] at hlen
    omega
  have h2_tok2 : f2.tokens = Slot.str cmd ::
      ((args.takeWhile (fun t => !is_redir t)).map Slot.str ++ Slot.null :: tail) := by
    simpa using h2_tok
  have hlen2 : (cmd :: args.takeWhile (fun t => !is_redir t)).length + 1 ≤ MAX_TOKENS + 1 := by
    have := (List.takeWhile_sublist (l := args) (fun t => !is_redir t)).length_le
    simp only [List.length_cons, MAX_TOKENS]; omega
  obtain ⟨f3, file, h3, h3_tr⟩ := process_spec _ tail f2 h2_tok hlen2
  rw [h2, dispatch, builtin_cmd_handler_other env hs f2 cmd _ h2_tok2 hb, Res.bind_ok]
  simp only [ne_eq, not_true_eq_false, if_false, h2_p, if_true, h3, Res.bind_ok]
  refine ⟨{ f3 with fd0 := fd0, fd1 := fd1 }, ⟨file,
    ((cmd :: args.takeWhile (fun t => !is_redir t)).takeWhile
      (fun t => decide (t ≠ ['&']))).map Slot.str, f2.fd0, f2.fd1,
    decide (['&'] ∉ cmd :: args.takeWhile (fun t => !is_redir t))⟩, rfl, ?_, rfl, rfl, ?_⟩
  · simp only [h3_tr, launches_append, h2_l, launches, List.nil_append]
  · intro hopen
    obtain ⟨e_tr, e_0, e_1⟩ := h2_fd hopen
    simp only [h3_tr, e_tr, List.nil_append, e_0, e_1, and_self]

theorem is_plain_iff (t : CStr) : is_plain t = true ↔ is_redir t = false ∧ t ≠ ['|'] := by
  simp [is_plain]

/-- The second loop over ordinary tokens: each is copied to `first_phrase`. -/
theorem redir_loop_plain_run (env : Env) (l : List CStr) : ∀ (pre rest fpre frest : List Slot)
    (f : Frame) (fuel : Nat),
    f.tokens = pre ++ l.map Slot.str ++ rest → f.first_phrase = fpre ++ frest →
    fpre.length = pre.length → l.length ≤ frest.length → (∀ t ∈ l, is_plain t = true) →
    redir_loop env (fuel + l.length) pre.length f =
      redir_loop env fuel ((pre.length : Int) + l.length)
        { f with first_phrase := fpre ++ l.map Slot.str ++ frest.drop l.length } := by
  induction l with
  | nil =>
    intro pre rest fpre frest f fuel _ hfp _ _ _
    simp [← hfp]
  | cons t l ih =>
    intro pre rest fpre frest f fuel ht hfp hpl hlen hplain
    have ht1 : f.tokens = pre ++ Slot.str t :: (l.map Slot.str ++ rest) := by simpa using ht
    have hg : slot_get f.tokens (pre.length : Int) = some (Slot.str t) := by
      rw [ht1, slot_get_append]
    cases frest with
    | nil => simp at hlen
    | cons c frest1 =>
      have hs : slot_set f.first_phrase (pre.length : Int) (Slot.str t) =
          some (fpre ++ Slot.str t :: frest1) := by
        rw [hfp, ← hpl, slot_set_append]
      have hpt := (is_plain_iff t).1 (hplain t (by simp))
      have e1 : fuel + (t :: l).length = (fuel + l.length) + 1 := by simp; omega
      have e2 : (pre.length : Int) + 1 = ((pre ++ [Slot.str t]).length : Int) := by simp
      have e3 : ((pre ++ [Slot.str t]).length : Int) + (l.length : Int) =
          (pre.length : Int) + ((t :: l).length : Int) := by
        simp only [List.length_append, List.length_cons, List.length_nil]; push_cast; omega
      rw [e1, redir_loop_plain env _ _ f t _ hg hs hpt.1 hpt.2, e2]
      rw [ih (pre ++ [Slot.str t]) rest (fpre ++ [Slot.str t]) frest1 _ fuel (by simpa using ht)
        (by simp) (by simp [hpl]) (by simpa using hlen)
        (fun x hx => hplain x (List.mem_cons_of_mem _ hx)), e3]
      simp

/-- The inner loop of the pipe branch: the tokens up to the next `NULL` move to
`curr_phrase`, their cells in `tokens` become `NULL`. -/
theorem collect_loop_spec (l : List CStr) : ∀ (pre rest cpre crest : List Slot) (f : Frame)
    (fuel : Nat),
    f.tokens = pre ++ l.map Slot.str ++ Slot.null :: rest → f.curr_phrase = cpre ++ crest →
    l.length ≤ crest.length → l.length + 1 ≤ fuel →
    collect_loop fuel pre.length cpre.length f =
      .ok ((pre.length : Int) + l.length, (cpre.length : Int) + l.length,
        { f with
          tokens := pre ++ List.replicate l.length Slot.null ++ Slot.null :: rest
          curr_phrase := cpre ++ l.map Slot.str ++ crest.drop l.length }) := by
  induction l with
  | nil =>
    intro pre rest cpre crest f fuel ht hcp _ hfuel
    obtain ⟨k, rfl⟩ : ∃ k, fuel = k + 1 := ⟨fuel - 1, by omega⟩
    have ht1 : f.tokens = pre ++ Slot.null :: rest := by simpa using ht
    rw [collect_loop, ht1, slot_get_append, orFault_some, Res.ok_bind]
    simp [← ht1, ← hcp]
  | cons t l ih =>
    intro pre rest cpre crest f fuel ht hcp hlen hfuel
    obtain ⟨k, rfl⟩ : ∃ k, fuel = k + 1 := ⟨fuel - 1, by omega⟩
    have ht1 : f.tokens = pre ++ Slot.str t :: (l.map Slot.str ++ Slot.null :: rest) := by
      simpa using ht
    cases crest with
    | nil => simp at hlen
    | cons c crest1 =>
      have e2 : (pre.length : Int) + 1 = ((pre ++ [Slot.null]).length : Int) := by simp
      have e3 : (cpre.length : Int) + 1 = ((cpre ++ [Slot.str t]).length : Int) := by simp
      rw [collect_loop, ht1, slot_get_append, orFault_some, Res.ok_bind,
        if_neg (by simp), hcp, slot_set_append, orFault_some, Res.ok_bind, slot_set_append,
        orFault_some, Res.ok_bind, e2, e3]
      rw [ih (pre ++ [Slot.null]) rest (cpre ++ [Slot.str t]) crest1 _ k (by simp) (by simp)
        (by simpa using hlen) (by simp only [List.length_cons] at hfuel; omega)]
      simp only [List.length_append, List.length_cons, List.length_nil, List.drop_succ_cons]
      congr 1
      · congr 1
        · push_cast; omega
        · congr 1
          · push_cast; omega
          · simp [List.replicate_succ]
theorem slot_get_zero (a r : List Slot) :
    slot_get (a ++ Slot.null :: r) 0 = some (a.headD Slot.null) := by
  cases a <;> simp [slot_get]

/-- The iteration of the second loop on the pipe token, and the end of the loop after it:
both children are launched, the left one with `first_phrase` cut at the pipe, the right
one with the tokens up to the next `NULL`. -/
theorem redir_loop_pipe (env : Env) (B : List CStr) (pre rest fpre frest : List Slot)
    (c : Slot) (f : Frame) (fuel : Nat)
    (ht : f.tokens = pre ++ Slot.str ['|'] :: (B.map Slot.str ++ Slot.null :: rest))
    (hfp : f.first_phrase = fpre ++ c :: frest) (hpl : fpre.length = pre.length)
    (hcp : B.length < f.curr_phrase.length) (hB : B.length + 1 ≤ MAX_TOKENS + 1) :
    redir_loop env (fuel + 2) pre.length f = .ok
      { f with
        tokens := pre ++ Slot.null :: (List.replicate B.length Slot.null ++ Slot.null :: rest)
        first_phrase := fpre ++ Slot.null :: frest
        curr_phrase := B.map Slot.str ++ Slot.null :: f.curr_phrase.drop (B.length + 1)
        is_piped := 1
        trace := f.trace ++
          [.exec ⟨fpre.headD Slot.null, until_null (fpre ++ Slot.null :: frest), f.fd0,
              .pipe_write, true⟩,
            .exec ⟨(B.map Slot.str).headD Slot.null, B.map Slot.str, .pipe_read, f.fd1,
              true⟩] } := by
  have hg : slot_get f.tokens (pre.length : Int) = some (Slot.str ['|']) := by
    rw [ht, slot_get_append]
  have hs : slot_set f.first_phrase (pre.length : Int) (Slot.str ['|']) =
      some (fpre ++ Slot.str ['|'] :: frest) := by
    rw [hfp, ← hpl, slot_set_append]
  have hs2 : slot_set (fpre ++ Slot.str ['|'] :: frest) (pre.length : Int) Slot.null =
      some (fpre ++ Slot.null :: frest) := by
    rw [← hpl, slot_set_append]
  have hs3 : slot_set f.tokens (pre.length : Int) Slot.null =
      some (pre ++ Slot.null :: (B.map Slot.str ++ Slot.null :: rest)) := by
    rw [ht, slot_set_append]
  have e2 : (pre.length : Int) + 1 = ((pre ++ [Slot.null]).length : Int) := by simp
  have e0 : (0 : Int) = (([] : List Slot).length : Int) := by simp
  have hcol := collect_loop_spec B (pre ++ [Slot.null]) rest [] f.curr_phrase
    { f with first_phrase := fpre ++ Slot.null :: frest,
             tokens := pre ++ Slot.null :: (B.map Slot.str ++ Slot.null :: rest),
             is_piped := 1 }
    (MAX_TOKENS + 1) (by simp) (by simp) (by omega) hB
  obtain ⟨d, hd⟩ : ∃ d, f.curr_phrase.drop B.length = d :: f.curr_phrase.drop (B.length + 1) :=
    ⟨_, List.drop_eq_getElem_cons hcp⟩
  have hs4 : slot_set ([] ++ B.map Slot.str ++ f.curr_phrase.drop B.length)
      ((([] : List Slot).length : Int) + (B.length : Int)) Slot.null =
      some (B.map Slot.str ++ Slot.null :: f.curr_phrase.drop (B.length + 1)) := by
    have e : ((([] : List Slot).length : Int) + (B.length : Int)) =
        (((B.map Slot.str).length : Nat) : Int) := by simp
    rw [e, hd, List.nil_append, slot_set_append]
  have hg5 : slot_get ((pre ++ [Slot.null]) ++ List.replicate B.length Slot.null ++
      Slot.null :: rest) (((pre ++ [Slot.null]).length : Int) + (B.length : Int)) =
      some Slot.null := by
    have e : (((pre ++ [Slot.null]).length : Int) + (B.length : Int)) =
        (((pre ++ [Slot.null]) ++ List.replicate B.length Slot.null).length : Int) := by
      simp only [List.length_append, List.length_replicate, List.length_cons, List.length_nil]
      push_cast; omega
    rw [e, slot_get_append]
  rw [redir_loop, hg, orFault_some, Res.ok_bind]
  simp only [hs, orFault_some, Res.ok_bind]
  have n1 : (['|'] : CStr) ≠ ['<'] := by decide
  have n2 : (['|'] : CStr) ≠ ['>'] := by decide
  have n3 : (['|'] : CStr) ≠ ['>', '>'] := by decide
  rw [if_neg n1, if_neg n2, if_neg n3, if_pos trivial]
  simp only [hs2, hs3, orFault_some, Res.ok_bind]
  rw [← e2] at hcol
  simp only [List.length_nil, Nat.cast_zero] at hcol hs4
  rw [hcol, Res.ok_bind]
  simp only [hs4, orFault_some, Res.ok_bind, slot_get_zero]
  rw [redir_loop]
  rw [← e2] at hg5
  simp only [hg5, orFault_some, Res.ok_bind, Res.pure_eq]
  simp [until_null_map_str]
/-- The outcomes of `builtin_cmd_handler`: it launches nothing, and when it returns 0 it
has changed nothing. -/
theorem builtin_cmd_handler_cases (env : Env) (hs : HistoryStore) (f : Frame) :
    (∃ r f1, builtin_cmd_handler env hs f = .ok (r, f1) ∧
      launches f1.trace = launches f.trace ∧ f1.is_piped = f.is_piped ∧ (r = 0 → f1 = f)) ∨
    builtin_cmd_handler env hs f = .fault f.trace ∨
    builtin_cmd_handler env hs f = .exited f.trace := by
  unfold builtin_cmd_handler
  cases h0 : slot_get f.tokens 0 with
  | none => exact Or.inr (Or.inl rfl)
  | some c =>
    cases c with
    | null => exact Or.inr (Or.inl rfl)
    | junk => exact Or.inr (Or.inl rfl)
    | str t =>
      simp only []
      by_cases h1 : t = "exit".toList
      · rw [if_pos h1]
        exact Or.inr (Or.inr rfl)
      · rw [if_neg h1]
        by_cases h2 : t = "cd".toList
        · rw [if_pos h2]
          cases h3 : slot_get f.tokens 1 with
          | none => exact Or.inr (Or.inl rfl)
          | some a =>
            cases a with
            | null => exact Or.inr (Or.inl rfl)
            | junk => exact Or.inr (Or.inl rfl)
            | str path =>
              left
              simp only []
              by_cases c1 : path.head? = some '~'
              · rw [if_pos c1]
                exact ⟨_, _, rfl, by simp [launches_append, launches], rfl, fun h => absurd h (by decide)⟩
              · rw [if_neg c1]
                by_cases c2 : env.can_chdir path = true
                · rw [if_pos c2]
                  exact ⟨_, _, rfl, by simp [launches_append, launches], rfl, fun h => absurd h (by decide)⟩
                · rw [if_neg c2]
                  exact ⟨_, _, rfl, by simp [launches_append, launches], rfl, fun h => absurd h (by decide)⟩
        · rw [if_neg h2]
          by_cases h3 : t = "history".toList
          · rw [if_pos h3]
            cases h4 : history_rows hs hs.history_count.toNat 0 with
            | none => exact Or.inr (Or.inl rfl)
            | some rows =>
              left
              exact ⟨_, _, rfl, by simp [launches_append, launches], rfl, fun h => absurd h (by decide)⟩
          · rw [if_neg h3]
            left
            exact ⟨0, f, rfl, rfl, rfl, fun _ => rfl⟩

/-- After a pipeline `dispatch` launches nothing more. -/
theorem dispatch_piped (env : Env) (hs : HistoryStore) (fd0 fd1 : Desc) (f : Frame)
    (hp : f.is_piped ≠ 0) :
    launches (trace_of (dispatch env hs fd0 fd1 f)) = launches f.trace := by
  unfold dispatch
  rcases builtin_cmd_handler_cases env hs f with ⟨r, f1, h, hl, hpi, _⟩ | h | h
  · rw [h, Res.bind_ok]
    by_cases hr : r ≠ 0
    · rw [if_pos hr]
      simp only [Res.bind_ok, trace_of, hl]
    · rw [if_neg hr, if_neg (by rw [hpi]; exact hp)]
      simp only [Res.bind_ok, trace_of, hl]
  · rw [h]; rfl
  · rw [h]; rfl

/-- Without a pipeline `dispatch` launches nothing (a built-in) or one child, through
`process`. -/
theorem dispatch_single (env : Env) (hs : HistoryStore) (fd0 fd1 : Desc) (f : Frame)
    (l : List CStr) (tail : List Slot)
    (ht : f.tokens = l.map Slot.str ++ Slot.null :: tail)
    (hlen : l.length + 1 ≤ MAX_TOKENS + 1) :
    launches (trace_of (dispatch env hs fd0 fd1 f)) = launches f.trace ∨
    ∃ file, launches (trace_of (dispatch env hs fd0 fd1 f)) = launches f.trace ++
      [⟨file, (l.takeWhile (fun t => decide (t ≠ ['&']))).map Slot.str, f.fd0, f.fd1,
        decide (['&'] ∉ l)⟩] := by
  unfold dispatch
  rcases builtin_cmd_handler_cases env hs f with ⟨r, f1, h, hl, hpi, h0⟩ | h | h
  · rw [h, Res.bind_ok]
    by_cases hr : r ≠ 0
    · left
      rw [if_pos hr]
      simp only [Res.bind_ok, trace_of, hl]
    · have hr0 : r = 0 := by simpa using hr
      have hf := h0 hr0
      subst hf
      by_cases hp : f1.is_piped = 0
      · right
        obtain ⟨f3, file, h3, h3_tr⟩ := process_spec l tail f1 ht hlen
        refine ⟨file, ?_⟩
        rw [if_neg hr, if_pos hp]
        simp only [h3, Res.bind_ok, trace_of, h3_tr, launches_append, launches]
      · left
        rw [if_neg hr, if_neg hp]
        simp only [Res.bind_ok, trace_of]
  · left; rw [h]; rfl
  · left; rw [h]; rfl
/-- The first loop up to the first `>` or `>>` after the pipe of a line `A | B ...`. -/
theorem scan_loop_to_pipe_end (env : Env) (A B : List CStr) (rest : List Slot) (f : Frame)
    (fuel : Nat) (ht : f.tokens = (A ++ ['|'] :: B).map Slot.str ++ rest)
    (hA : ['|'] ∉ A) (hB : ['>'] ∉ B ∧ ['>', '>'] ∉ B) :
    scan_loop env (fuel + B.length + 1 + A.length) 0 0 f =
      scan_loop env fuel (((A ++ ['|'] :: B).map Slot.str).length : Int) 1 f := by
  have ht1 : f.tokens = [] ++ A.map Slot.str ++ (Slot.str ['|'] :: (B.map Slot.str ++ rest)) := by
    simpa using ht
  have h1 := scan_loop_skip env A [] _ f (fuel + B.length + 1) 0 ht1 (Or.inl ⟨rfl, hA⟩)
  simp only [List.length_nil, Nat.cast_zero, zero_add] at h1
  rw [h1, scan_loop]
  have e : ((A.length : Nat) : Int) = ((A.map Slot.str).length : Int) := by simp
  have ht2 : f.tokens = A.map Slot.str ++ Slot.str ['|'] :: (B.map Slot.str ++ rest) := by
    simpa using ht
  have hg : slot_get f.tokens ((A.map Slot.str).length : Int) = some (Slot.str ['|']) := by
    rw [ht2, slot_get_append]
  rw [e, hg, orFault_some, Res.ok_bind]
  simp only [if_true]
  have n2 : (['|'] : CStr) ≠ ['>'] := by decide
  have n3 : (['|'] : CStr) ≠ ['>', '>'] := by decide
  rw [if_neg n2, if_neg n3]
  have ht3 : f.tokens = (A.map Slot.str ++ [Slot.str ['|']]) ++ B.map Slot.str ++ rest := by
    simpa using ht
  have e2 : ((A.map Slot.str).length : Int) + 1 =
      ((A.map Slot.str ++ [Slot.str ['|']]).length : Int) := by simp
  rw [e2, scan_loop_skip env B _ rest f fuel 1 ht3 (Or.inr ⟨rfl, hB.1, hB.2⟩)]
  congr 1
  simp only [List.length_append, List.length_map, List.length_cons, List.length_nil]
  push_cast; omega

/-- The first loop on a line `A | B` without a redirection after the pipe. -/
theorem scan_loop_piped_plain (env : Env) (A B : List CStr) (stale : List Slot) (f : Frame)
    (fuel : Nat) (ht : f.tokens = token_array (A ++ ['|'] :: B) stale)
    (hA : ['|'] ∉ A) (hB : ['>'] ∉ B ∧ ['>', '>'] ∉ B)
    (hfuel : A.length + B.length + 2 ≤ fuel) :
    scan_loop env fuel 0 0 f = .ok f := by
  obtain ⟨k, rfl⟩ : ∃ k, fuel = (k + 1) + B.length + 1 + A.length :=
    ⟨fuel - A.length - B.length - 2, by omega⟩
  rw [scan_loop_to_pipe_end env A B (Slot.null :: stale) f (k + 1) ht hA hB, scan_loop]
  have hg : slot_get f.tokens (((A ++ ['|'] :: B).map Slot.str).length : Int) =
      some Slot.null := by
    rw [ht, token_array, slot_get_append]
  rw [hg]
  rfl

/-- The first loop on a line `A | B op file ...` with `op` one of `>` and `>>`: the file
is opened and bound to descriptor 1 of the shell, the two cells become `NULL`. -/
theorem scan_loop_piped_redirect (env : Env) (A B : List CStr) (op file : CStr)
    (C : List CStr) (stale : List Slot) (f : Frame) (fuel : Nat)
    (ht : f.tokens = token_array (A ++ ['|'] :: B ++ op :: file :: C) stale)
    (hA : ['|'] ∉ A) (hB : ['>'] ∉ B ∧ ['>', '>'] ∉ B)
    (hop : op = ['>'] ∨ op = ['>', '>'])
    (hfuel : A.length + B.length + 2 ≤ fuel) :
    ∃ f1, scan_loop env fuel 0 0 f = .ok f1 ∧
      f1.tokens = (A ++ ['|'] :: B).map Slot.str ++
        Slot.null :: (Slot.null :: (C.map Slot.str ++ Slot.null :: stale)) ∧
      launches f1.trace = launches f.trace ∧ f1.is_piped = f.is_piped ∧
      f1.first_phrase = f.first_phrase ∧ f1.curr_phrase = f.curr_phrase ∧ f1.fd0 = f.fd0 ∧
      (env.can_open file (mode_of op) = true →
        f1.trace = f.trace ∧ f1.fd1 = .file file (mode_of op)) ∧
      (env.can_open file (mode_of op) = false → f1.fd1 = f.fd1) := by
  obtain ⟨k, rfl⟩ : ∃ k, fuel = (k + 1) + B.length + 1 + A.length :=
    ⟨fuel - A.length - B.length - 2, by omega⟩
  have ht1 : f.tokens = (A ++ ['|'] :: B).map Slot.str ++
      Slot.str op :: Slot.str file :: (C.map Slot.str ++ Slot.null :: stale) := by
    rw [ht, token_array]; simp
  rw [scan_loop_to_pipe_end env A B _ f (k + 1) ht1 hA hB, scan_loop]
  have hg : slot_get f.tokens (((A ++ ['|'] :: B).map Slot.str).length : Int) =
      some (Slot.str op) := by
    rw [ht1, slot_get_append]
  rw [hg, orFault_some, Res.ok_bind]
  simp only [ite_self, if_true]
  obtain ⟨f1, hr, hr_tok, hr_l, hr_p, hr_fp, hr_cp, hr_fd⟩ :=
    redirect_spec env f ((A ++ ['|'] :: B).map Slot.str) (Slot.str op) file _ (mode_of op)
      (if op = ['>'] then .redir_out else .redir_append) ht1
  have hfd0 : f1.fd0 = f.fd0 ∧ (env.can_open file (mode_of op) = false → f1.fd1 = f.fd1) := by
    have h := hr
    unfold redirect at h
    rw [ht1, slot_get_append_succ, orFault_some, Res.bind_ok, slot_set_append, orFault_some,
      Res.bind_ok, slot_set_append_succ, orFault_some, Res.bind_ok] at h
    have h2 := (Res.ok.inj h).symm
    subst h2
    have hm : mode_of op ≠ .rdonly := by
      rcases hop with h | h <;> subst h <;> decide
    constructor
    · simp only [bind_desc, sys_open]
      split <;> simp [hm]
    · intro hno
      simp [bind_desc, sys_open, hno]
  refine ⟨f1, ?_, hr_tok, hr_l, hr_p, hr_fp, hr_cp, hfd0.1, ?_, hfd0.2⟩
  · rcases hop with h | h
    · subst h
      rw [if_pos rfl]
      simpa [mode_of] using hr
    · subst h
      rw [if_neg (by decide), if_pos rfl]
      simpa [mode_of] using hr
  · intro ho
    obtain ⟨e1, _, e3⟩ := hr_fd ho
    refine ⟨e1, ?_⟩
    rw [e3, if_neg]
    rcases hop with h | h <;> subst h <;> decide
/-- The second loop on a line `A | B` (after the first loop): the two children of the
pipeline, with argv `A` and `B`. -/
theorem redir_loop_piped (env : Env) (a0 : CStr) (A1 B : List CStr) (rest : List Slot)
    (f : Frame)
    (ht : f.tokens = ((a0 :: A1) ++ ['|'] :: B).map Slot.str ++ Slot.null :: rest)
    (hlen : f.tokens.length = MAX_TOKENS)
    (hfp : f.first_phrase = (List.replicate MAX_TOKENS Slot.junk).set 0 (Slot.str a0))
    (hcp : f.curr_phrase = List.replicate MAX_TOKENS Slot.junk)
    (hA : ∀ t ∈ A1, is_plain t = true) :
    ∃ f2, redir_loop env (MAX_TOKENS + 1) 1 f = .ok f2 ∧ f2.is_piped = 1 ∧
      f2.trace = f.trace ++
        [.exec ⟨Slot.str a0, (a0 :: A1).map Slot.str, f.fd0, .pipe_write, true⟩,
         .exec ⟨(B.map Slot.str).headD Slot.null, B.map Slot.str, .pipe_read, f.fd1, true⟩] := by
  have hl : A1.length + B.length + rest.length + 3 = 100 := by
    rw [ht] at hlen
    simp only [MAX_TOKENS, List.length_append, List.length_map, List.length_cons] at hlen
    omega
  have hfp1 : f.first_phrase = [Slot.str a0] ++ List.replicate 99 Slot.junk := by
    rw [hfp]; rfl
  have ht1 : f.tokens = [Slot.str a0] ++ A1.map Slot.str ++
      (Slot.str ['|'] :: (B.map Slot.str ++ Slot.null :: rest)) := by
    rw [ht]; simp
  have e101 : MAX_TOKENS + 1 = (99 - A1.length + 2) + A1.length := by
    simp only [MAX_TOKENS]; omega
  have h1 := redir_loop_plain_run env A1 [Slot.str a0] _ [Slot.str a0]
    (List.replicate 99 Slot.junk) f (99 - A1.length + 2) ht1 hfp1 rfl (by simp; omega) hA
  simp only [List.length_singleton, Nat.cast_one] at h1
  rw [e101, h1]
  have e1 : (1 : Int) + (A1.length : Int) = (((a0 :: A1).map Slot.str).length : Int) := by
    simp only [List.length_map, List.length_cons]; push_cast; omega
  obtain ⟨c, frest, hdrop⟩ : ∃ c frest, (List.replicate 99 Slot.junk).drop A1.length =
      c :: frest := by
    have hlt : A1.length < (List.replicate 99 Slot.junk).length := by simp; omega
    exact ⟨_, _, List.drop_eq_getElem_cons hlt⟩
  have h2 := redir_loop_pipe env B ((a0 :: A1).map Slot.str) rest ((a0 :: A1).map Slot.str)
    frest c
    { f with first_phrase := [Slot.str a0] ++ A1.map Slot.str ++
        (List.replicate 99 Slot.junk).drop A1.length }
    (99 - A1.length)
    (by rw [ht]; simp) (by rw [hdrop]; simp) rfl
    (by simp only [hcp, List.length_replicate, MAX_TOKENS]; omega)
    (by simp only [MAX_TOKENS]; omega)
  rw [e1, h2]
  refine ⟨_, rfl, rfl, ?_⟩
  simp only [List.map_cons, List.headD_cons]
  have := until_null_map_str (a0 :: A1) frest
  simp only [List.map_cons, List.cons_append] at this
  simp only [List.cons_append, this]

/-- C3: for every token list `cmd :: args` without a `|` token in which each `<`, `>` or
`>>` token at index 1 or later is followed by a filename, with files that can be opened
and a command that is no built-in, `parse_string` ends normally having launched exactly
one child, whose standard input is the file after the last `<`, opened read-only, and
whose standard output is the file after the last `>` (truncate-or-create) or `>>`
(append-or-create); without such an operator the descriptor is the one of the shell. -/
theorem parse_tokens_binds_redirections (env : Env) (hs : HistoryStore) (cmd : CStr)
    (args : List CStr) (stale : List Slot) (fd0 fd1 : Desc)
    (hlen : (token_array (cmd :: args) stale).length = MAX_TOKENS)
    (hpipe : ['|'] ∉ cmd :: args) (hwf : redirs_have_files args = true)
    (hopen : files_openable env args = true) (hb : is_builtin cmd = false) :
    ∃ f l, parse_tokens env hs (token_array (cmd :: args) stale) fd0 fd1 = .ok f ∧
      f.trace = [.exec l] ∧
      (∀ file, last_redirection [['<']] args = some (['<'], file) →
        l.fd0 = .file file .rdonly) ∧
      (last_redirection [['<']] args = none → l.fd0 = fd0) ∧
      (∀ file, last_redirection [['>'], ['>', '>']] args = some (['>'], file) →
        l.fd1 = .file file .trunc) ∧
      (∀ file, last_redirection [['>'], ['>', '>']] args = some (['>', '>'], file) →
        l.fd1 = .file file .append) ∧
      (last_redirection [['>'], ['>', '>']] args = none → l.fd1 = fd1) := by
  obtain ⟨f, l, h, _, _, _, hfd⟩ :=
    parse_tokens_single env hs cmd args stale fd0 fd1 hlen hpipe hwf hb
  obtain ⟨htr, h0, h1⟩ := hfd hopen
  refine ⟨f, l, h, htr, ?_, ?_, ?_, ?_, ?_⟩
  · intro file hl
    rw [h0, bound_to, hl]; rfl
  · intro hl
    rw [h0, bound_to, hl]
  · intro file hl
    rw [h1, bound_to, hl]; rfl
  · intro file hl
    rw [h1, bound_to, hl]; rfl
  · intro hl
    rw [h1, bound_to, hl]

theorem parse_tokens_binds_redirections_witness :
    (token_array ("sort".toList :: sort_line.tail) (fresh_cells 5)).length = MAX_TOKENS ∧
    ['|'] ∉ "sort".toList :: sort_line.tail ∧
    redirs_have_files sort_line.tail = true ∧
    files_openable permissive sort_line.tail = true ∧
    is_builtin "sort".toList = false ∧
    ∃ f l, parse_tokens permissive empty_store
        (token_array ("sort".toList :: sort_line.tail) (fresh_cells 5)) .tty .tty = .ok f ∧
      f.trace = [.exec l] ∧
      (∀ file, last_redirection [['<']] sort_line.tail = some (['<'], file) →
        l.fd0 = .file file .rdonly) ∧
      (last_redirection [['<']] sort_line.tail = none → l.fd0 = .tty) ∧
      (∀ file, last_redirection [['>'], ['>', '>']] sort_line.tail = some (['>'], file) →
        l.fd1 = .file file .trunc) ∧
      (∀ file, last_redirection [['>'], ['>', '>']] sort_line.tail = some (['>', '>'], file) →
        l.fd1 = .file file .append) ∧
      (last_redirection [['>'], ['>', '>']] sort_line.tail = none → l.fd1 = .tty) :=
  ⟨by decide, by decide, by decide, by decide, by decide,
    parse_tokens_binds_redirections permissive empty_store "sort".toList sort_line.tail
      (fresh_cells 5) .tty .tty (by decide) (by decide) (by decide) (by decide) (by decide)⟩

/-- The example of the specification: `sort < in.txt > out.txt` runs `sort` alone, with
input `in.txt` and output `out.txt` in truncate mode. -/
theorem parse_string_sort_example :
    trace_of (parse_string permissive empty_store "sort < in.txt > out.txt".toList no_tokens
      .tty .tty) =
      [.exec ⟨.str "sort".toList, [.str "sort".toList], .file "in.txt".toList .rdonly,
        .file "out.txt".toList .trunc, true⟩] := by
  decide

/-- C4, as stated, fails: on `sort < in.txt -r` the child gets the argv `sort` alone,
while the token list without the operator and its file is `sort`, `-r`. -/
theorem parse_tokens_drops_later_arguments :
    (launches (trace_of (parse_tokens permissive empty_store
      (token_array sort_reverse_line (fresh_cells 4)) .tty .tty))).map Launch.argv
      = [[Slot.str "sort".toList]] ∧
    (without_redirections sort_reverse_line).map Slot.str =
      [Slot.str "sort".toList, Slot.str "-r".toList] ∧
    (launches (trace_of (parse_tokens permissive empty_store
      (token_array sort_reverse_line (fresh_cells 4)) .tty .tty))).map Launch.argv
      ≠ [(without_redirections sort_reverse_line).map Slot.str] := by
  decide

/-- C4, amended: for every token list `cmd :: args` without a `|` token in which each
redirection operator at index 1 or later is followed by a filename, and with a command
that is no built-in, exactly one child is launched and its argv is the tokens before the
first redirection operator (of index 1 or later), cut at the first `&`: the operator, its
file and every later token are not part of argv. -/
theorem parse_tokens_argv_until_redirection (env : Env) (hs : HistoryStore) (cmd : CStr)
    (args : List CStr) (stale : List Slot) (fd0 fd1 : Desc)
    (hlen : (token_array (cmd :: args) stale).length = MAX_TOKENS)
    (hpipe : ['|'] ∉ cmd :: args) (hwf : redirs_have_files args = true)
    (hb : is_builtin cmd = false) :
    (launches (trace_of (parse_tokens env hs (token_array (cmd :: args) stale) fd0 fd1))).map
        Launch.argv =
      [((cmd :: args.takeWhile (fun t => !is_redir t)).takeWhile
        (fun t => decide (t ≠ ['&']))).map Slot.str] := by
  obtain ⟨f, l, h, hl, hargv, _, _⟩ :=
    parse_tokens_single env hs cmd args stale fd0 fd1 hlen hpipe hwf hb
  rw [h, trace_of, hl, List.map_singleton, hargv]

theorem parse_tokens_argv_until_redirection_witness :
    (token_array ("sort".toList :: sort_reverse_line.tail) (fresh_cells 4)).length
      = MAX_TOKENS ∧
    ['|'] ∉ "sort".toList :: sort_reverse_line.tail ∧
    redirs_have_files sort_reverse_line.tail = true ∧
    is_builtin "sort".toList = false ∧
    (launches (trace_of (parse_tokens permissive empty_store
      (token_array ("sort".toList :: sort_reverse_line.tail) (fresh_cells 4)) .tty .tty))).map
        Launch.argv =
      [(("sort".toList :: sort_reverse_line.tail.takeWhile (fun t => !is_redir t)).takeWhile
        (fun t => decide (t ≠ ['&']))).map Slot.str] :=
  ⟨by decide, by decide, by decide, by decide,
    parse_tokens_argv_until_redirection permissive empty_store "sort".toList
      sort_reverse_line.tail (fresh_cells 4) .tty .tty (by decide) (by decide) (by decide)
      (by decide)⟩

theorem not_mem_of_plain (l : List CStr) (h : ∀ t ∈ l, is_plain t = true) :
    ['|'] ∉ l ∧ ['>'] ∉ l ∧ ['>', '>'] ∉ l ∧ ['<'] ∉ l := by
  refine ⟨?_, ?_, ?_, ?_⟩ <;> intro hm <;> have := h _ hm <;> revert this <;> decide

/-- The run of `parse_string` on the tokens of a line `A | B` or `A | B op file ...`, with
ordinary tokens in `A` and `B` and `op` one of `>` and `>>`: the two children of the
pipeline, the right one writing to what the first loop has bound descriptor 1 to. -/
theorem parse_tokens_piped (env : Env) (hs : HistoryStore) (a0 : CStr) (A1 B T : List CStr)
    (stale : List Slot) (fd0 fd1 : Desc)
    (hlen : (token_array ((a0 :: A1) ++ ['|'] :: B ++ T) stale).length = MAX_TOKENS)
    (hA : ∀ t ∈ a0 :: A1, is_plain t = true) (hB : ∀ t ∈ B, is_plain t = true)
    (hT : T = [] ∨ ∃ op file C, T = op :: file :: C ∧ (op = ['>'] ∨ op = ['>', '>'])) :
    ∃ out, launches (trace_of (parse_tokens env hs
        (token_array ((a0 :: A1) ++ ['|'] :: B ++ T) stale) fd0 fd1)) =
      [⟨Slot.str a0, (a0 :: A1).map Slot.str, fd0, .pipe_write, true⟩,
       ⟨(B.map Slot.str).headD Slot.null, B.map Slot.str, .pipe_read, out, true⟩] ∧
      (T = [] → out = fd1) ∧
      (∀ op file C, T = op :: file :: C →
        out = if env.can_open file (mode_of op) = true then .file file (mode_of op) else fd1) := by
  have hA1 := not_mem_of_plain _ hA
  have hB1 := not_mem_of_plain _ hB
  have hg0 : slot_get (token_array ((a0 :: A1) ++ ['|'] :: B ++ T) stale) 0 =
      some (Slot.str a0) := by
    simp [token_array, slot_get]
  have hs0 : slot_set (List.replicate MAX_TOKENS Slot.junk) 0 (Slot.str a0) =
      some ((List.replicate MAX_TOKENS Slot.junk).set 0 (Slot.str a0)) :=
    slot_set_of_lt _ 0 _ (by simp [MAX_TOKENS])
  have hlen1 : A1.length + B.length + T.length + stale.length + 3 = 100 := by
    simp only [token_array, MAX_TOKENS, List.length_append, List.length_map,
      List.length_cons] at hlen
    omega
  rw [parse_tokens, hg0, orFault_some, Res.ok_bind]
  simp only [reduceCtorEq, if_false, hs0, orFault_some, Res.ok_bind]
  rcases hT with hT | ⟨op, file, C, hT, hop⟩
  · subst hT
    rw [scan_loop_piped_plain env (a0 :: A1) B stale _ _ (by simp) hA1.1 ⟨hB1.2.1, hB1.2.2.1⟩
      (by simp only [List.length_cons, MAX_TOKENS]; simp only [List.length_nil] at hlen1; omega),
      Res.ok_bind]
    obtain ⟨f2, h2, h2_p, h2_tr⟩ := redir_loop_piped env a0 A1 B stale
      { tokens := token_array ((a0 :: A1) ++ ['|'] :: B ++ []) stale, fd0 := fd0, fd1 := fd1,
        trace := [],
        first_phrase := (List.replicate MAX_TOKENS Slot.junk).set 0 (Slot.str a0),
        curr_phrase := List.replicate MAX_TOKENS Slot.junk, is_piped := 0 }
      (by simp [token_array]) hlen rfl rfl (fun t ht => hA t (List.mem_cons_of_mem _ ht))
    rw [h2, Res.ok_bind, dispatch_piped env hs fd0 fd1 f2 (by rw [h2_p]; decide), h2_tr]
    exact ⟨fd1, by simp [launches], fun _ => rfl, fun _ _ _ h => by simp at h⟩
  · subst hT
    simp only [List.length_cons] at hlen1
    obtain ⟨f1, h1, h1_tok, h1_l, h1_p, h1_fp, h1_cp, h1_fd0, h1_ok, h1_no⟩ :=
      scan_loop_piped_redirect env (a0 :: A1) B op file C stale
        { tokens := token_array ((a0 :: A1) ++ ['|'] :: B ++ op :: file :: C) stale,
          fd0 := fd0, fd1 := fd1, trace := [],
          first_phrase := (List.replicate MAX_TOKENS Slot.junk).set 0 (Slot.str a0),
          curr_phrase := List.replicate MAX_TOKENS Slot.junk, is_piped := 0 }
        (MAX_TOKENS + 1) (by simp) hA1.1 ⟨hB1.2.1, hB1.2.2.1⟩ hop
        (by simp only [List.length_cons, MAX_TOKENS]; omega)
    rw [h1, Res.ok_bind]
    obtain ⟨f2, h2, h2_p, h2_tr⟩ := redir_loop_piped env a0 A1 B
      (Slot.null :: (C.map Slot.str ++ Slot.null :: stale)) f1 h1_tok
      (by
        rw [h1_tok]
        simp only [MAX_TOKENS, List.length_append, List.length_map, List.length_cons]
        omega)
      h1_fp h1_cp (fun t ht => hA t (List.mem_cons_of_mem _ ht))
    rw [h2, Res.ok_bind, dispatch_piped env hs fd0 fd1 f2 (by rw [h2_p]; decide), h2_tr,
      launches_append, h1_l]
    refine ⟨f1.fd1, by simp [launches, h1_fd0], fun h => by simp at h, ?_⟩
    intro op1 file1 C1 heq
    simp only [List.cons.injEq] at heq
    obtain ⟨e1, e2, _⟩ := heq
    subst e1 e2
    by_cases ho : env.can_open file (mode_of op) = true
    · rw [if_pos ho]; exact (h1_ok ho).2
    · rw [if_neg ho]; exact h1_no (by simpa using ho)
theorem mode_of_output (op : CStr) (hop : op = ['>'] ∨ op = ['>', '>']) :
    mode_of op = if op = ['>'] then .trunc else .append := by
  rcases hop with h | h <;> subst h <;> rfl

/-- C5: for every token list `A | B > f` or `A | B >> f` with non-empty lists `A`, `B` of
ordinary tokens (and a file `f` that can be opened), `parse_string` launches exactly two
children: the first with argv `A` and the write end of the pipe as standard output, the
second with argv `B`, the read end of the pipe as standard input and the file `f` as
standard output, opened in truncate mode for `>` and in append mode for `>>`. -/
theorem parse_tokens_pipe_then_redirect (env : Env) (hs : HistoryStore) (a0 : CStr)
    (A1 : List CStr) (b0 : CStr) (B1 : List CStr) (op file : CStr) (stale : List Slot)
    (fd0 fd1 : Desc)
    (hlen : (token_array ((a0 :: A1) ++ ['|'] :: (b0 :: B1) ++ [op, file]) stale).length
      = MAX_TOKENS)
    (hA : ∀ t ∈ a0 :: A1, is_plain t = true) (hB : ∀ t ∈ b0 :: B1, is_plain t = true)
    (hop : op = ['>'] ∨ op = ['>', '>'])
    (hopen : env.can_open file (if op = ['>'] then .trunc else .append) = true) :
    launches (trace_of (parse_tokens env hs
        (token_array ((a0 :: A1) ++ ['|'] :: (b0 :: B1) ++ [op, file]) stale) fd0 fd1)) =
      [⟨Slot.str a0, (a0 :: A1).map Slot.str, fd0, .pipe_write, true⟩,
       ⟨Slot.str b0, (b0 :: B1).map Slot.str, .pipe_read,
         .file file (if op = ['>'] then .trunc else .append), true⟩] := by
  obtain ⟨out, h, _, hout⟩ := parse_tokens_piped env hs a0 A1 (b0 :: B1) [op, file] stale
    fd0 fd1 hlen hA hB (Or.inr ⟨op, file, [], rfl, hop⟩)
  have ho := hout op file [] rfl
  rw [mode_of_output op hop, if_pos hopen] at ho
  rw [h, ho]
  rfl

theorem parse_tokens_pipe_then_redirect_witness :
    (token_array (("cat".toList :: ["file".toList]) ++ ['|'] ::
      ("grep".toList :: ["foo".toList]) ++ [">".toList, "out.txt".toList])
      (fresh_cells 7)).length = MAX_TOKENS ∧
    (∀ t ∈ "cat".toList :: ["file".toList], is_plain t = true) ∧
    (∀ t ∈ "grep".toList :: ["foo".toList], is_plain t = true) ∧
    (">".toList = ['>'] ∨ ">".toList = ['>', '>']) ∧
    permissive.can_open "out.txt".toList
      (if ">".toList = ['>'] then .trunc else .append) = true ∧
    launches (trace_of (parse_tokens permissive empty_store
        (token_array (("cat".toList :: ["file".toList]) ++ ['|'] ::
          ("grep".toList :: ["foo".toList]) ++ [">".toList, "out.txt".toList])
          (fresh_cells 7)) .tty .tty)) =
      [⟨Slot.str "cat".toList, ("cat".toList :: ["file".toList]).map Slot.str, .tty,
          .pipe_write, true⟩,
       ⟨Slot.str "grep".toList, ("grep".toList :: ["foo".toList]).map Slot.str, .pipe_read,
         .file "out.txt".toList (if ">".toList = ['>'] then .trunc else .append), true⟩] :=
  ⟨by decide, by decide, by decide, by decide, by decide,
    parse_tokens_pipe_then_redirect permissive empty_store "cat".toList ["file".toList]
      "grep".toList ["foo".toList] ">".toList "out.txt".toList (fresh_cells 7) .tty .tty
      (by decide) (by decide) (by decide) (by decide) (by decide)⟩

/-- The example of the specification: `cat file | grep foo > out.txt` gives the stages
`cat file` and `grep foo`, with `out.txt` bound to the second stage, in truncate mode. -/
theorem parse_string_cat_grep_example :
    launches (trace_of (parse_string permissive empty_store
      "cat file | grep foo > out.txt".toList no_tokens .tty .tty)) =
      [⟨.str "cat".toList, [.str "cat".toList, .str "file".toList], .tty, .pipe_write, true⟩,
       ⟨.str "grep".toList, [.str "grep".toList, .str "foo".toList], .pipe_read,
         .file "out.txt".toList .trunc, true⟩] := by
  decide

/-- C6, as stated, fails. An operator as first token stays, with its file, in the argv
of the single stage (`< in.txt cat`); an input redirection after the pipe stays, with its
file, in the argv of the second stage (`cat | sort < in.txt`). -/
theorem parse_tokens_argv_keeps_operator :
    (launches (trace_of (parse_tokens permissive empty_store
      (token_array leading_redirect_line (fresh_cells 3)) .tty .tty))).map Launch.argv
      = [[Slot.str ['<'], Slot.str "in.txt".toList, Slot.str "cat".toList]] ∧
    (launches (trace_of (parse_tokens permissive empty_store
      (token_array input_after_pipe_line (fresh_cells 5)) .tty .tty))).map Launch.argv
      = [[Slot.str "cat".toList],
         [Slot.str "sort".toList, Slot.str ['<'], Slot.str "in.txt".toList]] := by
  decide

/-- A redirection written before the pipe: the operator stays in the argv of the first
stage, followed by a cell of `first_phrase` that was never assigned. -/
theorem parse_tokens_operator_before_pipe :
    (launches (trace_of (parse_tokens permissive empty_store
      (token_array input_before_pipe_line (fresh_cells 5)) .tty .tty))).map Launch.argv
      = [[Slot.str "sort".toList, Slot.str ['<'], Slot.junk], [Slot.str "head".toList]] := by
  decide

/-- C6, amended: no argv passed to `execvp` holds a redirection operator or the file of
one - each argv is a run of consecutive tokens of the part of the line before its first
operator - for the lines the planner supports: a line without `|` whose first token is no
operator and whose operators each have a file, and a line `A | B`, `A | B > f ...` or
`A | B >> f ...` with ordinary tokens in `A` (not empty) and `B`. -/
theorem argv_free_of_redirections (env : Env) (hs : HistoryStore) (stale : List Slot)
    (fd0 fd1 : Desc) :
    (∀ (cmd : CStr) (args : List CStr),
      (token_array (cmd :: args) stale).length = MAX_TOKENS → ['|'] ∉ cmd :: args →
      is_redir cmd = false → redirs_have_files args = true →
      ∀ l ∈ launches (trace_of (parse_tokens env hs (token_array (cmd :: args) stale)
          fd0 fd1)),
        ∃ seg, l.argv = seg.map Slot.str ∧
          seg <:+: (cmd :: args).takeWhile (fun t => !is_redir t)) ∧
    (∀ (a0 : CStr) (A1 B T : List CStr),
      (token_array ((a0 :: A1) ++ ['|'] :: B ++ T) stale).length = MAX_TOKENS →
      (∀ t ∈ a0 :: A1, is_plain t = true) → (∀ t ∈ B, is_plain t = true) →
      (T = [] ∨ ∃ op file C, T = op :: file :: C ∧ (op = ['>'] ∨ op = ['>', '>'])) →
      ∀ l ∈ launches (trace_of (parse_tokens env hs
          (token_array ((a0 :: A1) ++ ['|'] :: B ++ T) stale) fd0 fd1)),
        ∃ seg, l.argv = seg.map Slot.str ∧
          seg <:+: ((a0 :: A1) ++ ['|'] :: B ++ T).takeWhile (fun t => !is_redir t)) := by
  constructor
  · intro cmd args hlen hpipe hcmd hwf l hl
    obtain ⟨f2, tail, h2, h2_tok, h2_l, _, _⟩ :=
      parse_tokens_single_frame env hs cmd args stale fd0 fd1 hlen hpipe hwf
    have hlen1 : args.length + stale.length + 2 = 100 := by
      simp only [token_array, MAX_TOKENS, List.length_append, List.length_map,
        List.length_cons] at hlen
      omega
    have hlen2 : (cmd :: args.takeWhile (fun t => !is_redir t)).length + 1 ≤ MAX_TOKENS + 1 := by
      have := (List.takeWhile_sublist (l := args) (fun t => !is_redir t)).length_le
      simp only [List.length_cons, MAX_TOKENS]; omega
    rw [h2] at hl
    rcases dispatch_single env hs fd0 fd1 f2 _ tail h2_tok hlen2 with h | ⟨file, h⟩
    · rw [h, h2_l] at hl
      simp at hl
    · rw [h, h2_l] at hl
      simp only [List.nil_append, List.mem_singleton] at hl
      subst hl
      refine ⟨_, rfl, ?_⟩
      have e : (cmd :: args).takeWhile (fun t => !is_redir t) =
          cmd :: args.takeWhile (fun t => !is_redir t) := by
        simp [List.takeWhile_cons, hcmd]
      rw [e]
      exact (List.takeWhile_prefix _).isInfix
  · intro a0 A1 B T hlen hA hB hT l hl
    obtain ⟨out, h, _, _⟩ := parse_tokens_piped env hs a0 A1 B T stale fd0 fd1 hlen hA hB hT
    rw [h] at hl
    have hA2 : ∀ t ∈ a0 :: A1, (fun t => !is_redir t) t = true := by
      intro t ht
      have := (is_plain_iff t).1 (hA t ht)
      simp [this.1]
    have hB2 : ∀ t ∈ ['|'] :: B, (fun t => !is_redir t) t = true := by
      intro t ht
      rcases List.mem_cons.1 ht with h1 | h1
      · subst h1; decide
      · have := (is_plain_iff t).1 (hB t h1)
        simp [this.1]
    have e : ((a0 :: A1) ++ ['|'] :: B ++ T).takeWhile (fun t => !is_redir t) =
        (a0 :: A1) ++ ((['|'] :: B) ++ T.takeWhile (fun t => !is_redir t)) := by
      have e1 : (a0 :: A1) ++ ['|'] :: B ++ T = (a0 :: A1) ++ ((['|'] :: B) ++ T) := by simp
      rw [e1, List.takeWhile_append_of_pos hA2, List.takeWhile_append_of_pos hB2]
    rw [e]
    simp only [List.mem_cons, List.mem_singleton, List.not_mem_nil, or_false] at hl
    rcases hl with hl | hl
    · subst hl
      exact ⟨a0 :: A1, rfl, (List.prefix_append _ _).isInfix⟩
    · subst hl
      refine ⟨B, rfl, ?_⟩
      exact ⟨(a0 :: A1) ++ [['|']], T.takeWhile (fun t => !is_redir t), by simp⟩

theorem argv_free_of_redirections_witness :
    ((token_array ("sort".toList :: sort_line.tail) (fresh_cells 5)).length = MAX_TOKENS ∧
      ['|'] ∉ "sort".toList :: sort_line.tail ∧ is_redir "sort".toList = false ∧
      redirs_have_files sort_line.tail = true ∧
      ∀ l ∈ launches (trace_of (parse_tokens permissive empty_store
          (token_array ("sort".toList :: sort_line.tail) (fresh_cells 5)) .tty .tty)),
        ∃ seg, l.argv = seg.map Slot.str ∧
          seg <:+: ("sort".toList :: sort_line.tail).takeWhile (fun t => !is_redir t)) ∧
    ((token_array (("cat".toList :: ["file".toList]) ++ ['|'] ::
        ["grep".toList, "foo".toList] ++ [">".toList, "out.txt".toList])
        (fresh_cells 7)).length = MAX_TOKENS ∧
      (∀ t ∈ "cat".toList :: ["file".toList], is_plain t = true) ∧
      (∀ t ∈ ["grep".toList, "foo".toList], is_plain t = true) ∧
      ∀ l ∈ launches (trace_of (parse_tokens permissive empty_store
          (token_array (("cat".toList :: ["file".toList]) ++ ['|'] ::
            ["grep".toList, "foo".toList] ++ [">".toList, "out.txt".toList])
            (fresh_cells 7)) .tty .tty)),
        ∃ seg, l.argv = seg.map Slot.str ∧
          seg <:+: (("cat".toList :: ["file".toList]) ++ ['|'] ::
            ["grep".toList, "foo".toList] ++ [">".toList, "out.txt".toList]).takeWhile
              (fun t => !is_redir t)) :=
  ⟨⟨by decide, by decide, by decide, by decide,
    (argv_free_of_redirections permissive empty_store (fresh_cells 5) .tty .tty).1
      "sort".toList sort_line.tail (by decide) (by decide) (by decide) (by decide)⟩,
   ⟨by decide, by decide, by decide,
    (argv_free_of_redirections permissive empty_store (fresh_cells 7) .tty .tty).2
      "cat".toList ["file".toList] ["grep".toList, "foo".toList]
      [">".toList, "out.txt".toList] (by decide) (by decide) (by decide)
      (Or.inr ⟨">".toList, "out.txt".toList, [], rfl, Or.inl rfl⟩)⟩⟩

set_option maxRecDepth 100000 in
/-- C7, failing input: the keys `a`, Backspace, space, Enter. At the Enter the line shows
a single space, yet `get_input` returns 0 and appends the line ` ` to the history, whose
count and cursor go from 0 to 1: the flag `non_space` set by the erased `a` stays set. -/
theorem get_input_accepts_erased_line :
    (state_of (get_input empty_store dirty_buffer prompt_tty ['a', DEL, ' '])).map
        (fun e => (e.tty.text 3, e.pos, e.non_space)) = some ([' '], 1, 1) ∧
    return_value (get_input empty_store dirty_buffer prompt_tty ['a', DEL, ' ', '\n'])
      = some 0 ∧
    (state_of (get_input empty_store dirty_buffer prompt_tty ['a', DEL, ' ', '\n'])).map
        (fun e => (e.hs.history_count, e.hs.history_index, e.hs.history.head?))
      = some (1, 1, some [' ']) := by
  decide

/-- An arrow that cannot move the cursor, in any state of `get_input`: ArrowUp with the
cursor at 0, ArrowDown with the cursor at `history_count`. The decoder consumes the three
bytes, changes nothing and defines no value; the run stops where `get_input` uses it. -/
theorem get_input_loop_refused_arrow (fuel : Nat) (e : Editor) (b : Char) (rest : List Char)
    (hin : e.stdin = ESC :: '[' :: b :: rest)
    (h : (b = 'A' ∧ ¬ e.hs.history_index > 0) ∨
      (b = 'B' ∧ ¬ e.hs.history_index < e.hs.history_count)) :
    read_arrow_key e = .ok (none, { e with stdin := rest }) ∧
    get_input_loop (fuel + 1) e = .fault { e with stdin := rest } := by
  have hread : read_arrow_key e = .ok (none, { e with stdin := rest }) := by
    rcases h with ⟨hb, hc⟩ | ⟨hb, hc⟩
    · subst hb
      simp only [read_arrow_key, getch, hin, Res.bind, if_true, if_neg hc]
    · subst hb
      have hne : ¬ ('B' = 'A') := by decide
      simp only [read_arrow_key, getch, hin, Res.bind, if_true, if_neg hc, if_neg hne]
  refine ⟨hread, ?_⟩
  rw [get_input_loop, hread]
  rfl

set_option maxRecDepth 100000 in
/-- The store `half_store` is reached from the empty store by fifty calls of
`add_to_history`. -/
theorem half_store_reachable : add_all fifty_commands empty_store = .ok half_store := by
  decide

set_option maxRecDepth 100000 in
/-- C8, failing input: a history of fifty entries with the cursor at the newest position
and the key ArrowDown; also the history `ls` and a second ArrowUp. The arrow that cannot
move the cursor leaves the globals alone, but `read_arrow_key` then reaches its end
without a `return` statement: the value that `get_input` receives in `ch` and goes on to
test is not defined by the source, so what becomes of the buffer is not defined either
(the run of the embedding stops at that use, the line and the cursor as they were). -/
theorem get_input_uses_undefined_key :
    read_arrow_key (decoder_state half_store ARROW_DOWN) =
      .ok (none, decoder_state half_store []) ∧
    read_arrow_key (decoder_state ls_store_oldest ARROW_UP) =
      .ok (none, decoder_state ls_store_oldest []) ∧
    editor_faulted (get_input half_store dirty_buffer prompt_tty ARROW_DOWN) = true ∧
    (state_of (get_input half_store dirty_buffer prompt_tty ARROW_DOWN)).map
        (fun e => (e.tty.text 3, e.pos, e.hs.history_index)) = some ([], 0, 50) ∧
    (state_of (get_input ls_store dirty_buffer prompt_tty ARROW_UP)).map
        (fun e => (e.tty.text 3, e.str.take 3, e.pos, e.hs.history_index))
      = some ("ls".toList, ['l', 's', NUL], 2, 0) ∧
    editor_faulted (get_input ls_store dirty_buffer prompt_tty (ARROW_UP ++ ARROW_UP))
      = true ∧
    (state_of (get_input ls_store dirty_buffer prompt_tty (ARROW_UP ++ ARROW_UP))).map
        (fun e => (e.tty.text 3, e.str.take 3, e.pos, e.hs.history_index))
      = some ("ls".toList, ['l', 's', NUL], 2, 0) := by
  decide

theorem found_in_eq (u : List CStr) (s : CStr) : found_in u s = decide (s ∈ u) := by
  induction u with
  | nil => simp [found_in]
  | cons a u ih =>
    by_cases h : s = a
    · simp [found_in, h]
    · simp [found_in, h, ih]

theorem mem_first_occurrences (l : List CStr) (s : CStr) :
    s ∈ first_occurrences l ↔ s ∈ l := by
  induction l with
  | nil => simp [first_occurrences]
  | cons x xs ih =>
    simp only [first_occurrences, List.mem_cons, List.mem_filter, ih, decide_eq_true_eq]
    by_cases h : s = x
    · simp [h]
    · simp [h]

theorem nodup_first_occurrences (l : List CStr) : (first_occurrences l).Nodup := by
  induction l with
  | nil => simp [first_occurrences]
  | cons x xs ih =>
    simp only [first_occurrences, List.nodup_cons, List.mem_filter, decide_eq_true_eq]
    exact ⟨fun h => h.2 rfl, ih.filter _⟩

theorem sublist_first_occurrences (l : List CStr) : (first_occurrences l).Sublist l := by
  induction l with
  | nil => simp [first_occurrences]
  | cons x xs ih =>
    simp only [first_occurrences]
    exact ((List.filter_sublist _).trans ih).cons₂ x

/-- The candidate loop over a list of rows, from the candidates `acc`: the rows not in
`acc` are added in the order of their first occurrence. -/
theorem unique_fold (l : List CStr) : ∀ acc : List CStr,
    l.foldl (fun u row => if found_in u row then u else u ++ [row]) acc =
      acc ++ (first_occurrences l).filter (fun y => decide (y ∉ acc)) := by
  induction l with
  | nil => intro acc; simp [first_occurrences]
  | cons x xs ih =>
    intro acc
    simp only [List.foldl_cons, first_occurrences]
    by_cases hx : x ∈ acc
    · have hf : found_in acc x = true := by rw [found_in_eq]; simpa using hx
      rw [hf, if_pos rfl, ih]
      congr 1
      rw [List.filter_cons_of_neg (by simpa using hx), List.filter_filter]
      apply List.filter_congr
      intro y _
      by_cases hy : y ∈ acc
      · simp [hy]
      · have : y ≠ x := fun h => hy (h ▸ hx)
        simp [hy, this]
    · have hf : found_in acc x = false := by rw [found_in_eq]; simpa using hx
      rw [hf, if_neg (by simp), ih]
      rw [List.filter_cons_of_pos (by simpa using hx), List.filter_filter]
      simp only [List.append_assoc, List.singleton_append]
      congr 2
      apply List.filter_congr
      intro y _
      by_cases hy : y ∈ acc
      · simp [hy]
      · by_cases hyx : y = x
        · simp [hyx]
        · simp [hy, hyx]

/-- The candidate loop of `handle_signal` over the rows of a store holding `h`. -/
theorem unique_loop_fold (hist h : List CStr) (hl : hist.length = HISTORY_SIZE)
    (hle : h.length ≤ HISTORY_SIZE) (htake : hist.take h.length = h) :
    ∀ (n i : Nat) (acc : List CStr), i + n = h.length →
      unique_loop hist n (i : Int) acc =
        some ((h.drop i).foldl (fun u row => if found_in u row then u else u ++ [row]) acc) := by
  intro n
  induction n with
  | zero =>
    intro i acc hi
    have : h.drop i = [] := List.drop_eq_nil_of_le (by omega)
    simp [unique_loop, this]
  | succ n ih =>
    intro i acc hi
    have hi1 : i < h.length := by omega
    have hi2 : i < HISTORY_SIZE := by omega
    have hrow : hist.getD i [] = h[i] := by
      have h1 : (hist.take h.length)[i]? = h[i]? := by rw [htake]
      rw [List.getElem?_take_of_lt hi1, List.getElem?_eq_getElem hi1] at h1
      simp [List.getD_eq_getElem?_getD, h1]
    have hdrop : h.drop i = h[i] :: h.drop (i + 1) := List.drop_eq_getElem_cons hi1
    rw [unique_loop, row_get_ok hist i hi2 hl, hrow, hdrop, List.foldl_cons]
    have := ih (i + 1) (if found_in acc h[i] then acc else acc ++ [h[i]]) (by omega)
    simpa using this

/-- C10: for every store holding the sequence `h`, the candidate set built at the start
of `handle_signal` is `h` with duplicates removed, each command kept at its first
(oldest) occurrence: it has no two equal strings, it contains exactly the strings of `h`,
and it lists them in the order of `h`. -/
theorem unique_commands_first_occurrences (hs : HistoryStore) (h : List CStr)
    (hh : Holds hs h) :
    ∃ u, unique_commands hs = some u ∧ u = first_occurrences h ∧ u.Nodup ∧
      (∀ s, s ∈ u ↔ s ∈ h) ∧ u.Sublist h := by
  obtain ⟨hl, _, hcnt, htake⟩ := hh
  have hle : h.length ≤ HISTORY_SIZE := by
    have := congrArg List.length htake
    simp only [List.length_take] at this
    omega
  refine ⟨first_occurrences h, ?_, rfl, nodup_first_occurrences h,
    mem_first_occurrences h, sublist_first_occurrences h⟩
  unfold unique_commands
  rw [hcnt, Int.toNat_ofNat]
  have := unique_loop_fold hs.history h hl hle htake h.length 0 [] (by simp)
  simp only [Nat.cast_zero, List.drop_zero] at this
  rw [this, unique_fold]
  simp

theorem unique_commands_first_occurrences_witness :
    Holds (store_of git_rows) git_rows ∧
    ∃ u, unique_commands (store_of git_rows) = some u ∧ u = first_occurrences git_rows ∧
      u.Nodup ∧ (∀ s, s ∈ u ↔ s ∈ git_rows) ∧ u.Sublist git_rows :=
  ⟨by decide, unique_commands_first_occurrences (store_of git_rows) git_rows (by decide)⟩

/-- The candidates of the history `git status`, `git stash`, `ls`, `git status`. -/
theorem unique_commands_example :
    unique_commands (store_of git_rows) =
      some ["git status".toList, "git stash".toList, "ls".toList] := by
  decide

/-- The search loop counts the candidates that start with the typed characters and keeps
the last of them. -/
theorem match_loop_eq (input : List Char) (us : List CStr) : ∀ acc : Int × CStr,
    match_loop input us acc =
      (acc.1 + (candidates_with input us).length,
        ((candidates_with input us).getLast?).getD acc.2) := by
  induction us with
  | nil => intro acc; simp [match_loop, candidates_with]
  | cons u us ih =>
    intro acc
    unfold candidates_with at ih ⊢
    by_cases h : input.isPrefixOf u = true
    · rw [match_loop, if_pos h, ih, List.filter_cons_of_pos h]
      simp only [List.length_cons, Nat.cast_add, Nat.cast_one]
      generalize List.filter (fun u => input.isPrefixOf u) us = F
      congr 1
      · omega
      · cases F with
        | nil => simp
        | cons a as =>
          rw [List.getLast?_cons_cons]
          simp [List.getLast?_eq_getLast]
    · rw [match_loop, if_neg h, ih, List.filter_cons_of_neg h]

/-- The latch rule of suggestion mode within the buffer sizes. In the loop of
`handle_signal`, a printable character typed while nothing is auto-filled yet (with room
left in the 100-byte buffer `input` and candidates that fit the 100-byte buffer `cmd`) is
appended to the typed characters, and the auto-filled state is latched if and only if
exactly one candidate starts with the characters typed so far; the latched command is
that candidate. -/
theorem suggest_loop_latches_unique (env : Env) (fuel : Nat) (s : Suggest) (ch : Char)
    (rest : List Char) (hin : s.stdin = ch :: rest)
    (hch : 32 ≤ ch.toNat ∧ ch.toNat ≤ 126) (hm : s.matched ≠ 1)
    (hroom : s.input.length < SUGGEST_SIZE) (hfit : ∀ u ∈ s.unique, u.length < SUGGEST_SIZE) :
    ∃ s1, suggest_loop env (fuel + 1) s = suggest_loop env fuel s1 ∧
      s1.stdin = rest ∧ s1.input = s.input ++ [ch] ∧ s1.unique = s.unique ∧
      (s1.matched = 1 ↔ (candidates_with (s.input ++ [ch]) s.unique).length = 1) ∧
      (∀ u, candidates_with (s.input ++ [ch]) s.unique = [u] → s1.cmd = some u) := by
  have hnl : ch ≠ '\n' := by
    intro h
    rw [h] at hch
    exact absurd hch.1 (by decide)
  have hcond : ¬ (s.matched = 1 ∧ ch = '\n') := fun h => hm h.1
  have hprint : ch.toNat ≥ 32 ∧ ch.toNat ≤ 126 ∧ s.matched ≠ 1 := ⟨hch.1, hch.2, hm⟩
  have hml := match_loop_eq (s.input ++ [ch]) s.unique (0, [])
  simp only [zero_add] at hml
  rw [suggest_loop, hin]
  simp only [if_neg hcond, if_pos hprint]
  unfold suggest_key
  simp only [if_pos hroom, hml]
  by_cases h1 : (candidates_with (s.input ++ [ch]) s.unique).length = 1
  · obtain ⟨u, hu⟩ := List.length_eq_one.1 h1
    have humem : u ∈ s.unique := by
      have : u ∈ candidates_with (s.input ++ [ch]) s.unique := by rw [hu]; simp
      exact (List.mem_filter.1 this).1
    have hcast : ((candidates_with (s.input ++ [ch]) s.unique).length : Int) = 1 := by
      rw [h1]; rfl
    simp only [hcast, if_true, hu, List.getLast?_singleton, Option.getD_some,
      if_pos (hfit u humem), Res.bind_ok, if_pos hnl]
    refine ⟨_, rfl, rfl, rfl, rfl, ?_, ?_⟩
    · simp
    · intro v hv
      simp only [List.cons.injEq, and_true] at hv
      rw [hv]
  · have hcast : ¬ ((candidates_with (s.input ++ [ch]) s.unique).length : Int) = 1 := by
      intro h; exact h1 (by exact_mod_cast h)
    simp only [if_neg hcast, Res.bind_ok, if_pos hnl]
    refine ⟨_, rfl, rfl, rfl, rfl, ?_, ?_⟩
    · simp only [h1, iff_false]
      exact hm
    · intro v hv
      rw [hv] at h1
      exact absurd rfl h1

theorem suggest_loop_latches_unique_witness :
    ['l'] = 'l' :: [] ∧ (32 ≤ 'l'.toNat ∧ 'l'.toNat ≤ 126) ∧ (0 : Int) ≠ 1 ∧
    ([] : List Char).length < SUGGEST_SIZE ∧ (∀ u ∈ spec_rows, u.length < SUGGEST_SIZE) ∧
    ∃ s1, suggest_loop permissive (1 + 1)
        { hs := store_of spec_rows, unique := spec_rows, input := [], matched := 0,
          cmd := none, tty := prompt_tty, stdin := ['l'], sig_found := 1,
          tokens := no_tokens, trace := [] } = suggest_loop permissive 1 s1 ∧
      s1.stdin = [] ∧ s1.input = [] ++ ['l'] ∧ s1.unique = spec_rows ∧
      (s1.matched = 1 ↔ (candidates_with ([] ++ ['l']) spec_rows).length = 1) ∧
      (∀ u, candidates_with ([] ++ ['l']) spec_rows = [u] → s1.cmd = some u) :=
  ⟨rfl, by decide, by decide, by decide, by decide,
    suggest_loop_latches_unique permissive 1
      { hs := store_of spec_rows, unique := spec_rows, input := [], matched := 0,
        cmd := none, tty := prompt_tty, stdin := ['l'], sig_found := 1,
        tokens := no_tokens, trace := [] }
      'l' [] rfl (by decide) (by decide) (by decide) (by decide)⟩

/-- The example of the specification: with the history `git status`, `git stash`, `ls`,
typing `l` latches `ls` and shows it; typing `g` latches nothing; `git stas` latches
`git stash`. -/
theorem handle_signal_example :
    (suggest_state (handle_signal permissive (store_of spec_rows) no_tokens prompt_tty
        ['l'])).map (fun s => (s.matched, s.cmd, s.tty.text 3))
      = some (1, some "ls".toList, "ls".toList) ∧
    (suggest_state (handle_signal permissive (store_of spec_rows) no_tokens prompt_tty
        ['g'])).map (fun s => (s.matched, s.cmd, s.tty.text 3))
      = some (0, none, ['g']) ∧
    (suggest_state (handle_signal permissive (store_of spec_rows) no_tokens prompt_tty
        "git stas".toList)).map (fun s => (s.matched, s.cmd, s.tty.text 3))
      = some (1, some "git stash".toList, "git stash".toList) := by
  decide

/-- C9, failing input: with a history whose only command has 100 characters, typing its
first letter leaves exactly one matching candidate, but copying it with its `NUL` to the
100-byte buffer `cmd` runs past the end of the buffer: the run stops on this invalid
access, before `matched` is set. -/
theorem handle_signal_overflows_cmd :
    unique_commands (store_of long_rows) = some long_rows ∧
    (candidates_with ['a'] long_rows).length = 1 ∧
    faulted (handle_signal permissive (store_of long_rows) no_tokens prompt_tty ['a'])
      = true ∧
    (suggest_state (handle_signal permissive (store_of long_rows) no_tokens prompt_tty
        ['a'])).map (fun s => (s.matched, s.cmd)) = some (0, none) := by
  decide

/-! ### The recall cursor stays within the entries -/

/-- After `add_to_history` the cursor is behind the last entry, and the entries are
within the array. -/
theorem add_to_history_cursor (hs hs1 : HistoryStore) (c : CStr)
    (h : add_to_history hs c = .ok hs1) :
    hs1.history_index = hs1.history_count ∧ 0 < hs1.history_count ∧
      hs1.history_count ≤ HISTORY_SIZE := by
  unfold add_to_history at h
  by_cases hfull : hs.history_count = (HISTORY_SIZE : Int)
  · rw [if_pos hfull] at h
    cases hsr : shift_rows (HISTORY_SIZE - 1) 1 hs.history with
    | ok out =>
      simp only [hsr, bind, Res.bind, pure] at h
      unfold row_strcpy at h
      split_ifs at h with hc
      · simp only [Res.ok.injEq] at h
        subst h
        have e : ((HISTORY_SIZE : Nat) : Int) = 100 := rfl
        rw [e] at hfull ⊢
        dsimp only
        omega
    | _ => simp [hsr, bind, Res.bind] at h
  · rw [if_neg hfull] at h
    simp only [bind, Res.bind, pure] at h
    unfold row_strcpy at h
    split_ifs at h with hc
    · simp only [Res.ok.injEq] at h
      subst h
      obtain ⟨h0, h1, _⟩ := hc
      have e : ((HISTORY_SIZE : Nat) : Int) = 100 := rfl
      rw [e] at h1 ⊢
      dsimp only
      omega

/-- A decode by `read_arrow_key` keeps the cursor within the entries. -/
theorem read_arrow_key_cursor (e : Editor) (hs1 : HistoryStore)
    (h : globals_after (read_arrow_key e) = some hs1)
    (h0 : 0 ≤ e.hs.history_index) (h1 : e.hs.history_index ≤ e.hs.history_count) :
    hs1.history_count = e.hs.history_count ∧ 0 ≤ hs1.history_index ∧
      hs1.history_index ≤ hs1.history_count := by
  rcases e with ⟨hs, str, pos, ns, oci, tty, stdin⟩
  rcases stdin with _ | ⟨c1, _ | ⟨c2, _ | ⟨c3, rest⟩⟩⟩
  all_goals simp only [read_arrow_key, getch, Res.bind, globals_after] at h
  all_goals try split_ifs at h
  all_goals
    simp only [globals_after, Option.some.injEq] at h
    subst h
    dsimp only at *
    omega

/-- A decode by `read_arrow_key` of `arrows.c` keeps the cursor within the entries. -/
theorem arrows_read_arrow_key_cursor (e : Editor) (hs1 : HistoryStore)
    (h : globals_after (arrows_read_arrow_key e) = some hs1)
    (h0 : 0 ≤ e.hs.history_index) (h1 : e.hs.history_index ≤ e.hs.history_count) :
    hs1.history_count = e.hs.history_count ∧ 0 ≤ hs1.history_index ∧
      hs1.history_index ≤ hs1.history_count := by
  rcases e with ⟨hs, str, pos, ns, oci, tty, stdin⟩
  rcases stdin with _ | ⟨c1, _ | ⟨c2, _ | ⟨c3, rest⟩⟩⟩
  all_goals simp only [arrows_read_arrow_key, getch, Res.bind, globals_after] at h
  all_goals try split_ifs at h
  all_goals
    simp only [globals_after, Option.some.injEq] at h
    subst h
    dsimp only at *
    omega

/-- The adjustment of `get_command` keeps the cursor within the entries. -/
theorem cursor_adjust_cursor (ch : Char) (hs : HistoryStore)
    (h0 : 0 ≤ hs.history_index) (h1 : hs.history_index ≤ hs.history_count) :
    (cursor_adjust ch hs).history_count = hs.history_count ∧
      0 ≤ (cursor_adjust ch hs).history_index ∧
      (cursor_adjust ch hs).history_index ≤ (cursor_adjust ch hs).history_count := by
  unfold cursor_adjust
  split_ifs <;> (try dsimp only) <;> omega

/-- Every event keeps the bounds of the globals. -/
theorem history_step_cursor (hs hs1 : HistoryStore) (ev : HistoryEvent)
    (h : history_step hs ev = some hs1)
    (hinv : 0 ≤ hs.history_index ∧ hs.history_index ≤ hs.history_count ∧
      hs.history_count ≤ HISTORY_SIZE) :
    0 ≤ hs1.history_index ∧ hs1.history_index ≤ hs1.history_count ∧
      hs1.history_count ≤ HISTORY_SIZE := by
  obtain ⟨h0, h1, h2⟩ := hinv
  cases ev with
  | add cmd =>
    simp only [history_step] at h
    cases ha : add_to_history hs cmd with
    | ok hs2 =>
      rw [ha] at h
      simp only [Option.some.injEq] at h
      subst h
      have := add_to_history_cursor hs hs2 cmd ha
      omega
    | _ => rw [ha] at h; simp at h
  | key bytes =>
    have := read_arrow_key_cursor (decoder_state hs bytes) hs1 h h0 h1
    simp only [decoder_state] at this
    omega
  | key_arrows bytes =>
    have := arrows_read_arrow_key_cursor (decoder_state hs bytes) hs1 h h0 h1
    simp only [decoder_state] at this
    omega
  | adjust ch =>
    simp only [history_step, Option.some.injEq] at h
    subst h
    have := cursor_adjust_cursor ch hs h0 h1
    omega

/-- C11: the history invariant. From the empty store, after every sequence of calls of
`add_to_history`, decodes of a key by `read_arrow_key` (of `shell.c` and of `arrows.c`)
and cursor adjustments of `get_command` in `arrows.c`, the globals satisfy
`0 <= history_index <= history_count <= 100`. -/
theorem history_index_within_count (evs : List HistoryEvent) (hs : HistoryStore)
    (h : history_run evs empty_store = some hs) :
    0 ≤ hs.history_index ∧ hs.history_index ≤ hs.history_count ∧
      hs.history_count ≤ 100 := by
  have key : ∀ (evs : List HistoryEvent) (a b : HistoryStore),
      history_run evs a = some b →
      (0 ≤ a.history_index ∧ a.history_index ≤ a.history_count ∧
        a.history_count ≤ HISTORY_SIZE) →
      (0 ≤ b.history_index ∧ b.history_index ≤ b.history_count ∧
        b.history_count ≤ HISTORY_SIZE) := by
    intro evs
    induction evs with
    | nil =>
      intro a b hr ha
      simp only [history_run, Option.some.injEq] at hr
      subst hr
      exact ha
    | cons ev evs ih =>
      intro a b hr ha
      simp only [history_run] at hr
      cases hst : history_step a ev with
      | none => rw [hst] at hr; simp at hr
      | some a1 =>
        rw [hst] at hr
        exact ih a1 b hr (history_step_cursor a a1 ev hst ha)
  have := key evs empty_store hs h ⟨by decide, by decide, by decide⟩
  simpa [HISTORY_SIZE] using this

/-- C11 at a session with arrow keys between the commands: the run is defined and ends
within the bounds. -/
theorem history_index_within_count_witness :
    history_run sample_events empty_store =
        some { history := "ls".toList :: "pwd".toList :: "date".toList ::
                 List.replicate 97 [],
               history_count := 3, history_index := 3 } ∧
      (0 : Int) ≤ 3 ∧ (3 : Int) ≤ 3 ∧ (3 : Int) ≤ 100 :=
  ⟨by decide, history_index_within_count sample_events
    { history := "ls".toList :: "pwd".toList :: "date".toList :: List.replicate 97 [],
      history_count := 3, history_index := 3 } (by decide)⟩

/-! ### `process` and the token `&` -/

/-- The tokens before a `&` that is the last token and the only one. -/
theorem takeWhile_last_ampersand (l : List CStr) (hlast : l.getLast? = some ['&'])
    (hno : ['&'] ∉ l.dropLast) :
    l.takeWhile (fun t => decide (t ≠ ['&'])) = l.dropLast := by
  have hl : l = l.dropLast ++ [['&']] := by
    have := List.dropLast_append_getLast? ['&'] hlast
    exact this.symm
  have hall : ∀ a ∈ l.dropLast, (fun t : CStr => decide (t ≠ ['&'])) a = true := by
    intro a ha
    simp only [decide_eq_true_eq]
    exact fun h => hno (h ▸ ha)
  conv_lhs => rw [hl]
  rw [List.takeWhile_append_of_pos hall]
  simp

/-- C12, as stated, fails: `process` cuts the array at the first `&`, not at the last
token. On the tokens of `sleep & 5 &`, whose last token is `&`, the argv is `sleep`
alone, not the list without its last token. -/
theorem process_cuts_at_first_ampersand :
    double_background_line.getLast? = some ['&'] ∧
    (launches (trace_of (process (plain_frame
      (token_array double_background_line (fresh_cells 4)))))).map Launch.argv =
      [[Slot.str "sleep".toList]] ∧
    [Slot.str "sleep".toList] ≠ double_background_line.dropLast.map Slot.str := by
  decide

/-- C12, amended: for every token list handed to `process` in a `NULL`-terminated array,
`process` returns after one `execvp`. If the list contains `&`, the argv is the tokens
before the first `&` and `process` does not wait for the child; so for a list whose last
token is `&` and that has no other `&` the argv is the list without that `&`. If the list
contains no `&`, the argv is the whole list and `process` waits for the child. -/
theorem process_argv_until_ampersand (l : List CStr) (stale : List Slot) (f : Frame)
    (ht : f.tokens = token_array l stale) (hlen : l.length ≤ MAX_TOKENS) :
    ∃ f1 file argv waited, process f = .ok f1 ∧
      f1.trace = f.trace ++ [.exec ⟨file, argv, f.fd0, f.fd1, waited⟩] ∧
      (['&'] ∈ l →
        argv = (l.takeWhile (fun t => decide (t ≠ ['&']))).map Slot.str ∧ waited = false) ∧
      (l.getLast? = some ['&'] → ['&'] ∉ l.dropLast →
        argv = l.dropLast.map Slot.str ∧ waited = false) ∧
      (['&'] ∉ l → argv = l.map Slot.str ∧ waited = true) := by
  obtain ⟨f1, file, h1, h1_tr⟩ := process_spec l stale f ht (by omega)
  refine ⟨f1, file, _, _, h1, h1_tr, ?_, ?_, ?_⟩
  · intro hin
    exact ⟨rfl, by simpa using hin⟩
  · intro hlast hno
    have hin : ['&'] ∈ l := by
      rw [← List.dropLast_append_getLast? ['&'] hlast]
      simp
    exact ⟨by rw [takeWhile_last_ampersand l hlast hno], by simpa using hin⟩
  · intro hno
    refine ⟨?_, by simpa using hno⟩
    congr 1
    rw [List.takeWhile_eq_self_iff]
    intro a ha
    simp only [decide_eq_true_eq]
    exact fun h => hno (h ▸ ha)

/-- C12 (amended) at the tokens of `sleep 5 &`: the argv is `sleep 5`, not awaited. -/
theorem process_argv_until_ampersand_witness :
    (plain_frame (token_array background_line (fresh_cells 3))).tokens =
      token_array background_line (fresh_cells 3) ∧
    background_line.length ≤ MAX_TOKENS ∧
    ∃ f1 file argv waited,
      process (plain_frame (token_array background_line (fresh_cells 3))) = .ok f1 ∧
      f1.trace = (plain_frame (token_array background_line (fresh_cells 3))).trace ++
        [.exec ⟨file, argv, (plain_frame (token_array background_line (fresh_cells 3))).fd0,
          (plain_frame (token_array background_line (fresh_cells 3))).fd1, waited⟩] ∧
      (['&'] ∈ background_line →
        argv = (background_line.takeWhile (fun t => decide (t ≠ ['&']))).map Slot.str ∧
        waited = false) ∧
      (background_line.getLast? = some ['&'] → ['&'] ∉ background_line.dropLast →
        argv = background_line.dropLast.map Slot.str ∧ waited = false) ∧
      (['&'] ∉ background_line → argv = background_line.map Slot.str ∧ waited = true) :=
  ⟨rfl, by decide,
    process_argv_until_ampersand background_line (fresh_cells 3)
      (plain_frame (token_array background_line (fresh_cells 3))) rfl (by decide)⟩

/-! ### A redirection operator without its file -/

/-- What `redirect` does to a frame whose cell `i + 1` holds `NULL`: the `open` fails and
is reported, the descriptors stay. -/
theorem redirect_null_spec (env : Env) (f : Frame) (pre : List Slot) (c : Slot)
    (rs : List Slot) (mode : OpenMode) (m : Msg)
    (ht : f.tokens = pre ++ c :: Slot.null :: rs) :
    ∃ f1, redirect env f pre.length mode m = .ok f1 ∧
      f1.tokens = pre ++ Slot.null :: Slot.null :: rs ∧
      f1.trace = f.trace ++ [.perror m] ∧ f1.is_piped = f.is_piped ∧
      f1.first_phrase = f.first_phrase ∧ f1.fd0 = f.fd0 ∧ f1.fd1 = f.fd1 := by
  unfold redirect
  rw [ht, slot_get_append_succ, orFault_some, Res.bind_ok, slot_set_append, orFault_some,
    Res.bind_ok, slot_set_append_succ, orFault_some, Res.bind_ok]
  exact ⟨_, rfl, rfl, rfl, rfl, rfl, rfl, rfl⟩

/-- One iteration of the second loop on a redirection operator, with its diagnostic. -/
theorem redir_loop_op_msg (env : Env) (fuel : Nat) (i : Int) (f : Frame) (t : CStr)
    (fp : List Slot) (hg : slot_get f.tokens i = some (Slot.str t))
    (hs : slot_set f.first_phrase i (Slot.str t) = some fp) (ht : is_redir t = true) :
    redir_loop env (fuel + 1) i f =
      (redirect env { f with first_phrase := fp } i (mode_of t) (msg_of t)).bind
        (fun f1 => redir_loop env fuel (i + 2) f1) := by
  rw [redir_loop, hg, orFault_some, Res.ok_bind]
  simp only [hs, orFault_some, Res.ok_bind]
  rcases (is_redir_iff t).1 ht with h | h | h <;> subst h <;> rfl

/-- The second loop over the first tokens of a line, none of them a pipe and each
operator among them with its file: the loop arrives behind them with the cells cut at
the first operator, nothing launched. -/
theorem redir_loop_front (env : Env) : ∀ (n : Nat) (rest : List CStr), rest.length ≤ n →
    ∀ (pre cells : List Slot) (f : Frame) (fuel : Nat),
    f.tokens = pre ++ rest.map Slot.str ++ cells →
    f.first_phrase.length = f.tokens.length →
    redirs_have_files rest = true → ['|'] ∉ rest →
    ∃ f1 more m, redir_loop env (fuel + rest.length) pre.length f =
        redir_loop env (fuel + m) ((pre.length + rest.length : Nat) : Int) f1 ∧
      f1.tokens =
        pre ++ ((rest.takeWhile (fun t => !is_redir t)).map Slot.str ++ more) ++ cells ∧
      (more = [] ∨ ∃ tl, more = Slot.null :: tl) ∧
      (rest.takeWhile (fun t => !is_redir t)).length + more.length = rest.length ∧
      f1.first_phrase.length = f1.tokens.length ∧
      launches f1.trace = launches f.trace ∧ f1.is_piped = f.is_piped := by
  intro n
  induction n with
  | zero =>
    intro rest hn pre cells f fuel ht hfp _ _
    have hr : rest = [] := List.length_eq_zero.1 (by omega)
    subst hr
    exact ⟨f, [], 0, by simp, by simpa using ht, Or.inl rfl, rfl, hfp, rfl, rfl⟩
  | succ n ih =>
    intro rest hn pre cells f fuel ht hfp hwf hpipe
    cases rest with
    | nil => exact ⟨f, [], 0, by simp, by simpa using ht, Or.inl rfl, rfl, hfp, rfl, rfl⟩
    | cons t rest1 =>
      have ht1 : f.tokens = pre ++ Slot.str t :: (rest1.map Slot.str ++ cells) := by
        simpa using ht
      have hg : slot_get f.tokens (pre.length : Int) = some (Slot.str t) := by
        rw [ht1, slot_get_append]
      have hlt : pre.length < f.first_phrase.length := by
        rw [hfp, ht1]; simp
      have hs := slot_set_of_lt f.first_phrase pre.length (Slot.str t) hlt
      have hpt : t ≠ ['|'] := fun h => hpipe (by simp [h])
      have hpipe1 : ['|'] ∉ rest1 := fun h => hpipe (List.mem_cons_of_mem _ h)
      by_cases hop : is_redir t = true
      · cases rest1 with
        | nil => simp [redirs_have_files, hop] at hwf
        | cons file rest2 =>
          have hwf2 : redirs_have_files rest2 = true :=
            redirs_have_files_tail _ _ (redirs_have_files_tail _ _ hwf)
          have efuel : fuel + (t :: file :: rest2).length = (fuel + 1 + rest2.length) + 1 := by
            simp only [List.length_cons]; omega
          have hstep := redir_loop_op_msg env (fuel + 1 + rest2.length) pre.length f t _ hg hs hop
          have ht2 : ({ f with first_phrase := f.first_phrase.set pre.length (Slot.str t) } :
              Frame).tokens
              = pre ++ Slot.str t :: Slot.str file :: (rest2.map Slot.str ++ cells) := by
            simpa using ht
          obtain ⟨f1, hr, hr_tok, hr_l, hr_p, hr_fp, _, _⟩ :=
            redirect_spec env _ pre (Slot.str t) file _ (mode_of t) (msg_of t) ht2
          have e2 : (pre.length : Int) + 2 = ((pre ++ [Slot.null, Slot.null]).length : Int) := by
            simp
          have htok1 : f1.tokens = (pre ++ [Slot.null, Slot.null]) ++ rest2.map Slot.str ++
              cells := by
            rw [hr_tok]; simp
          have hfp1 : f1.first_phrase.length = f1.tokens.length := by
            rw [hr_fp, htok1]
            simp only [List.length_set, hfp, ht, List.length_append, List.length_map,
              List.length_cons, List.length_nil]
            omega
          obtain ⟨f2, more, m, h2, h2_tok, h2_more, h2_len, h2_fp, h2_l, h2_p⟩ :=
            ih rest2 (by simp only [List.length_cons] at hn; omega) (pre ++ [Slot.null, Slot.null])
              cells f1 (fuel + 1) htok1 hfp1 hwf2 (fun h => hpipe1 (List.mem_cons_of_mem _ h))
          refine ⟨f2, Slot.null :: Slot.null ::
            ((rest2.takeWhile (fun t => !is_redir t)).map Slot.str ++ more), m + 1,
            ?_, ?_, Or.inr ⟨_, rfl⟩, ?_, h2_fp, ?_, ?_⟩
          · rw [efuel, hstep, hr, Res.bind_ok, e2, h2]
            have e3 : fuel + 1 + m = fuel + (m + 1) := by omega
            have e4 : (pre ++ [Slot.null, Slot.null]).length + rest2.length =
                pre.length + (t :: file :: rest2).length := by
              simp only [List.length_append, List.length_cons, List.length_nil]; omega
            rw [e3, e4]
          · rw [h2_tok]; simp [List.takeWhile_cons, hop]
          · simp only [List.takeWhile_cons, hop, Bool.not_true, Bool.false_eq_true, if_false,
              List.length_nil, List.length_cons, List.length_append, List.length_map] at h2_len ⊢
            omega
          · rw [h2_l, hr_l]
          · rw [h2_p, hr_p]
      · have hop1 : is_redir t = false := by simpa using hop
        have efuel : fuel + (t :: rest1).length = (fuel + rest1.length) + 1 := by
          simp only [List.length_cons]; omega
        have hstep := redir_loop_plain env (fuel + rest1.length) pre.length f t _ hg hs hop1 hpt
        have e2 : (pre.length : Int) + 1 = ((pre ++ [Slot.str t]).length : Int) := by simp
        have htok1 : ({ f with first_phrase := f.first_phrase.set pre.length (Slot.str t) } :
            Frame).tokens = (pre ++ [Slot.str t]) ++ rest1.map Slot.str ++ cells := by
          simpa using ht
        obtain ⟨f2, more, m, h2, h2_tok, h2_more, h2_len, h2_fp, h2_l, h2_p⟩ :=
          ih rest1 (by simp only [List.length_cons] at hn; omega) (pre ++ [Slot.str t]) cells _
            fuel htok1 (by simpa using hfp) (redirs_have_files_tail _ _ hwf) hpipe1
        refine ⟨f2, more, m, ?_, ?_, h2_more, ?_, h2_fp, h2_l, h2_p⟩
        · rw [efuel, hstep, e2, h2]
          have e4 : (pre ++ [Slot.str t]).length + rest1.length =
              pre.length + (t :: rest1).length := by
            simp only [List.length_append, List.length_cons, List.length_nil]; omega
          rw [e4]
        · rw [h2_tok]; simp [List.takeWhile_cons, hop1]
        · simp only [List.takeWhile_cons, hop1, Bool.not_false, if_true,
            List.length_cons] at h2_len ⊢
          omega
/-- The second loop on a line without a pipe that ends with an operator without its file,
the operators before it with their files, and a `NULL` in the cell after the terminator:
the failed `open` is reported and the loop ends with the array cut at the first
operator, nothing launched. -/
theorem redir_loop_trailing (env : Env) (rest : List CStr) (op : CStr)
    (pre stale : List Slot) (f : Frame) (fuel : Nat)
    (ht : f.tokens = pre ++ rest.map Slot.str ++
      Slot.str op :: Slot.null :: Slot.null :: stale)
    (hfp : f.first_phrase.length = f.tokens.length)
    (hwf : redirs_have_files rest = true) (hpipe : ['|'] ∉ rest)
    (hop : is_redir op = true) (hfuel : rest.length + 2 ≤ fuel) :
    ∃ f1 tail, redir_loop env fuel pre.length f = .ok f1 ∧
      f1.tokens = pre ++ (rest.takeWhile (fun t => !is_redir t)).map Slot.str ++
        Slot.null :: tail ∧
      launches f1.trace = launches f.trace ∧ f1.is_piped = f.is_piped ∧
      Effect.perror (msg_of op) ∈ f1.trace := by
  obtain ⟨k, rfl⟩ : ∃ k, fuel = (k + 2) + rest.length := ⟨fuel - rest.length - 2, by omega⟩
  obtain ⟨f1, more, m, h1, h1_tok, h1_more, h1_len, h1_fp, h1_l, h1_p⟩ :=
    redir_loop_front env rest.length rest (le_refl _) pre _ f (k + 2) ht hfp hwf hpipe
  have elen : pre.length + rest.length =
      (pre ++ ((rest.takeWhile (fun t => !is_redir t)).map Slot.str ++ more)).length := by
    simp only [List.length_append, List.length_map]; omega
  rw [elen] at h1
  obtain ⟨D, hD⟩ : ∃ D, D = pre ++ ((rest.takeWhile (fun t => !is_redir t)).map Slot.str ++
      more) := ⟨_, rfl⟩
  rw [← hD] at h1 h1_tok
  have hg : slot_get f1.tokens (D.length : Int) = some (Slot.str op) := by
    rw [h1_tok, slot_get_append]
  have hlt : D.length < f1.first_phrase.length := by
    rw [h1_fp, h1_tok]; simp
  have hs := slot_set_of_lt f1.first_phrase _ (Slot.str op) hlt
  have efuel : k + 2 + m = (k + m + 1) + 1 := by omega
  have hstep := redir_loop_op_msg env (k + m + 1) _ f1 op _ hg hs hop
  have h1_tok2 : ({ f1 with first_phrase := f1.first_phrase.set D.length (Slot.str op) } :
      Frame).tokens = D ++ Slot.str op :: Slot.null :: Slot.null :: stale := h1_tok
  obtain ⟨f2, hr, hr_tok, hr_tr, hr_p, _, _, _⟩ :=
    redirect_null_spec env _ D (Slot.str op) (Slot.null :: stale) (mode_of op) (msg_of op)
      h1_tok2
  have e2 : (D.length : Int) + 2 = ((D ++ [Slot.null, Slot.null]).length : Int) := by
    simp
  have hr_tok2 : f2.tokens = (D ++ [Slot.null, Slot.null]) ++ Slot.null :: stale := by
    rw [hr_tok]; simp
  have hend : redir_loop env (k + m + 1) ((D ++ [Slot.null, Slot.null]).length : Int) f2 =
      .ok f2 := by
    rw [redir_loop, hr_tok2, slot_get_append]
    rfl
  have hrun : redir_loop env (k + 2 + rest.length) pre.length f = .ok f2 := by
    rw [h1, efuel, hstep, hr, Res.bind_ok, e2, hend]
  have hmem : Effect.perror (msg_of op) ∈ f2.trace := by
    rw [hr_tr]; simp
  have hl2 : launches f2.trace = launches f.trace := by
    rw [hr_tr, launches_append, ← h1_l]; simp [launches]
  rcases h1_more with hm | ⟨tl, hm⟩
  · subst hm
    exact ⟨f2, Slot.null :: Slot.null :: stale, hrun, by rw [hr_tok, hD]; simp, hl2,
      by rw [hr_p]; exact h1_p, hmem⟩
  · subst hm
    exact ⟨f2, tl ++ Slot.null :: Slot.null :: Slot.null :: stale, hrun,
      by rw [hr_tok, hD]; simp, hl2, by rw [hr_p]; exact h1_p, hmem⟩

/-- The run of `parse_string` on the tokens of a line without a pipe that ends with an
operator without its file, for a command that is no built-in: the failure is reported
and one child is launched all the same. -/
theorem parse_tokens_trailing (env : Env) (hs : HistoryStore) (cmd : CStr)
    (mid : List CStr) (op : CStr) (stale : List Slot) (fd0 fd1 : Desc)
    (hlen : (token_array (cmd :: mid ++ [op]) (Slot.null :: stale)).length = MAX_TOKENS)
    (hpipe : ['|'] ∉ cmd :: mid) (hwf : redirs_have_files mid = true)
    (hop : is_redir op = true) (hb : is_builtin cmd = false) :
    ∃ f l, parse_tokens env hs (token_array (cmd :: mid ++ [op]) (Slot.null :: stale))
        fd0 fd1 = .ok f ∧
      Effect.perror (msg_of op) ∈ f.trace ∧ launches f.trace = [l] ∧
      l.argv = ((cmd :: mid.takeWhile (fun t => !is_redir t)).takeWhile
        (fun t => decide (t ≠ ['&']))).map Slot.str := by
  have hlen1 : mid.length + stale.length + 4 = 100 := by
    simp only [token_array, MAX_TOKENS, List.length_append, List.length_map, List.length_cons,
      List.length_nil] at hlen
    omega
  have hop_ne : op ≠ ['|'] := by
    rcases (is_redir_iff op).1 hop with h | h | h <;> subst h <;> decide
  have hpipe2 : ['|'] ∉ cmd :: mid ++ [op] := by
    intro h
    simp only [List.mem_cons, List.mem_append, List.mem_singleton, List.not_mem_nil,
      or_false] at h hpipe
    rcases h with h | h
    · exact hpipe h
    · exact hop_ne h.symm
  have hg0 : slot_get (token_array (cmd :: mid ++ [op]) (Slot.null :: stale)) 0 =
      some (Slot.str cmd) := by
    simp [token_array, slot_get]
  have hs0 : slot_set (List.replicate MAX_TOKENS Slot.junk) 0 (Slot.str cmd) =
      some ((List.replicate MAX_TOKENS Slot.junk).set 0 (Slot.str cmd)) :=
    slot_set_of_lt _ 0 _ (by simp [MAX_TOKENS])
  rw [parse_tokens, hg0, orFault_some, Res.ok_bind]
  simp only [reduceCtorEq, if_false, hs0, orFault_some, Res.ok_bind]
  rw [scan_loop_no_pipe env (cmd :: mid ++ [op]) (Slot.null :: stale) _ _ rfl hpipe2
    (by simp only [List.length_cons, List.length_append, List.length_nil, MAX_TOKENS]; omega),
    Res.ok_bind]
  obtain ⟨f2, tail, h2, h2_tok, h2_l, h2_p, h2_mem⟩ :=
    redir_loop_trailing env mid op [Slot.str cmd] stale
      { tokens := token_array (cmd :: mid ++ [op]) (Slot.null :: stale), fd0 := fd0,
        fd1 := fd1, trace := [],
        first_phrase := (List.replicate MAX_TOKENS Slot.junk).set 0 (Slot.str cmd),
        curr_phrase := List.replicate MAX_TOKENS Slot.junk, is_piped := 0 }
      (MAX_TOKENS + 1) (by simp [token_array]) (by simpa using hlen.symm) hwf
      (fun h => hpipe (List.mem_cons_of_mem _ h)) hop (by simp only [MAX_TOKENS]; omega)
  simp only [List.length_singleton, Nat.cast_one] at h2
  rw [h2, Res.ok_bind]
  have h2_tok1 : f2.tokens = (cmd :: mid.takeWhile (fun t => !is_redir t)).map Slot.str ++
      Slot.null :: tail := by simpa using h2_tok
  have h2_tok2 : f2.tokens = Slot.str cmd ::
      ((mid.takeWhile (fun t => !is_redir t)).map Slot.str ++ Slot.null :: tail) := by
    simpa using h2_tok
  have hlen2 : (cmd :: mid.takeWhile (fun t => !is_redir t)).length + 1 ≤ MAX_TOKENS + 1 := by
    have := (List.takeWhile_sublist (l := mid) (fun t => !is_redir t)).length_le
    simp only [List.length_cons, MAX_TOKENS]; omega
  obtain ⟨f3, file, h3, h3_tr⟩ := process_spec _ tail f2 h2_tok1 hlen2
  rw [dispatch, builtin_cmd_handler_other env hs f2 cmd _ h2_tok2 hb, Res.bind_ok]
  simp only [ne_eq, not_true_eq_false, if_false, h2_p, if_true, h3, Res.bind_ok]
  refine ⟨{ f3 with fd0 := fd0, fd1 := fd1 }, ⟨file,
    ((cmd :: mid.takeWhile (fun t => !is_redir t)).takeWhile
      (fun t => decide (t ≠ ['&']))).map Slot.str, f2.fd0, f2.fd1,
    decide (['&'] ∉ cmd :: mid.takeWhile (fun t => !is_redir t))⟩, rfl, ?_, ?_, rfl⟩
  · simp only [h3_tr, List.mem_append]
    exact Or.inl h2_mem
  · simp only [h3_tr, launches_append, h2_l, launches, List.nil_append]

/-! ### The empty line -/

/-- A token array that starts with two `NULL` cells (the empty line in a fresh array):
`parse_string` reports it and goes on to `builtin_cmd_handler`, which passes the absent
`tokens[0]` to `strcmp`. -/
theorem parse_tokens_no_tokens (env : Env) (hs : HistoryStore) (stale : List Slot)
    (fd0 fd1 : Desc) :
    parse_tokens env hs (Slot.null :: Slot.null :: stale) fd0 fd1 =
      .fault [.perror .no_tokens] := by
  have hg0 : slot_get (Slot.null :: Slot.null :: stale) 0 = some Slot.null := by
    simp [slot_get]
  have hg1 : slot_get (Slot.null :: Slot.null :: stale) 1 = some Slot.null := by
    simp [slot_get]
  have hs0 : slot_set (List.replicate MAX_TOKENS Slot.junk) 0 Slot.null =
      some ((List.replicate MAX_TOKENS Slot.junk).set 0 Slot.null) :=
    slot_set_of_lt _ 0 _ (by simp [MAX_TOKENS])
  rw [parse_tokens, hg0, orFault_some, Res.ok_bind]
  simp only [if_true, hs0, orFault_some, Res.ok_bind]
  rw [scan_loop_no_pipe env [] (Slot.null :: stale) _ _ rfl (by simp)
    (by simp [MAX_TOKENS]), Res.ok_bind]
  rw [redir_loop]
  simp only [hg1, orFault_some, Res.ok_bind, Res.pure_eq, dispatch, builtin_cmd_handler, hg0,
    Res.bind]

set_option maxRecDepth 100000 in
/-- C13 fails on the empty line and on a line of spaces, in a fresh array and in the
array left by the line `ls -la`: `parse_string` prints `no tokens` with `perror` and
does not return; the run ends in `builtin_cmd_handler` at the dereference of the absent
`tokens[0]`. -/
theorem parse_string_empty_line_faults :
    parse_string permissive empty_store [] no_tokens .tty .tty = .fault [.perror .no_tokens] ∧
    parse_string permissive empty_store "   ".toList no_tokens .tty .tty =
      .fault [.perror .no_tokens] ∧
    parse_string permissive empty_store [] tokens_after_ls .tty .tty =
      .fault [.perror .no_tokens] := by
  decide

/-! ### The operator without a file -/

set_option maxRecDepth 100000 in
/-- C14, as stated, fails: on the tokens of `ls >` the failed `open` is reported and the
child `ls` is launched all the same; and cell 3, behind the terminator in cell 2, is
read: the token `c` left there by an earlier line is copied to `first_phrase`. -/
theorem parse_tokens_runs_after_missing_file :
    trailing_redirect_line.getLast? = some ['>'] ∧
    trace_of (parse_tokens permissive empty_store tokens_ls_after_echo .tty .tty) =
      [.perror .redir_out,
       .exec ⟨.str "ls".toList, [.str "ls".toList], .tty, .tty, true⟩] ∧
    slot_get tokens_ls_after_echo 2 = some .null ∧
    (frame_of (parse_tokens permissive empty_store tokens_ls_after_echo .tty .tty)).map
      (fun f => slot_get f.first_phrase 3) = some (some (.str "c".toList)) := by
  decide

/-- C14, amended: for every token list `cmd :: mid ++ [op]` without a `|` token, with
`op` one of `<`, `>` and `>>`, every operator of `mid` followed by its file and a command
that is no built-in, in an array with a `NULL` in the cell after the terminator:
`parse_string` reports the failed `open` with `perror` and does not abandon the line; it
returns after launching one child, whose argv is the tokens before the first redirection
operator, cut at the first `&`. -/
theorem parse_tokens_reports_missing_file (env : Env) (hs : HistoryStore) (cmd : CStr)
    (mid : List CStr) (op : CStr) (stale : List Slot) (fd0 fd1 : Desc)
    (hlen : (token_array (cmd :: mid ++ [op]) (Slot.null :: stale)).length = MAX_TOKENS)
    (hpipe : ['|'] ∉ cmd :: mid) (hwf : redirs_have_files mid = true)
    (hop : is_redir op = true) (hb : is_builtin cmd = false) :
    ∃ f, parse_tokens env hs (token_array (cmd :: mid ++ [op]) (Slot.null :: stale))
        fd0 fd1 = .ok f ∧
      Effect.perror (msg_of op) ∈ f.trace ∧
      (launches f.trace).map Launch.argv =
        [((cmd :: mid.takeWhile (fun t => !is_redir t)).takeWhile
          (fun t => decide (t ≠ ['&']))).map Slot.str] := by
  obtain ⟨f, l, h, hmem, hl, hargv⟩ :=
    parse_tokens_trailing env hs cmd mid op stale fd0 fd1 hlen hpipe hwf hop hb
  exact ⟨f, h, hmem, by rw [hl, List.map_singleton, hargv]⟩

/-- C14 (amended) at the tokens of `sort -r < in.txt >>`. -/
theorem parse_tokens_reports_missing_file_witness :
    (token_array ("sort".toList :: ["-r".toList, "<".toList, "in.txt".toList] ++
      [">>".toList]) (Slot.null :: fresh_cells 6)).length = MAX_TOKENS ∧
    ['|'] ∉ "sort".toList :: ["-r".toList, "<".toList, "in.txt".toList] ∧
    redirs_have_files ["-r".toList, "<".toList, "in.txt".toList] = true ∧
    is_redir ">>".toList = true ∧ is_builtin "sort".toList = false ∧
    ∃ f, parse_tokens permissive empty_store
        (token_array ("sort".toList :: ["-r".toList, "<".toList, "in.txt".toList] ++
          [">>".toList]) (Slot.null :: fresh_cells 6)) .tty .tty = .ok f ∧
      Effect.perror (msg_of ">>".toList) ∈ f.trace ∧
      (launches f.trace).map Launch.argv =
        [(("sort".toList :: ["-r".toList, "<".toList, "in.txt".toList].takeWhile
          (fun t => !is_redir t)).takeWhile (fun t => decide (t ≠ ['&']))).map Slot.str] :=
  ⟨by decide, by decide, by decide, by decide, by decide,
    parse_tokens_reports_missing_file permissive empty_store "sort".toList
      ["-r".toList, "<".toList, "in.txt".toList] ">>".toList (fresh_cells 6) .tty .tty
      (by decide) (by decide) (by decide) (by decide) (by decide)⟩

/-! ### The built-in `cd` -/

/-- C18 fails on `cd` without an argument: `tokens[1]` is the `NULL` terminator and
`builtin_cmd_handler` dereferences it (`*tokens[1] == '~'`), whatever the environment,
the history and the frame; in `shell.c` and in `key_shell.c`. -/
theorem builtin_cmd_handler_cd_alone_faults (env : Env) (hs : HistoryStore) (f : Frame)
    (stale : List Slot) :
    builtin_cmd_handler env hs { f with tokens := token_array ["cd".toList] stale } =
      .fault f.trace ∧
    key_builtin_cmd_handler hs { f with tokens := token_array ["cd".toList] stale } =
      .fault f.trace := by
  constructor
  · simp [builtin_cmd_handler, token_array, slot_get]
  · simp [key_builtin_cmd_handler, token_array, slot_get]

/-- With an argument `cd` returns 1: the home directory for an argument that begins with
`~`, else the directory named, a failure of `chdir` being reported with `perror`. -/
theorem builtin_cmd_handler_cd_argument (env : Env) (hs : HistoryStore) (f : Frame)
    (path : CStr) (stale : List Slot) :
    ∃ f1, builtin_cmd_handler env hs
        { f with tokens := token_array ["cd".toList, path] stale } = .ok (1, f1) ∧
      f1.trace = f.trace ++
        (if path.head? = some '~' then [.chdir_home]
         else if env.can_chdir path then [.chdir path]
         else [.chdir path, .perror .cd]) := by
  have hg0 : slot_get (token_array ["cd".toList, path] stale) 0 =
      some (.str "cd".toList) := by
    simp [token_array, slot_get]
  have hg1 : slot_get (token_array ["cd".toList, path] stale) 1 = some (.str path) := by
    simp [token_array, slot_get]
  rw [builtin_cmd_handler]
  simp only [hg0, hg1]
  rw [if_neg (by decide), if_pos trivial]
  split_ifs <;> exact ⟨_, rfl, rfl⟩

set_option maxRecDepth 100000 in
/-- The line `cd` through `parse_string`: the run ends at the dereference, nothing done. -/
theorem parse_string_cd_alone_example :
    parse_string permissive empty_store "cd".toList no_tokens .tty .tty = .fault [] := by
  decide

/-! ### The line editor: letters, Backspace, recalled lines, the end of the history -/

/-- One iteration of the loop of `get_input` on a printable byte other than the letters
`U` and `D`, with room in the buffer: the byte is drawn, stored at `str[pos]`, and `pos`
grows by one. -/
theorem get_input_loop_printable (fuel : Nat) (e : Editor) (c : Char) (rest : List Char)
    (hin : e.stdin = c :: rest) (hlo : 32 ≤ c.toNat) (hhi : c.toNat ≤ 126)
    (hU : c ≠ 'U') (hD : c ≠ 'D') (h0 : 0 ≤ e.pos) (hlen : e.pos.toNat < e.str.length)
    (hroom : e.pos + 1 < 999) :
    get_input_loop (fuel + 1) e = get_input_loop fuel
      { e with
        stdin := rest
        non_space := if c.toNat > 32 then 1 else e.non_space
        tty := e.tty.put c
        str := e.str.set e.pos.toNat c
        pos := e.pos + 1 } := by
  have hesc : c ≠ ESC := by
    intro h; rw [h] at hlo; revert hlo; decide
  have hnl : c ≠ '\n' := by
    intro h; rw [h] at hlo; revert hlo; decide
  have hread : (read_arrow_key e).bind key_value = .ok (c, { e with stdin := rest }) := by
    simp only [read_arrow_key, getch, hin, Res.bind, if_neg hesc, key_value]
  rw [get_input_loop, hread, Res.bind_ok]
  have hUD : ¬ (c = 'U' ∨ c = 'D') := by
    rintro (h | h)
    · exact hU h
    · exact hD h
  simp only [if_neg hUD, if_neg hnl]
  have h127 : ¬ (c.toNat = 127 ∧ (if c.toNat > 32 ∧ c.toNat ≤ 126 then
      ({ e with stdin := rest, non_space := 1 } : Editor)
      else { e with stdin := rest }).pos ≥ 0) := by
    intro h; omega
  rw [if_neg h127, if_pos ⟨hlo, hhi⟩]
  by_cases h32 : c.toNat > 32
  · rw [if_pos ⟨h32, hhi⟩, if_pos h32]
    simp only [buf_set]
    rw [if_pos ⟨h0, hlen⟩]
    simp only [if_pos hroom]
  · rw [if_neg (fun h => h32 h.1), if_neg h32]
    simp only [buf_set]
    rw [if_pos ⟨h0, hlen⟩]
    simp only [if_pos hroom]

set_option maxRecDepth 100000 in
/-- C15, failing input: the letter `U` typed after `l`, and the letter `D` typed after
`pw`. The decoder hands the letter to `get_input` as it hands an arrow, and `get_input`
erases the line and loads `history[history_index]` (an unused, empty row): the letter is
not appended, the length falls to 0. In `get_command` of `arrows.c` the typed `U` moves
the cursor as well and recalls `ls`. -/
theorem get_input_takes_letter_for_arrow :
    (state_of (get_input empty_store dirty_buffer prompt_tty ['l'])).map
        (fun e => (e.tty.text 3, e.str.take 1, e.pos, e.on_cmd_index))
      = some (['l'], ['l'], 1, 0) ∧
    (state_of (get_input empty_store dirty_buffer prompt_tty ['l', 'U'])).map
        (fun e => (e.tty.text 3, e.str.take 1, e.pos, e.on_cmd_index))
      = some ([], [NUL], 0, 1) ∧
    (state_of (get_input ls_store dirty_buffer prompt_tty ['p', 'w', 'D'])).map
        (fun e => (e.tty.text 3, e.str.take 1, e.pos, e.on_cmd_index))
      = some ([], [NUL], 0, -1) ∧
    (command_state (get_command ls_store dirty_buffer prompt_tty ['p', 'U'])).map
        (fun e => (e.str.take 3, e.pos, e.hs.history_index))
      = some (['l', 's', NUL], 2, 0) := by
  decide

set_option maxRecDepth 100000 in
/-- C16, failing input: Backspace on the empty line, then `x`. The guard of `get_input`
is `pos >= 0`, so the Backspace makes `pos` -1, and the `x` is written to `str[-1]`,
outside the buffer (the run of the embedding stops there). `get_command` of `arrows.c`
has the guard `pos > 0`: there `pos` stays 0 and the `x` goes to index 0. -/
theorem get_input_backspace_below_zero :
    (state_of (get_input empty_store dirty_buffer prompt_tty [DEL])).map
        (fun e => e.pos) = some (-1) ∧
    editor_faulted (get_input empty_store dirty_buffer prompt_tty [DEL, 'x']) = true ∧
    (state_of (get_input empty_store dirty_buffer prompt_tty [DEL, 'x'])).map
        (fun e => (e.pos, e.str.take 1)) = some (-1, ['z']) ∧
    (command_state (get_command empty_store dirty_buffer prompt_tty [DEL, 'x'])).map
        (fun e => (e.pos, e.str.take 1)) = some (1, ['x']) := by
  decide

set_option maxRecDepth 100000 in
/-- C17, failing input: with the history `ls`, the keys ArrowUp, Backspace, Enter. Before
the Enter the line shows `l`; `get_input` returns 0 with `ls` in `str` and appends `ls`
to the history: after a recall the Enter branch calls `add_to_history(str)` without
`str[pos] = 0`. With ` -l` typed after the recall, in the buffer that the line
`echo hello` has left, the terminator written by the recall is overwritten: the line
shows `ls -l`, the string returned and appended is `ls -lhello`. -/
theorem get_input_returns_recalled_line :
    (state_of (get_input ls_store dirty_buffer prompt_tty (ARROW_UP ++ [DEL]))).map
        (fun e => (e.tty.text 3, e.pos)) = some (['l'], 1) ∧
    return_value (get_input ls_store dirty_buffer prompt_tty (ARROW_UP ++ [DEL, '\n']))
      = some 0 ∧
    (state_of (get_input ls_store dirty_buffer prompt_tty (ARROW_UP ++ [DEL, '\n']))).map
        (fun e => (buf_cstr e.str, e.hs.history.take 2, e.hs.history_count))
      = some (some "ls".toList, ["ls".toList, "ls".toList], 2) ∧
    (state_of (get_input ls_store used_buffer prompt_tty (ARROW_UP ++ [' ', '-', 'l']))).map
        (fun e => (e.tty.text 3, e.pos)) = some ("ls -l".toList, 5) ∧
    return_value (get_input ls_store used_buffer prompt_tty
      (ARROW_UP ++ [' ', '-', 'l', '\n'])) = some 0 ∧
    (state_of (get_input ls_store used_buffer prompt_tty
      (ARROW_UP ++ [' ', '-', 'l', '\n']))).map
        (fun e => (buf_cstr e.str, e.hs.history.take 2))
      = some (some "ls -lhello".toList, ["ls".toList, "ls -lhello".toList]) := by
  decide

/-- A sequence of `add_to_history` calls that fits the array fills the first rows in
order and leaves the other rows unused, with the cursor behind the last entry. -/
theorem add_all_spec (cmds : List CStr) : ∀ (entries : List CStr) (hs : HistoryStore),
    hs.history = entries ++ List.replicate (HISTORY_SIZE - entries.length) [] →
    hs.history_count = entries.length →
    (entries = [] → hs.history_index = 0) →
    (entries ≠ [] → hs.history_index = entries.length) →
    entries.length + cmds.length ≤ HISTORY_SIZE → (∀ c ∈ cmds, c.length < ROW_SIZE) →
    add_all cmds hs = .ok
      { history := (entries ++ cmds) ++
          List.replicate (HISTORY_SIZE - (entries ++ cmds).length) [],
        history_count := (entries ++ cmds).length,
        history_index := (entries ++ cmds).length } := by
  induction cmds with
  | nil =>
    intro entries hs hh hc hi0 hi1 _ _
    simp only [add_all, List.append_nil, Res.ok.injEq]
    rcases hs with ⟨history, cnt, idx⟩
    simp only at hh hc hi0 hi1
    subst hh hc
    by_cases he : entries = []
    · rw [hi0 he, he]; rfl
    · rw [hi1 he]
  | cons c cs ih =>
    intro entries hs hh hc _ _ hlen hshort
    simp only [List.length_cons] at hlen
    have hlt : entries.length < HISTORY_SIZE := by omega
    have hfull : ¬ hs.history_count = (HISTORY_SIZE : Int) := by
      rw [hc]; intro h; have := Int.ofNat.inj h; omega
    have hl : hs.history.length = HISTORY_SIZE := by
      rw [hh]; simp only [List.length_append, List.length_replicate]; omega
    have hadd : add_to_history hs c = .ok
        { history := hs.history.set entries.length c,
          history_count := (entries.length : Int) + 1,
          history_index := (entries.length : Int) + 1 } := by
      unfold add_to_history
      rw [if_neg hfull]
      simp only [bind, Res.bind, pure]
      rw [hc, row_strcpy_ok hs.history entries.length c hlt hl (hshort c (by simp))]
    rw [add_all, hadd, Res.bind_ok]
    have hset : hs.history.set entries.length c =
        (entries ++ [c]) ++ List.replicate (HISTORY_SIZE - (entries ++ [c]).length) [] := by
      rw [hh]
      obtain ⟨k, hk⟩ : ∃ k, HISTORY_SIZE - entries.length = k + 1 :=
        ⟨HISTORY_SIZE - entries.length - 1, by omega⟩
      have hk2 : HISTORY_SIZE - (entries ++ [c]).length = k := by
        simp only [List.length_append, List.length_singleton]; omega
      rw [hk, hk2, List.replicate_succ, List.set_append_right _ _ (le_refl _)]
      simp
    have := ih (entries ++ [c])
      { history := hs.history.set entries.length c,
        history_count := (entries.length : Int) + 1,
        history_index := (entries.length : Int) + 1 }
      hset (by simp) (fun h => by simp at h) (fun _ => by simp)
      (by simp only [List.length_append, List.length_singleton]; omega)
      (fun x hx => hshort x (List.mem_cons_of_mem _ hx))
    rw [this]
    simp

/-- In a store with fewer than 100 entries the row at `history_index == history_count`
is unused: the recall replaces the buffer by the empty string and sets the length to 0. -/
theorem recall_line_behind_entries (ch : Char) (e : Editor) (entries : List CStr)
    (hh : e.hs.history = entries ++ List.replicate (HISTORY_SIZE - entries.length) [])
    (hi : e.hs.history_index = entries.length) (hlt : entries.length < HISTORY_SIZE)
    (hbuf : 0 < e.str.length) :
    ∃ e1, recall_line ch e = .ok e1 ∧ e1.pos = 0 ∧ buf_cstr e1.str = some [] ∧
      e1.hs = e.hs := by
  have hl : e.hs.history.length = HISTORY_SIZE := by
    rw [hh]; simp only [List.length_append, List.length_replicate]; omega
  have hrow : row_get e.hs.history e.hs.history_index = .ok [] := by
    rw [hi, row_get_ok _ _ hlt hl, hh]
    obtain ⟨k, hk⟩ : ∃ k, HISTORY_SIZE - entries.length = k + 1 :=
      ⟨HISTORY_SIZE - entries.length - 1, by omega⟩
    rw [hk, List.replicate_succ]
    simp [List.getD_eq_getElem?_getD, List.getElem?_append_right (le_refl _)]
  have hcpy : buf_strcpy e.str [] = some (NUL :: e.str.drop 1) := by
    unfold buf_strcpy
    rw [if_pos (by simpa using hbuf)]
    simp
  unfold recall_line
  rw [hrow]
  simp only [hcpy]
  exact ⟨_, rfl, rfl, by simp [buf_cstr], rfl⟩

set_option maxRecDepth 100000 in
/-- The store `filled_store` is reached from the empty store by a hundred calls of
`add_to_history`. -/
theorem filled_store_reachable : add_all hundred_commands empty_store = .ok filled_store := by
  decide

set_option maxRecDepth 100000 in
/-- C19, failing input: the full store reached by a hundred calls of `add_to_history`,
the keys ArrowUp, ArrowDown. The ArrowDown moves the cursor from 99 to 100, the length,
and `get_input` reads `history[100]`, the row behind the array of 100 rows (the run of
the embedding stops there, with the recalled line still in the buffer). With the single
entry `ls` the same keys load the unused row 1: the buffer is empty, the length 0. -/
theorem get_input_reads_row_past_history :
    (state_of (get_input filled_store dirty_buffer prompt_tty ARROW_UP)).map
        (fun e => (e.hs.history_index, e.hs.history_count, e.pos)) = some (99, 100, 100) ∧
    editor_faulted (get_input filled_store dirty_buffer prompt_tty
      (ARROW_UP ++ ARROW_DOWN)) = true ∧
    (state_of (get_input filled_store dirty_buffer prompt_tty (ARROW_UP ++ ARROW_DOWN))).map
        (fun e => (e.hs.history_index, e.hs.history.length, e.pos)) = some (100, 100, 100) ∧
    row_get filled_store.history 100 = .fault () ∧
    (state_of (get_input ls_store dirty_buffer prompt_tty (ARROW_UP ++ ARROW_DOWN))).map
        (fun e => (e.tty.text 3, e.str.take 1, e.pos, e.hs.history_index))
      = some ([], [NUL], 0, 1) := by
  decide

end Shell
